import Mathlib

/-!
# leakybucket: a shallow embedding of the rate limiter and the zone rate limiter

The Go package `ratelimit` (files `limiter.go`, `default_limiter.go`,
`zone_limiter.go`) is embedded as pure Lean functions with explicit state
passing.

* `int64` values are `Int`s; every `int64` operation of the source is followed by
  `wrap64`, the two's-complement reduction into `[-2^63, 2^63)`.  Division is Go's
  truncated division and a zero divisor is the run-time panic `divideByZero`.
* `uint32` values (`rate`, `burst`) are `Nat`s; the source never computes on them as
  `uint32`, it only stores them and converts them to `int64`.
* `float64` values are exact fractions; every `float64` operation rounds its exact
  result to 53 significant bits, ties to even (IEEE 754 binary64, round to nearest).
  The exponent range is not modelled: the operands of the delay computation are
  integers of at most 63 bits, their quotient and its product with `1e6`, all far
  inside the normal range of binary64.
* `time.Now().UnixNano()` is an input of the call (`unixNano`).
* The compare-and-swap loop of `GetDelayInMicroseconds` is embedded for one caller at
  a time: the value loaded into `lastExcess` is still the stored one at the
  compare-and-swap, which therefore succeeds in the first iteration.
* A pointer receiver that the source tests against `nil` is an `Option`.
* `zoneMap` (a `sync.Map`) is a lookup function from keys to stored items; a key of
  type `interface{}` is an `Option K`, `none` being `nil`.
-/

namespace ratelimit

/-! ## Machine arithmetic -/

/-- Two's-complement reduction of an integer into the `int64` range. -/
def wrap64 (x : Int) : Int := (x + 2 ^ 63) % 2 ^ 64 - 2 ^ 63

/-- Membership in the `int64` range. -/
def isInt64 (x : Int) : Prop := -(2 ^ 63) ≤ x ∧ x < 2 ^ 63

instance (x : Int) : Decidable (isInt64 x) := by unfold isInt64; infer_instance

/-- Go `a + b` on `int64`. -/
def add64 (a b : Int) : Int := wrap64 (a + b)

/-- Go `a - b` on `int64`. -/
def sub64 (a b : Int) : Int := wrap64 (a - b)

/-- Go `a * b` on `int64`. -/
def mul64 (a b : Int) : Int := wrap64 (a * b)

/-- Run-time panics of the Go program that the embedded code can raise. -/
inductive GoPanic where
  | divideByZero
  | interfaceConversion
  deriving DecidableEq, Repr

/-- Go `a / b` on `int64`: truncated quotient, panic on a zero divisor. -/
def div64 (a b : Int) : Except GoPanic Int :=
  if b = 0 then Except.error GoPanic.divideByZero else Except.ok (wrap64 (Int.tdiv a b))

/-! ## IEEE 754 binary64 arithmetic on exact fractions -/

/-- A float64 value as an exact fraction `num / den`, `den > 0`, not normalised. -/
structure Frac where
  num : Int
  den : Nat
  deriving DecidableEq, Repr

/-- The rational number a fraction stands for. -/
def Frac.toRat (x : Frac) : ℚ := (x.num : ℚ) / (x.den : ℚ)

/-- Number of binary digits of `n`, computed with `fuel` halvings. -/
def bitLenAux : Nat → Nat → Nat
  | 0, _ => 0
  | fuel + 1, n => if n = 0 then 0 else bitLenAux fuel (n / 2) + 1

/-- Number of binary digits of `n` (`0` for `0`). -/
def bitLen (n : Nat) : Nat := bitLenAux n n

/-- Nearest integer to `p / q`, ties to the even one. -/
def roundHalfEven (p q : Nat) : Nat :=
  let n := p / q
  let r := p % q
  if 2 * r < q then n
  else if q < 2 * r then n + 1
  else if n % 2 = 0 then n else n + 1

/-- The integer `L` with `2^L ≤ a / q < 2^(L+1)`, for positive `a` and `q`. -/
def floorLog2 (a q : Nat) : Int :=
  let k : Int := (bitLen a : Int) - (bitLen q : Int)
  if 0 ≤ k then (if q * 2 ^ k.toNat ≤ a then k else k - 1)
  else (if q ≤ a * 2 ^ (-k).toNat then k else k - 1)

/-- Rounding of the positive fraction `a / q` to 53 significant bits. -/
def roundPos (a q : Nat) : Frac :=
  let e : Int := floorLog2 a q - 52
  if 0 ≤ e then
    { num := ((roundHalfEven a (q * 2 ^ e.toNat) * 2 ^ e.toNat : Nat) : Int), den := 1 }
  else
    { num := ((roundHalfEven (a * 2 ^ (-e).toNat) q : Nat) : Int), den := 2 ^ (-e).toNat }

/-- Rounding of the fraction `p / q` (`q > 0`) to the nearest binary64 value. -/
def roundF64 (p : Int) (q : Nat) : Frac :=
  if p = 0 then { num := 0, den := 1 }
  else if 0 < p then roundPos p.toNat q
  else { num := -(roundPos (-p).toNat q).num, den := (roundPos (-p).toNat q).den }

/-- Go `float64(n)` for an `int64` value `n`. -/
def float64OfInt (n : Int) : Frac := roundF64 n 1

/-- Go `x / y` on `float64`, for a non-zero `y`. -/
def fdiv (x y : Frac) : Frac :=
  if 0 ≤ y.num then roundF64 (x.num * (y.den : Int)) (x.den * y.num.toNat)
  else roundF64 (-(x.num * (y.den : Int))) (x.den * (-y.num).toNat)

/-- Go `x * y` on `float64`. -/
def fmul (x y : Frac) : Frac := roundF64 (x.num * y.num) (x.den * y.den)

/-- The float64 constant `1e6`. -/
def f1e6 : Frac := { num := 1000000, den := 1 }

/-- Go `int64(x)` for a `float64` value `x` inside the `int64` range: truncation. -/
def int64OfFloat (x : Frac) : Int := Int.tdiv x.num (x.den : Int)

/-! ## limiter.go -/

/-- Source `type Resolution = int64`: nanoseconds per tick. -/
abbrev Resolution := Int

/-- Source `resolutionDefs`. -/
structure resolutionDefs where
  Microsecond : Resolution
  MicrosecondX10 : Resolution
  MicrosecondX100 : Resolution
  Millisecond : Resolution

/-- Source `ResolutionEnum`; `time.Microsecond = 1000`, `time.Millisecond = 1000000`. -/
def ResolutionEnum : resolutionDefs :=
  { Microsecond := 1000
    MicrosecondX10 := 10 * 1000
    MicrosecondX100 := 100 * 1000
    Millisecond := 1000000 }

/-- The four resolutions of `ResolutionEnum`. -/
def recognized (res : Resolution) : Prop :=
  res = ResolutionEnum.Microsecond ∨ res = ResolutionEnum.MicrosecondX10 ∨
    res = ResolutionEnum.MicrosecondX100 ∨ res = ResolutionEnum.Millisecond

/-- Go `int64(time.Hour)`. -/
def timeHour : Int := 3600000000000

/-- Error values returned by the package. -/
inductive GoError where
  | rejected
  | keyExists
  | keyNotExists
  deriving DecidableEq, Repr

/-- Source `errorReject = errors.New("rejected")`. -/
def errorReject : GoError := GoError.rejected

/-- Source `limiterMeta`: the configuration variables. -/
structure limiterMeta where
  nodelay : Bool
  burst : Nat
  rate : Nat
  resolution : Resolution
  deriving DecidableEq, Repr

/-- Source `limiterRecord`: the dynamic counting variables. -/
structure limiterRecord where
  last : Int
  excess : Int
  deriving DecidableEq, Repr

/-! ## default_limiter.go -/

/-- Source `rateLimiter`. -/
structure rateLimiter extends limiterMeta, limiterRecord
  deriving DecidableEq, Repr

/-- Source `NewRateLimiter`. -/
def NewRateLimiter (rate : Nat) : rateLimiter :=
  { nodelay := false, burst := 0, rate := rate, resolution := ResolutionEnum.Millisecond,
    last := 0, excess := 0 }

/-- Source `(*rateLimiter).SetRate`. -/
def rateLimiter.SetRate (r : Option rateLimiter) (rate : Nat) : Option rateLimiter :=
  match r with
  | some r => some { r with rate := rate }
  | none => none

/-- Source `(*rateLimiter).SetBurst`. -/
def rateLimiter.SetBurst (r : Option rateLimiter) (burst : Nat) : Option rateLimiter :=
  match r with
  | some r => some { r with burst := burst }
  | none => none

/-- Source `(*rateLimiter).SetNodelay`. -/
def rateLimiter.SetNodelay (r : Option rateLimiter) (nodelay : Bool) : Option rateLimiter :=
  match r with
  | some r => some { r with nodelay := nodelay }
  | none => none

/-- Source `(*rateLimiter).SetResolution`. -/
def rateLimiter.SetResolution (r : Option rateLimiter) (resolution : Resolution) :
    Option rateLimiter :=
  match r with
  | some r => some { r with resolution := resolution }
  | none => none

/-- Source `(*rateLimiter).GetDelayInMicroseconds`, the receiver being the pointee (the
source dereferences it without a nil test).  The result is the returned pair
`(delay, err)` and the limiter after the call. -/
def rateLimiter.GetDelayInMicroseconds (r : rateLimiter) (unixNano : Int) :
    Except GoPanic ((Int × Option GoError) × rateLimiter) :=
  if r.rate = 0 then Except.ok ((0, some errorReject), r)
  else do
    let resolutionFactor ← div64 1000000000 r.resolution
    let rate := mul64 (r.rate : Int) resolutionFactor
    let burst := mul64 (r.burst : Int) resolutionFactor
    let now ← div64 unixNano r.resolution
    let elapsed := sub64 now r.last
    let hour ← div64 timeHour r.resolution
    let elapsed := if hour < elapsed then hour else elapsed
    let lastExcess := r.excess
    let perTick ← div64 rate resolutionFactor
    let excess := add64 (sub64 lastExcess (mul64 perTick elapsed)) resolutionFactor
    let excess := if excess < 0 then 0 else excess
    if burst < excess then Except.ok ((0, some errorReject), r)
    else
      let r1 : rateLimiter := { r with excess := excess, last := now }
      if !r.nodelay then
        let delayInSecond := fdiv (float64OfInt excess) (float64OfInt rate)
        Except.ok ((int64OfFloat (fmul delayInSecond f1e6), none), r1)
      else Except.ok ((0, none), r1)

/-- Source `(*rateLimiter).Get`.  The result is the returned error, the durations (in
nanoseconds) handed to `time.Sleep`, and the limiter after the call. -/
def rateLimiter.Get (r : rateLimiter) (unixNano : Int) :
    Except GoPanic ((Option GoError × List Int) × rateLimiter) := do
  let ((delay, err), r1) ← rateLimiter.GetDelayInMicroseconds r unixNano
  match err with
  | some e => Except.ok ((some e, []), r1)
  | none =>
    if 0 < delay then Except.ok ((none, [mul64 delay 1000]), r1)
    else Except.ok ((none, []), r1)

/-! ## zone_limiter.go -/

/-- Source `zoneItem`. -/
structure zoneItem extends limiterMeta, limiterRecord
  deriving DecidableEq, Repr

/-- Source `zoneRateLimiter`; `zoneMap` gives the item stored under a key, if any. -/
structure zoneRateLimiter (K : Type) extends limiterMeta where
  zoneMap : K → Option zoneItem

/-- Dynamic types of the pointers the package puts behind an `interface{}`. -/
inductive DynType where
  | ptrZoneItem
  | ptrLimiterMeta
  deriving DecidableEq, Repr

/-- Dynamic type of every value in `zoneMap`: the two `zoneMap.Store` calls of the
package both store a `*zoneItem`. -/
def storedDynType : DynType := DynType.ptrZoneItem

/-- Go type assertion `v.(T)` for a pointer type `T`: it holds when the dynamic type of
`v` is identical to `T` and panics otherwise. -/
def typeAssert (dyn target : DynType) : Except GoPanic Unit :=
  if dyn = target then Except.ok () else Except.error GoPanic.interfaceConversion

/-- Go `zoneMap.Store(key, item)`. -/
def zoneStore {K : Type} [DecidableEq K] (m : K → Option zoneItem) (key : K) (item : zoneItem) :
    K → Option zoneItem :=
  fun k => if k = key then some item else m k

/-- Go `zoneMap.Delete(key)`. -/
def zoneDelete {K : Type} [DecidableEq K] (m : K → Option zoneItem) (key : K) :
    K → Option zoneItem :=
  fun k => if k = key then none else m k

/-- Source `NewZoneRateLimiter`. -/
def NewZoneRateLimiter (K : Type) (rate : Nat) : zoneRateLimiter K :=
  { nodelay := false, burst := 0, rate := rate, resolution := ResolutionEnum.Millisecond,
    zoneMap := fun _ => none }

/-- Source `(*zoneRateLimiter).SetRate`. -/
def zoneRateLimiter.SetRate {K : Type} (z : Option (zoneRateLimiter K)) (rate : Nat) :
    Option (zoneRateLimiter K) :=
  match z with
  | some z => some { z with rate := rate }
  | none => none

/-- Source `(*zoneRateLimiter).SetBurst`. -/
def zoneRateLimiter.SetBurst {K : Type} (z : Option (zoneRateLimiter K)) (burst : Nat) :
    Option (zoneRateLimiter K) :=
  match z with
  | some z => some { z with burst := burst }
  | none => none

/-- Source `(*zoneRateLimiter).SetNodelay`. -/
def zoneRateLimiter.SetNodelay {K : Type} (z : Option (zoneRateLimiter K)) (nodelay : Bool) :
    Option (zoneRateLimiter K) :=
  match z with
  | some z => some { z with nodelay := nodelay }
  | none => none

/-- Source `(*zoneRateLimiter).SetResolution`. -/
def zoneRateLimiter.SetResolution {K : Type} (z : Option (zoneRateLimiter K))
    (resolution : Resolution) : Option (zoneRateLimiter K) :=
  match z with
  | some z => some { z with resolution := resolution }
  | none => none

/-- The item `&zoneItem{}` after the assignments of `nodelay`, `rate`, `burst` and the two
atomic stores of `0`; its `resolution` keeps the zero value. -/
def newZoneItem (nodelay : Bool) (rate burst : Nat) : zoneItem :=
  { nodelay := nodelay, burst := burst, rate := rate, resolution := 0, last := 0, excess := 0 }

/-- Source `(*zoneRateLimiter).AddZoneItem`: the returned error and the registry after
the call. -/
def zoneRateLimiter.AddZoneItem {K : Type} [DecidableEq K] (z : Option (zoneRateLimiter K))
    (key : Option K) : Option GoError × Option (zoneRateLimiter K) :=
  match z, key with
  | some z, some k =>
    match z.zoneMap k with
    | some _ => (some GoError.keyExists, some z)
    | none =>
      (none, some { z with zoneMap := zoneStore z.zoneMap k (newZoneItem z.nodelay z.rate z.burst) })
  | z, _ => (none, z)

/-- Source `(*zoneRateLimiter).DeleteZoneItem`: the returned error and the registry after
the call. -/
def zoneRateLimiter.DeleteZoneItem {K : Type} [DecidableEq K] (z : Option (zoneRateLimiter K))
    (key : Option K) : Option GoError × Option (zoneRateLimiter K) :=
  match z, key with
  | some z, some k =>
    match z.zoneMap k with
    | none => (some GoError.keyNotExists, some z)
    | some _ => (none, some { z with zoneMap := zoneDelete z.zoneMap k })
  | z, _ => (none, z)

/-- Source `(*zoneRateLimiter).SetZoneItem`: the registry after the call, or the panic
of the type assertion `v.(*limiterMeta)`. -/
def zoneRateLimiter.SetZoneItem {K : Type} [DecidableEq K] (z : Option (zoneRateLimiter K))
    (key : Option K) (rate burst : Nat) (nodelay : Bool) :
    Except GoPanic (Option (zoneRateLimiter K)) :=
  match z, key with
  | some z, some k =>
    match z.zoneMap k with
    | some v => do
      typeAssert storedDynType DynType.ptrLimiterMeta
      let item : zoneItem := { v with burst := burst, rate := rate, nodelay := nodelay }
      Except.ok (some { z with zoneMap := zoneStore z.zoneMap k item })
    | none =>
      Except.ok (some { z with zoneMap := zoneStore z.zoneMap k (newZoneItem nodelay rate burst) })
  | z, _ => Except.ok z

/-- Source `(*zoneRateLimiter).GetDelayInMicroseconds`, the receiver being the pointee.
The result is the returned pair `(delay, err)` and the registry after the call. -/
def zoneRateLimiter.GetDelayInMicroseconds {K : Type} [DecidableEq K] (z : zoneRateLimiter K)
    (key : Option K) (unixNano : Int) :
    Except GoPanic ((Int × Option GoError) × zoneRateLimiter K) :=
  match key with
  | none => Except.ok ((0, none), z)
  | some k =>
    match z.zoneMap k with
    | none => Except.ok ((0, none), z)
    | some item => do
      typeAssert storedDynType DynType.ptrZoneItem
      if item.rate ≤ 0 then Except.ok ((0, some errorReject), z)
      else do
        let resolutionFactor ← div64 1000000000 z.resolution
        let rate := mul64 (item.rate : Int) resolutionFactor
        let burst := mul64 (item.burst : Int) resolutionFactor
        let now ← div64 unixNano z.resolution
        let elapsed := sub64 now item.last
        let hour ← div64 timeHour z.resolution
        let elapsed := if hour < elapsed then hour else elapsed
        let lastExcess := item.excess
        let perTick ← div64 rate resolutionFactor
        let excess := add64 (sub64 lastExcess (mul64 perTick elapsed)) resolutionFactor
        let excess := if excess < 0 then 0 else excess
        if burst < excess then Except.ok ((0, some errorReject), z)
        else
          let item1 : zoneItem := { item with excess := excess, last := now }
          let z1 : zoneRateLimiter K := { z with zoneMap := zoneStore z.zoneMap k item1 }
          if !item.nodelay then
            let delayInSecond := fdiv (float64OfInt excess) (float64OfInt rate)
            Except.ok ((int64OfFloat (fmul delayInSecond f1e6), none), z1)
          else Except.ok ((0, none), z1)

/-- Source `(*zoneRateLimiter).Get`.  The result is the returned error, the durations (in
nanoseconds) handed to `time.Sleep`, and the registry after the call. -/
def zoneRateLimiter.Get {K : Type} [DecidableEq K] (z : zoneRateLimiter K) (key : Option K)
    (unixNano : Int) : Except GoPanic ((Option GoError × List Int) × zoneRateLimiter K) := do
  let ((delay, err), z1) ← zoneRateLimiter.GetDelayInMicroseconds z key unixNano
  match err with
  | some e => Except.ok ((some e, []), z1)
  | none =>
    if 0 < delay then Except.ok ((none, [mul64 delay 1000]), z1)
    else Except.ok ((none, []), z1)

/-! ## Values of the local variables of `GetDelayInMicroseconds` -/

/-- Value of the local variable `resolutionFactor`. -/
def factorOf (res : Resolution) : Int := wrap64 (Int.tdiv 1000000000 res)

/-- Value of the local variable `now`. -/
def tickOf (unixNano : Int) (res : Resolution) : Int := wrap64 (Int.tdiv unixNano res)

/-- Value of `int64(time.Hour) / resolution`. -/
def hourTicks (res : Resolution) : Int := wrap64 (Int.tdiv timeHour res)

/-- Value of the local variable `elapsed` after the one-hour quota. -/
def elapsedOf (res : Resolution) (last unixNano : Int) : Int :=
  if hourTicks res < sub64 (tickOf unixNano res) last then hourTicks res
  else sub64 (tickOf unixNano res) last

/-- Value of the local variable `excess` after the clamp at zero. -/
def excessOf (rate : Nat) (res : Resolution) (excess last unixNano : Int) : Int :=
  let f := factorOf res
  let e := add64 (sub64 excess (mul64 (wrap64 (Int.tdiv (mul64 (rate : Int) f) f))
    (elapsedOf res last unixNano))) f
  if e < 0 then 0 else e

/-- Value returned as the delay when `nodelay` is false:
`int64(float64(excess) / float64(rate) * 1e6)`. -/
def delayOf (excess rate : Int) : Int :=
  int64OfFloat (fmul (fdiv (float64OfInt excess) (float64OfInt rate)) f1e6)

/-- The single limiter that has the configuration and state of a zone item and the
resolution of its registry. -/
def cellOf {K : Type} (z : zoneRateLimiter K) (item : zoneItem) : rateLimiter :=
  { nodelay := item.nodelay, burst := item.burst, rate := item.rate,
    resolution := z.resolution, last := item.last, excess := item.excess }

/-! ## Concrete limiters and registries used as instances -/

/-- A zone item with rate 0 and some accumulated state. -/
def itemZeroRate : zoneItem :=
  { nodelay := false, burst := 10, rate := 0, resolution := 0, last := 7, excess := 3000 }

/-- A registry (1 millisecond resolution) holding `itemZeroRate` under key 2022. -/
def zoneZeroRate : zoneRateLimiter Nat :=
  { nodelay := false, burst := 100, rate := 10000, resolution := ResolutionEnum.Millisecond,
    zoneMap := fun k => if k = 2022 then some itemZeroRate else none }

/-- A single limiter with rate 1 and burst 0 that has just admitted a call at tick 5. -/
def limiterFull : rateLimiter :=
  { nodelay := false, burst := 0, rate := 1, resolution := ResolutionEnum.Millisecond,
    last := 5, excess := 0 }

/-- The zone item with the configuration and state of `limiterFull`. -/
def itemFull : zoneItem :=
  { nodelay := false, burst := 0, rate := 1, resolution := 0, last := 5, excess := 0 }

/-- A registry (1 millisecond resolution) holding `itemFull` under key 2022. -/
def zoneFull : zoneRateLimiter Nat :=
  { nodelay := false, burst := 100, rate := 10000, resolution := ResolutionEnum.Millisecond,
    zoneMap := fun k => if k = 2022 then some itemFull else none }

/-- A single limiter (1 microsecond resolution) with nodelay set and three requests of
accumulated excess. -/
def limiterNodelay : rateLimiter :=
  { nodelay := true, burst := 10, rate := 1000, resolution := ResolutionEnum.Microsecond,
    last := 1700000000000000, excess := 3000000 }

/-- A registry whose default rate is 0, holding `itemFull` under key 2022. -/
def zoneDefaultZero : zoneRateLimiter Nat :=
  { nodelay := true, burst := 0, rate := 0, resolution := ResolutionEnum.Microsecond,
    zoneMap := fun k => if k = 2022 then some itemFull else none }

/-- The registry of `TestZone1` after `AddZoneItem`, with key 2022. -/
def zoneAdded : Option (zoneRateLimiter Nat) :=
  (zoneRateLimiter.AddZoneItem
    (zoneRateLimiter.SetResolution
      (zoneRateLimiter.SetBurst (some (NewZoneRateLimiter Nat 1000)) 10)
      ResolutionEnum.Microsecond) (some 2022)).2

/-- The limiter `NewRateLimiter(4000000000).SetResolution(ResolutionEnum.Microsecond)`
before its first call. -/
def limiterFast : rateLimiter :=
  { nodelay := false, burst := 0, rate := 4000000000,
    resolution := ResolutionEnum.Microsecond, last := 0, excess := 0 }

/-- A single limiter (rate 1, burst 10, 1 microsecond resolution) holding five requests
of excess. -/
def limiterSlow : rateLimiter :=
  { nodelay := false, burst := 10, rate := 1, resolution := ResolutionEnum.Microsecond,
    last := 1700000000000000, excess := 5000000 }

/-- The zone item with the configuration and state of `limiterSlow`. -/
def itemSlow : zoneItem :=
  { nodelay := false, burst := 10, rate := 1, resolution := 0,
    last := 1700000000000000, excess := 5000000 }

/-- A registry (1 microsecond resolution) holding `itemSlow` under key 2022. -/
def zoneSlow : zoneRateLimiter Nat :=
  { nodelay := false, burst := 100, rate := 10000, resolution := ResolutionEnum.Microsecond,
    zoneMap := fun k => if k = 2022 then some itemSlow else none }

/-! ## Statements compared with the code -/

/-- The delay rule over exact arithmetic, for an admitted call that stored `excess1` and
reported `d` on a cell with the given rate, burst and resolution: `d` is
`excess1 / (rate * factor) * 1000000` truncated, it is non-negative and it is at most
`burst * 1000000 / rate`. -/
def exactDelayRule (rate burst : Nat) (res : Resolution) (excess1 d : Int) : Prop :=
  d = Int.tdiv (excess1 * 1000000) ((rate : Int) * Int.tdiv 1000000000 res) ∧
    0 ≤ d ∧ d * (rate : Int) ≤ (burst : Int) * 1000000

/-- The delay rule with the binary64 computation of the source: `d` is
`int64(float64(excess1) / float64(rate * factor) * 1e6)`, it differs from the truncated
exact quotient by at most one microsecond, it is non-negative and it is at most
`burst * 1000000 / rate`. -/
def floatDelayRule (rate burst : Nat) (res : Resolution) (excess1 d : Int) : Prop :=
  d = delayOf excess1 ((rate : Int) * Int.tdiv 1000000000 res) ∧
    |d - Int.tdiv (excess1 * 1000000) ((rate : Int) * Int.tdiv 1000000000 res)| ≤ 1 ∧
    0 ≤ d ∧ d * (rate : Int) ≤ (burst : Int) * 1000000

/-- The admission rule over unbounded integers, at limiter `r` and clock reading
`unixNano`: with `now` the clock tick, `elapsed = min (now - last) (one hour of ticks)`
and `e = max 0 (excess - rate * elapsed + factor)`, the call admits if and only if
`e ≤ burst * factor`, and an admitted call stores excess `e` and last `now`. -/
def admissionRule (r : rateLimiter) (unixNano : Int) : Prop :=
  let factor : Int := Int.tdiv 1000000000 r.resolution
  let now : Int := Int.tdiv unixNano r.resolution
  let elapsed : Int := min (now - r.last) (Int.tdiv timeHour r.resolution)
  let e : Int := max 0 (r.excess - (r.rate : Int) * elapsed + factor)
  ((∃ d r1, rateLimiter.GetDelayInMicroseconds r unixNano = Except.ok ((d, none), r1)) ↔
      e ≤ (r.burst : Int) * factor) ∧
    ∀ d r1, rateLimiter.GetDelayInMicroseconds r unixNano = Except.ok ((d, none), r1) →
      r1.excess = e ∧ r1.last = now

/-- Two registries decide alike on key `k` at clock reading `unixNano`: both calls stop
with the same panic, or both return the same pair `(delay, err)` and leave the same
entry under `k`. -/
def sameDecision {K : Type} [DecidableEq K] (z z2 : zoneRateLimiter K) (k : K)
    (unixNano : Int) : Prop :=
  match zoneRateLimiter.GetDelayInMicroseconds z (some k) unixNano,
    zoneRateLimiter.GetDelayInMicroseconds z2 (some k) unixNano with
  | Except.ok (p1, z1), Except.ok (p2, z3) => p1 = p2 ∧ z1.zoneMap k = z3.zoneMap k
  | Except.error p, Except.error q => p = q
  | _, _ => False

/-- The outcome `z2` of a registry setter called on `z` keeps the entry under `k` and
the decision on `k` at every clock reading. -/
def settersKeepDecision {K : Type} [DecidableEq K] (z : zoneRateLimiter K) (k : K)
    (z2 : Option (zoneRateLimiter K)) : Prop :=
  ∃ z3 : zoneRateLimiter K, z2 = some z3 ∧ z3.zoneMap k = z.zoneMap k ∧
    ∀ t : Int, sameDecision z z3 k t

/-- A registry (1 microsecond resolution) holding `itemSlow` under key 2022 and
`itemFull` under key 7. -/
def zoneTwo : zoneRateLimiter Nat :=
  { nodelay := false, burst := 100, rate := 10000, resolution := ResolutionEnum.Microsecond,
    zoneMap := fun k => if k = 2022 then some itemSlow else if k = 7 then some itemFull else none }

/-- The limiter `NewRateLimiter(1000).SetResolution(0)`. -/
def limiterResolutionZero : Option rateLimiter :=
  rateLimiter.SetResolution (some (NewRateLimiter 1000)) 0

/-- Value of the local variable `excess` before the clamp at zero (the tentative
excess), as the source computes it in `int64`. -/
def tentativeOf (rate : Nat) (res : Resolution) (excess last unixNano : Int) : Int :=
  add64 (sub64 excess (mul64 (wrap64 (Int.tdiv (mul64 (rate : Int) (factorOf res)) (factorOf res)))
    (elapsedOf res last unixNano))) (factorOf res)

/-- The `int64` computation of a call is free of overflow: the scaled rate, the scaled
burst and the tentative excess that the source computes equal the same quantities over
unbounded integers. -/
def overflowFree (r : rateLimiter) (unixNano : Int) : Prop :=
  mul64 (r.rate : Int) (factorOf r.resolution) =
      (r.rate : Int) * Int.tdiv 1000000000 r.resolution ∧
    mul64 (r.burst : Int) (factorOf r.resolution) =
      (r.burst : Int) * Int.tdiv 1000000000 r.resolution ∧
    tentativeOf r.rate r.resolution r.excess r.last unixNano =
      r.excess - (r.rate : Int) *
        min (Int.tdiv unixNano r.resolution - r.last) (Int.tdiv timeHour r.resolution) +
        Int.tdiv 1000000000 r.resolution

/-- The limiter `NewRateLimiter(4294967295).SetBurst(10).SetResolution(Microsecond)`
before its first call. -/
def limiterMax : rateLimiter :=
  { nodelay := false, burst := 10, rate := 4294967295,
    resolution := ResolutionEnum.Microsecond, last := 0, excess := 0 }

/-- A finite sequence of `GetDelayInMicroseconds` calls on one limiter, one call per
clock reading of the list, each on the state the previous one left. -/
def callsAt (r : rateLimiter) : List Int → Except GoPanic rateLimiter
  | [] => Except.ok r
  | t :: ts =>
    match rateLimiter.GetDelayInMicroseconds r t with
    | Except.error p => Except.error p
    | Except.ok (_, r1) => callsAt r1 ts

/-- The freshly constructed cell
`NewRateLimiter(rate).SetBurst(burst).SetNodelay(nodelay).SetResolution(res)`. -/
def freshLimiter (rate burst : Nat) (nodelay : Bool) (res : Resolution) : rateLimiter :=
  { NewRateLimiter rate with burst := burst, nodelay := nodelay, resolution := res }

/-- The call at clock reading `t` that follows the calls at the readings `ts`: its
returned pair and the limiter it leaves. -/
def lastCall (r : rateLimiter) (ts : List Int) (t : Int) :
    Except GoPanic ((Int × Option GoError) × rateLimiter) :=
  match callsAt r ts with
  | Except.error p => Except.error p
  | Except.ok r1 => rateLimiter.GetDelayInMicroseconds r1 t

/-- The burst rule for a fresh limiter whose calls all come at the clock reading `t`,
with `delayAt j` the delay reported after `j` earlier calls when nodelay is false: for
every `j ≤ burst` call number `j + 1` is admitted, stores excess `j * factor` and reports
that delay; call number `burst + 2` is rejected; the delays start at 0 and never
decrease. -/
def burstRule (delayAt : Nat → Int) (rate burst : Nat) (nodelay : Bool) (res : Resolution)
    (t : Int) : Prop :=
  (∀ j : Nat, j ≤ burst →
    lastCall (freshLimiter rate burst nodelay res) (List.replicate j t) t =
      Except.ok ((if nodelay then 0 else delayAt j, none),
        { freshLimiter rate burst nodelay res with excess := (j : Int) * Int.tdiv 1000000000 res, last := Int.tdiv t res })) ∧
    lastCall (freshLimiter rate burst nodelay res) (List.replicate (burst + 1) t) t =
      Except.ok ((0, some errorReject),
        { freshLimiter rate burst nodelay res with excess := (burst : Int) * Int.tdiv 1000000000 res, last := Int.tdiv t res }) ∧
    delayAt 0 = 0 ∧ ∀ i j : Nat, i ≤ j → j ≤ burst → delayAt i ≤ delayAt j

/-- The sequential caller of `TestNormal1`: `n` calls of `GetDelayInMicroseconds` on one
limiter, the first at clock reading `t` (nanoseconds), each later one made the reported
delay (microseconds) after the previous one.  The result lists the pair returned by each
call and gives the limiter left by the last one. -/
def pacedCalls : Nat → rateLimiter → Int →
    Except GoPanic (List (Int × Option GoError) × rateLimiter)
  | 0, r, _ => Except.ok ([], r)
  | n + 1, r, t =>
    match rateLimiter.GetDelayInMicroseconds r t with
    | Except.error p => Except.error p
    | Except.ok ((d, err), r1) =>
      match pacedCalls n r1 (t + d * 1000) with
      | Except.error p => Except.error p
      | Except.ok (out, r2) => Except.ok ((d, err) :: out, r2)

/-- The limiter `NewRateLimiter(1).SetBurst(10)` (1 millisecond resolution) after its
first call at the clock reading 1700000000005000000 ns: `last` is the tick
1700000000005 and the excess is 0. -/
def limiterAhead : rateLimiter :=
  { nodelay := false, burst := 10, rate := 1, resolution := ResolutionEnum.Millisecond,
    last := 1700000000005, excess := 0 }

/-- The bound on the effect of a clock jump, for one call of a limiter at a clock
reading: the elapsed value used for the drain lies between 0 and one hour of ticks, and
an admitted call raises the stored excess by at most the factor and lowers it by at most
the rate times one hour of ticks. -/
def clockJumpRule (r : rateLimiter) (unixNano : Int) : Prop :=
  0 ≤ elapsedOf r.resolution r.last unixNano ∧
    elapsedOf r.resolution r.last unixNano ≤ hourTicks r.resolution ∧
    ∀ (d : Int) (r1 : rateLimiter),
      rateLimiter.GetDelayInMicroseconds r unixNano = Except.ok ((d, none), r1) →
        r1.excess ≤ r.excess + factorOf r.resolution ∧
          r.excess - (r.rate : Int) * hourTicks r.resolution ≤ r1.excess

/-! ## Unfolding lemmas -/

theorem div64_zero (a : Int) : div64 a 0 = Except.error GoPanic.divideByZero := by
  simp [div64]

theorem div64_of_ne (a b : Int) (h : b ≠ 0) : div64 a b = Except.ok (wrap64 (Int.tdiv a b)) := by
  simp [div64, h]

theorem typeAssert_zoneItem : typeAssert storedDynType DynType.ptrZoneItem = Except.ok () := by
  simp [typeAssert, storedDynType]

theorem typeAssert_limiterMeta :
    typeAssert storedDynType DynType.ptrLimiterMeta =
      Except.error GoPanic.interfaceConversion := by
  simp [typeAssert, storedDynType]

theorem GetDelay_rate_zero (r : rateLimiter) (t : Int) (h : r.rate = 0) :
    rateLimiter.GetDelayInMicroseconds r t = Except.ok ((0, some errorReject), r) := by
  simp [rateLimiter.GetDelayInMicroseconds, h]

theorem GetDelay_resolution_zero (r : rateLimiter) (t : Int) (hr : r.rate ≠ 0)
    (h0 : r.resolution = 0) :
    rateLimiter.GetDelayInMicroseconds r t = Except.error GoPanic.divideByZero := by
  simp [rateLimiter.GetDelayInMicroseconds, hr, h0, div64_zero, bind, Except.bind]

theorem GetDelay_factor_zero (r : rateLimiter) (t : Int) (hr : r.rate ≠ 0)
    (h0 : r.resolution ≠ 0) (hf : factorOf r.resolution = 0) :
    rateLimiter.GetDelayInMicroseconds r t = Except.error GoPanic.divideByZero := by
  have hf1 : wrap64 (Int.tdiv 1000000000 r.resolution) = 0 := hf
  unfold rateLimiter.GetDelayInMicroseconds
  simp only [hr, if_false, div64_of_ne _ _ h0, bind, Except.bind, hf1, div64_zero]

theorem GetDelay_eq (r : rateLimiter) (t : Int) (hr : r.rate ≠ 0) (h0 : r.resolution ≠ 0)
    (hf : factorOf r.resolution ≠ 0) :
    rateLimiter.GetDelayInMicroseconds r t =
      if mul64 (r.burst : Int) (factorOf r.resolution) <
          excessOf r.rate r.resolution r.excess r.last t then
        Except.ok ((0, some errorReject), r)
      else
        Except.ok ((if r.nodelay then 0
            else delayOf (excessOf r.rate r.resolution r.excess r.last t)
              (mul64 (r.rate : Int) (factorOf r.resolution)), none),
          { r with excess := excessOf r.rate r.resolution r.excess r.last t,
                   last := tickOf t r.resolution }) := by
  have hf1 : wrap64 (Int.tdiv 1000000000 r.resolution) ≠ 0 := hf
  unfold rateLimiter.GetDelayInMicroseconds
  simp only [hr, if_false, div64_of_ne _ _ h0, bind, Except.bind]
  rw [div64_of_ne _ _ hf1]
  simp only [excessOf, elapsedOf, delayOf, hourTicks, tickOf, factorOf]
  split_ifs <;> simp_all

theorem zoneStore_self {K : Type} [DecidableEq K] (m : K → Option zoneItem) (k : K)
    (item : zoneItem) (h : m k = some item) : zoneStore m k item = m := by
  funext x
  unfold zoneStore
  split_ifs with hx
  · rw [hx, h]
  · rfl

/-- On a present key the zone limiter runs the decision of the single limiter `cellOf`
on the stored item: same panic, same returned pair, and on admission the item gets the
excess and last of the single limiter; on rejection the registry is returned as it is. -/
theorem zone_GetDelay_present {K : Type} [DecidableEq K] (z : zoneRateLimiter K) (k : K)
    (item : zoneItem) (t : Int) (h : z.zoneMap k = some item) :
    zoneRateLimiter.GetDelayInMicroseconds z (some k) t =
      match rateLimiter.GetDelayInMicroseconds (cellOf z item) t with
      | Except.error p => Except.error p
      | Except.ok ((d, some e), _) => Except.ok ((d, some e), z)
      | Except.ok ((d, none), r1) =>
        Except.ok ((d, none),
          { z with zoneMap := zoneStore z.zoneMap k { item with excess := r1.excess, last := r1.last } }) := by
  unfold zoneRateLimiter.GetDelayInMicroseconds rateLimiter.GetDelayInMicroseconds
  simp only [h, typeAssert_zoneItem, bind, Except.bind, cellOf, Nat.le_zero_eq]
  by_cases hr : item.rate = 0
  · simp [hr]
  · simp only [hr, if_false]
    by_cases h0 : z.resolution = 0
    · simp [h0, div64_zero]
    · simp only [div64_of_ne _ _ h0]
      by_cases hf : wrap64 (Int.tdiv 1000000000 z.resolution) = 0
      · simp [hf, div64_zero]
      · simp only [div64_of_ne _ _ hf]
        split_ifs <;> simp_all

/-! ## Rate zero (C1) -/

/-- C1: a cell whose rate is 0 rejects at every clock value, whatever its burst, nodelay,
resolution and stored excess and last are, and the call leaves the cell exactly as it
was; this holds for a single limiter and for the zone entry of a present key (where the
whole registry is returned unchanged). -/
theorem C1_zero_rate_rejects_untouched {K : Type} [DecidableEq K] :
    (∀ (r : rateLimiter) (t : Int), r.rate = 0 →
      rateLimiter.GetDelayInMicroseconds r t = Except.ok ((0, some errorReject), r)) ∧
    (∀ (z : zoneRateLimiter K) (k : K) (item : zoneItem) (t : Int),
      z.zoneMap k = some item → item.rate = 0 →
      zoneRateLimiter.GetDelayInMicroseconds z (some k) t =
        Except.ok ((0, some errorReject), z)) := by
  refine ⟨fun r t h => GetDelay_rate_zero r t h, ?_⟩
  intro z k item t hk h0
  rw [zone_GetDelay_present z k item t hk, GetDelay_rate_zero (cellOf z item) t h0]

/-- Instance of C1: the limiter of `TestZeroRate` and the registry `zoneZeroRate`. -/
theorem C1_zero_rate_rejects_untouched_witness :
    ({ NewRateLimiter 0 with burst := 10, resolution := ResolutionEnum.Microsecond } :
        rateLimiter).rate = 0 ∧
    rateLimiter.GetDelayInMicroseconds
        { NewRateLimiter 0 with burst := 10, resolution := ResolutionEnum.Microsecond }
        1700000000000000000 =
      Except.ok ((0, some errorReject),
        { NewRateLimiter 0 with burst := 10, resolution := ResolutionEnum.Microsecond }) ∧
    zoneZeroRate.zoneMap 2022 = some itemZeroRate ∧ itemZeroRate.rate = 0 ∧
    zoneRateLimiter.GetDelayInMicroseconds zoneZeroRate (some 2022) 1700000000000000000 =
      Except.ok ((0, some errorReject), zoneZeroRate) :=
  ⟨rfl, (@C1_zero_rate_rejects_untouched Nat _).1 _ _ rfl, rfl, rfl,
    (@C1_zero_rate_rejects_untouched Nat _).2 zoneZeroRate 2022 itemZeroRate _ rfl rfl⟩

/-! ## Rejection leaves the state alone (C3) -/

theorem GetDelay_error_state (r r1 : rateLimiter) (t d : Int) (e : GoError)
    (h : rateLimiter.GetDelayInMicroseconds r t = Except.ok ((d, some e), r1)) :
    r1 = r ∧ d = 0 ∧ e = errorReject := by
  by_cases hr : r.rate = 0
  · rw [GetDelay_rate_zero r t hr] at h
    simp only [Except.ok.injEq, Prod.mk.injEq, Option.some.injEq] at h
    exact ⟨h.2.symm, h.1.1.symm, h.1.2.symm⟩
  · by_cases h0 : r.resolution = 0
    · rw [GetDelay_resolution_zero r t hr h0] at h
      exact absurd h (by simp)
    · by_cases hf : factorOf r.resolution = 0
      · rw [GetDelay_factor_zero r t hr h0 hf] at h
        exact absurd h (by simp)
      · rw [GetDelay_eq r t hr h0 hf] at h
        split_ifs at h
        · simp only [Except.ok.injEq, Prod.mk.injEq, Option.some.injEq] at h
          exact ⟨h.2.symm, h.1.1.symm, h.1.2.symm⟩
        all_goals simp at h

theorem zone_GetDelay_error_state {K : Type} [DecidableEq K] (z z1 : zoneRateLimiter K)
    (key : Option K) (t d : Int) (e : GoError)
    (h : zoneRateLimiter.GetDelayInMicroseconds z key t = Except.ok ((d, some e), z1)) :
    z1 = z ∧ d = 0 ∧ e = errorReject := by
  cases key with
  | none => simp [zoneRateLimiter.GetDelayInMicroseconds] at h
  | some k =>
    cases hk : z.zoneMap k with
    | none => simp [zoneRateLimiter.GetDelayInMicroseconds, hk] at h
    | some item =>
      rw [zone_GetDelay_present z k item t hk] at h
      cases hc : rateLimiter.GetDelayInMicroseconds (cellOf z item) t with
      | error p => rw [hc] at h; simp at h
      | ok v =>
        obtain ⟨⟨d2, e2⟩, r2⟩ := v
        rw [hc] at h
        cases e2 with
        | none => simp at h
        | some e3 =>
          have h3 := GetDelay_error_state (cellOf z item) r2 t d2 e3 hc
          simp only [Except.ok.injEq, Prod.mk.injEq, Option.some.injEq] at h
          exact ⟨h.2.symm, h.1.1 ▸ h3.2.1, h.1.2 ▸ h3.2.2⟩

/-- C3: for every cell with rate > 0 and every clock value, a call that returns the
rejection error returns delay 0 and leaves the cell as it was before the call, stored
excess and last included: the single limiter is unchanged, and for a zone entry the
whole registry is unchanged. -/
theorem C3_rejection_consumes_nothing {K : Type} [DecidableEq K] :
    (∀ (r r1 : rateLimiter) (t d : Int) (e : GoError), 0 < r.rate →
      rateLimiter.GetDelayInMicroseconds r t = Except.ok ((d, some e), r1) →
      r1 = r ∧ r1.excess = r.excess ∧ r1.last = r.last ∧ d = 0 ∧ e = errorReject) ∧
    (∀ (z z1 : zoneRateLimiter K) (k : K) (item : zoneItem) (t d : Int) (e : GoError),
      z.zoneMap k = some item → 0 < item.rate →
      zoneRateLimiter.GetDelayInMicroseconds z (some k) t = Except.ok ((d, some e), z1) →
      z1 = z ∧ z1.zoneMap k = some item ∧ d = 0 ∧ e = errorReject) := by
  constructor
  · intro r r1 t d e _ h
    obtain ⟨h1, h2, h3⟩ := GetDelay_error_state r r1 t d e h
    subst h1
    exact ⟨rfl, rfl, rfl, h2, h3⟩
  · intro z z1 k item t d e hk _ h
    obtain ⟨h1, h2, h3⟩ := zone_GetDelay_error_state z z1 (some k) t d e h
    subst h1
    exact ⟨rfl, hk, h2, h3⟩

/-- Instance of C3: a second call in tick 5 on a limiter with burst 0 is rejected. -/
theorem C3_rejection_consumes_nothing_witness :
    (0 < limiterFull.rate ∧
      rateLimiter.GetDelayInMicroseconds limiterFull 5000000 =
        Except.ok ((0, some errorReject), limiterFull) ∧
      limiterFull.excess = 0 ∧ limiterFull.last = 5) ∧
    (zoneFull.zoneMap 2022 = some itemFull ∧ 0 < itemFull.rate ∧
      zoneRateLimiter.GetDelayInMicroseconds zoneFull (some 2022) 5000000 =
        Except.ok ((0, some errorReject), zoneFull)) :=
  have h1 : rateLimiter.GetDelayInMicroseconds limiterFull 5000000 =
      Except.ok ((0, some errorReject), limiterFull) := by rfl
  have h2 : zoneRateLimiter.GetDelayInMicroseconds zoneFull (some 2022) 5000000 =
      Except.ok ((0, some errorReject), zoneFull) := by rfl
  ⟨⟨by decide, h1,
      ((@C3_rejection_consumes_nothing Nat _).1 limiterFull limiterFull 5000000 0 errorReject
        (by decide) h1).2.1,
      ((@C3_rejection_consumes_nothing Nat _).1 limiterFull limiterFull 5000000 0 errorReject
        (by decide) h1).2.2.1⟩,
    ⟨rfl, by decide, h2⟩⟩

/-! ## Nodelay (C5) and absent keys (C6) -/

theorem GetDelay_nodelay_twin (r : rateLimiter) (t : Int) (hn : r.nodelay = true) :
    rateLimiter.GetDelayInMicroseconds r t =
      match rateLimiter.GetDelayInMicroseconds { r with nodelay := false } t with
      | Except.error p => Except.error p
      | Except.ok ((_, e), r1) => Except.ok ((0, e), { r1 with nodelay := true }) := by
  obtain ⟨⟨n, b, ra, res⟩, ⟨l, ex⟩⟩ := r
  simp only at hn
  subst hn
  by_cases hr : ra = 0
  · subst hr
    rw [GetDelay_rate_zero _ t rfl, GetDelay_rate_zero _ t rfl]
  · by_cases h0 : res = 0
    · subst h0
      rw [GetDelay_resolution_zero _ t hr rfl, GetDelay_resolution_zero _ t hr rfl]
    · by_cases hf : factorOf res = 0
      · rw [GetDelay_factor_zero _ t hr h0 hf, GetDelay_factor_zero _ t hr h0 hf]
      · rw [GetDelay_eq _ t hr h0 hf, GetDelay_eq _ t hr h0 hf]
        split_ifs <;> simp_all

theorem zoneStore_same {K : Type} [DecidableEq K] (m : K → Option zoneItem) (k : K)
    (item : zoneItem) : zoneStore m k item k = some item := by
  simp [zoneStore]

theorem zoneStore_other {K : Type} [DecidableEq K] (m : K → Option zoneItem) (k k2 : K)
    (item : zoneItem) (h : k2 ≠ k) : zoneStore m k item k2 = m k2 := by
  simp [zoneStore, h]

/-- C5: for every cell with nodelay = true, every stored state and every clock value,
the call never reports a non-zero delay (it rejects, or admits with delay 0), and it ends
like the same call on the same cell with nodelay = false: the same error value
(admitted or rejected) and the same stored excess and last afterwards; in the
configurations where the call stops with a division by zero, the twin call stops in the
same way.  Stated for the single limiter and for the zone entry of a present key. -/
theorem C5_nodelay_reports_no_delay {K : Type} [DecidableEq K] :
    (∀ (r : rateLimiter) (t : Int), r.nodelay = true →
      match rateLimiter.GetDelayInMicroseconds r t,
        rateLimiter.GetDelayInMicroseconds { r with nodelay := false } t with
      | Except.ok ((d, e), r1), Except.ok ((_, e2), r2) =>
        d = 0 ∧ e = e2 ∧ r1.excess = r2.excess ∧ r1.last = r2.last
      | Except.error p, Except.error p2 => p = p2
      | _, _ => False) ∧
    (∀ (z : zoneRateLimiter K) (k : K) (item : zoneItem) (t : Int),
      z.zoneMap k = some item → item.nodelay = true →
      match zoneRateLimiter.GetDelayInMicroseconds z (some k) t,
        zoneRateLimiter.GetDelayInMicroseconds
          { z with zoneMap := zoneStore z.zoneMap k { item with nodelay := false } }
          (some k) t with
      | Except.ok ((d, e), z1), Except.ok ((_, e2), z2) =>
        d = 0 ∧ e = e2 ∧ ∃ i1 i2 : zoneItem, z1.zoneMap k = some i1 ∧ z2.zoneMap k = some i2 ∧
          i1.excess = i2.excess ∧ i1.last = i2.last
      | Except.error p, Except.error p2 => p = p2
      | _, _ => False) := by
  constructor
  · intro r t hn
    rw [GetDelay_nodelay_twin r t hn]
    cases rateLimiter.GetDelayInMicroseconds { r with nodelay := false } t with
    | error p => simp
    | ok v => obtain ⟨⟨d, e⟩, r1⟩ := v; simp
  · intro z k item t hk hn
    rw [zone_GetDelay_present z k item t hk,
      zone_GetDelay_present _ k { item with nodelay := false } t (zoneStore_same _ _ _),
      GetDelay_nodelay_twin (cellOf z item) t hn]
    have hc : ({ cellOf z item with nodelay := false } : rateLimiter) =
        cellOf { z with zoneMap := zoneStore z.zoneMap k { item with nodelay := false } }
          { item with nodelay := false } := rfl
    rw [hc]
    cases rateLimiter.GetDelayInMicroseconds
      (cellOf { z with zoneMap := zoneStore z.zoneMap k { item with nodelay := false } }
        { item with nodelay := false }) t with
    | error p => simp
    | ok v =>
      obtain ⟨⟨d, e⟩, r1⟩ := v
      cases e with
      | some e1 => simp [zoneStore_same, hk]
      | none => simp [zoneStore_same]

set_option maxRecDepth 100000 in
/-- Instance of C5 on `limiterNodelay`: admitted with delay 0 where the twin reports a
delay of 4000 microseconds, both storing excess 4000000. -/
theorem C5_nodelay_reports_no_delay_witness :
    limiterNodelay.nodelay = true ∧
    rateLimiter.GetDelayInMicroseconds limiterNodelay 1700000000000000000 =
      Except.ok ((0, none), { limiterNodelay with excess := 4000000 }) ∧
    rateLimiter.GetDelayInMicroseconds { limiterNodelay with nodelay := false }
        1700000000000000000 =
      Except.ok ((4000, none), { limiterNodelay with nodelay := false, excess := 4000000 }) ∧
    (0 : Int) = 0 ∧ (none : Option GoError) = none := by
  have e1 : rateLimiter.GetDelayInMicroseconds limiterNodelay 1700000000000000000 =
      Except.ok ((0, none), { limiterNodelay with excess := 4000000 }) := by rfl
  have e2 : rateLimiter.GetDelayInMicroseconds { limiterNodelay with nodelay := false }
      1700000000000000000 =
      Except.ok ((4000, none), { limiterNodelay with nodelay := false, excess := 4000000 }) := by
    rfl
  have h := (@C5_nodelay_reports_no_delay Nat _).1 limiterNodelay 1700000000000000000 rfl
  rw [e1, e2] at h
  exact ⟨rfl, e1, e2, h.1, h.2.1⟩

/-- C6: for every zone registry (whatever its default rate, burst, nodelay and
resolution, and whatever entries it holds) and every key that is not present in it (the
nil key included), the call admits with delay 0 and returns the registry unchanged. -/
theorem C6_absent_key_admitted {K : Type} [DecidableEq K] (z : zoneRateLimiter K)
    (key : Option K) (t : Int) (h : ∀ k, key = some k → z.zoneMap k = none) :
    zoneRateLimiter.GetDelayInMicroseconds z key t = Except.ok ((0, none), z) := by
  cases key with
  | none => rfl
  | some k => simp [zoneRateLimiter.GetDelayInMicroseconds, h k rfl]

/-- Instance of C6: key 7 is absent from `zoneDefaultZero`, whose default rate is 0. -/
theorem C6_absent_key_admitted_witness :
    (∀ k, some 7 = some k → zoneDefaultZero.zoneMap k = none) ∧
    zoneRateLimiter.GetDelayInMicroseconds zoneDefaultZero (some 7) 1700000000000000000 =
      Except.ok ((0, none), zoneDefaultZero) :=
  have h : ∀ k, some 7 = some k → zoneDefaultZero.zoneMap k = none := by
    intro k hk
    cases hk
    rfl
  ⟨h, C6_absent_key_admitted zoneDefaultZero (some 7) 1700000000000000000 h⟩

/-! ## Zone management (C7 to C10) -/

theorem zoneDelete_same {K : Type} [DecidableEq K] (m : K → Option zoneItem) (k : K) :
    zoneDelete m k k = none := by
  simp [zoneDelete]

theorem zoneDelete_other {K : Type} [DecidableEq K] (m : K → Option zoneItem) (k k2 : K)
    (h : k2 ≠ k) : zoneDelete m k k2 = m k2 := by
  simp [zoneDelete, h]

/-- C7 (the code departs from it): for every registry and every key already present in
it, `SetZoneItem` does not complete: the type assertion `v.(*limiterMeta)` on the stored
`*zoneItem` fails and the call panics, so no field of the entry is set. -/
theorem C7_SetZoneItem_present_panics {K : Type} [DecidableEq K] (z : zoneRateLimiter K)
    (k : K) (item : zoneItem) (rate burst : Nat) (nodelay : Bool)
    (h : z.zoneMap k = some item) :
    zoneRateLimiter.SetZoneItem (some z) (some k) rate burst nodelay =
      Except.error GoPanic.interfaceConversion := by
  simp [zoneRateLimiter.SetZoneItem, h, typeAssert_limiterMeta, bind, Except.bind]

/-- Instance of C7: `SetZoneItem(2022, 100, 10, false)` after `AddZoneItem(2022)`. -/
theorem C7_SetZoneItem_present_panics_witness :
    (∃ z : zoneRateLimiter Nat, zoneAdded = some z ∧
      z.zoneMap 2022 = some (newZoneItem false 1000 10)) ∧
    zoneRateLimiter.SetZoneItem zoneAdded (some 2022) 100 10 false =
      Except.error GoPanic.interfaceConversion :=
  ⟨⟨_, rfl, rfl⟩, C7_SetZoneItem_present_panics _ 2022 (newZoneItem false 1000 10) 100 10 false rfl⟩

/-- C8: for every registry and every non-nil key absent from it, `SetZoneItem` completes
normally and adds an entry for the key whose rate, burst and nodelay are the given values
(not the registry defaults) and whose excess and last are 0; every other entry and the
registry defaults are unchanged. -/
theorem C8_SetZoneItem_absent_creates {K : Type} [DecidableEq K] (z : zoneRateLimiter K)
    (k : K) (rate burst : Nat) (nodelay : Bool) (h : z.zoneMap k = none) :
    ∃ z1 : zoneRateLimiter K,
      zoneRateLimiter.SetZoneItem (some z) (some k) rate burst nodelay = Except.ok (some z1) ∧
      (∃ item : zoneItem, z1.zoneMap k = some item ∧ item.rate = rate ∧ item.burst = burst ∧
        item.nodelay = nodelay ∧ item.excess = 0 ∧ item.last = 0) ∧
      (∀ k2, k2 ≠ k → z1.zoneMap k2 = z.zoneMap k2) ∧
      z1.tolimiterMeta = z.tolimiterMeta := by
  refine ⟨{ z with zoneMap := zoneStore z.zoneMap k (newZoneItem nodelay rate burst) }, ?_,
    ⟨newZoneItem nodelay rate burst, zoneStore_same _ _ _, rfl, rfl, rfl, rfl, rfl⟩,
    fun k2 hk2 => zoneStore_other _ _ _ _ hk2, rfl⟩
  simp [zoneRateLimiter.SetZoneItem, h]

/-- Instance of C8: `SetZoneItem(7, 100, 10, false)` on `zoneFull` as in
`TestCustomerized`. -/
theorem C8_SetZoneItem_absent_creates_witness :
    zoneFull.zoneMap 7 = none ∧
    ∃ z1 : zoneRateLimiter Nat,
      zoneRateLimiter.SetZoneItem (some zoneFull) (some 7) 100 10 false = Except.ok (some z1) ∧
      (∃ item : zoneItem, z1.zoneMap 7 = some item ∧ item.rate = 100 ∧ item.burst = 10 ∧
        item.nodelay = false ∧ item.excess = 0 ∧ item.last = 0) ∧
      (∀ k2, k2 ≠ 7 → z1.zoneMap k2 = zoneFull.zoneMap k2) ∧
      z1.tolimiterMeta = zoneFull.tolimiterMeta :=
  ⟨rfl, C8_SetZoneItem_absent_creates zoneFull 7 100 10 false rfl⟩

/-- C9: for every registry and every non-nil key, `AddZoneItem` returns an error if and
only if the key is already present, and then returns the registry unchanged; otherwise it
adds an entry whose rate, burst and nodelay are the registry defaults of the moment and
whose excess and last are 0, leaving the other entries and the defaults unchanged. -/
theorem C9_AddZoneItem_iff_absent {K : Type} [DecidableEq K] (z : zoneRateLimiter K) (k : K) :
    ((zoneRateLimiter.AddZoneItem (some z) (some k)).1 ≠ none ↔ z.zoneMap k ≠ none) ∧
    (z.zoneMap k ≠ none →
      zoneRateLimiter.AddZoneItem (some z) (some k) = (some GoError.keyExists, some z)) ∧
    (z.zoneMap k = none →
      ∃ z1 : zoneRateLimiter K,
        zoneRateLimiter.AddZoneItem (some z) (some k) = (none, some z1) ∧
        (∃ item : zoneItem, z1.zoneMap k = some item ∧ item.rate = z.rate ∧
          item.burst = z.burst ∧ item.nodelay = z.nodelay ∧ item.excess = 0 ∧ item.last = 0) ∧
        (∀ k2, k2 ≠ k → z1.zoneMap k2 = z.zoneMap k2) ∧
        z1.tolimiterMeta = z.tolimiterMeta) := by
  cases hk : z.zoneMap k with
  | some item =>
    simp [zoneRateLimiter.AddZoneItem, hk]
  | none =>
    refine ⟨by simp [zoneRateLimiter.AddZoneItem, hk], by simp, fun _ => ?_⟩
    refine ⟨{ z with zoneMap := zoneStore z.zoneMap k (newZoneItem z.nodelay z.rate z.burst) },
      by simp [zoneRateLimiter.AddZoneItem, hk],
      ⟨newZoneItem z.nodelay z.rate z.burst, zoneStore_same _ _ _, rfl, rfl, rfl, rfl, rfl⟩,
      fun k2 hk2 => zoneStore_other _ _ _ _ hk2, rfl⟩

/-- Instance of C9: key 2022 is present in `zoneFull` and key 7 is absent from it. -/
theorem C9_AddZoneItem_iff_absent_witness :
    (zoneFull.zoneMap 2022 ≠ none ∧
      zoneRateLimiter.AddZoneItem (some zoneFull) (some 2022) =
        (some GoError.keyExists, some zoneFull)) ∧
    (zoneFull.zoneMap 7 = none ∧
      ∃ z1 : zoneRateLimiter Nat,
        zoneRateLimiter.AddZoneItem (some zoneFull) (some 7) = (none, some z1) ∧
        (∃ item : zoneItem, z1.zoneMap 7 = some item ∧ item.rate = zoneFull.rate ∧
          item.burst = zoneFull.burst ∧ item.nodelay = zoneFull.nodelay ∧ item.excess = 0 ∧
          item.last = 0) ∧
        (∀ k2, k2 ≠ 7 → z1.zoneMap k2 = zoneFull.zoneMap k2) ∧
        z1.tolimiterMeta = zoneFull.tolimiterMeta) :=
  have hp : zoneFull.zoneMap 2022 ≠ none := by
    intro h
    cases h
  ⟨⟨hp, (C9_AddZoneItem_iff_absent zoneFull 2022).2.1 hp⟩,
    ⟨rfl, (C9_AddZoneItem_iff_absent zoneFull 7).2.2 rfl⟩⟩

/-- C10: for every registry and every non-nil key, `DeleteZoneItem` returns an error if
and only if the key is absent, and then returns the registry unchanged; on success the
key is absent afterwards and every other entry and the defaults are unchanged, so that a
following `GetDelayInMicroseconds` on the key admits with delay 0 at every clock value
and a following `AddZoneItem` on the key succeeds and stores a fresh entry with the
registry defaults and excess and last 0. -/
theorem C10_DeleteZoneItem_iff_present {K : Type} [DecidableEq K] (z : zoneRateLimiter K)
    (k : K) :
    ((zoneRateLimiter.DeleteZoneItem (some z) (some k)).1 ≠ none ↔ z.zoneMap k = none) ∧
    (z.zoneMap k = none →
      zoneRateLimiter.DeleteZoneItem (some z) (some k) =
        (some GoError.keyNotExists, some z)) ∧
    (z.zoneMap k ≠ none →
      ∃ z1 : zoneRateLimiter K,
        zoneRateLimiter.DeleteZoneItem (some z) (some k) = (none, some z1) ∧
        z1.zoneMap k = none ∧
        (∀ k2, k2 ≠ k → z1.zoneMap k2 = z.zoneMap k2) ∧
        z1.tolimiterMeta = z.tolimiterMeta ∧
        (∀ t : Int,
          zoneRateLimiter.GetDelayInMicroseconds z1 (some k) t = Except.ok ((0, none), z1)) ∧
        ∃ z2 : zoneRateLimiter K,
          zoneRateLimiter.AddZoneItem (some z1) (some k) = (none, some z2) ∧
          z2.zoneMap k = some (newZoneItem z.nodelay z.rate z.burst) ∧
          (newZoneItem z.nodelay z.rate z.burst).excess = 0 ∧
          (newZoneItem z.nodelay z.rate z.burst).last = 0) := by
  cases hk : z.zoneMap k with
  | none =>
    simp [zoneRateLimiter.DeleteZoneItem, hk]
  | some item =>
    refine ⟨by simp [zoneRateLimiter.DeleteZoneItem, hk], by simp, fun _ => ?_⟩
    refine ⟨{ z with zoneMap := zoneDelete z.zoneMap k },
      by simp [zoneRateLimiter.DeleteZoneItem, hk], zoneDelete_same _ _,
      fun k2 hk2 => zoneDelete_other _ _ _ hk2, rfl, ?_, ?_⟩
    · intro t
      simp [zoneRateLimiter.GetDelayInMicroseconds, zoneDelete_same]
    · refine ⟨⟨z.tolimiterMeta,
        zoneStore (zoneDelete z.zoneMap k) k (newZoneItem z.nodelay z.rate z.burst)⟩, ?_,
        zoneStore_same _ _ _, rfl, rfl⟩
      simp [zoneRateLimiter.AddZoneItem, zoneDelete_same]

/-- Instance of C10: key 7 is absent from `zoneFull` and key 2022 is present in it. -/
theorem C10_DeleteZoneItem_iff_present_witness :
    (zoneFull.zoneMap 7 = none ∧
      zoneRateLimiter.DeleteZoneItem (some zoneFull) (some 7) =
        (some GoError.keyNotExists, some zoneFull)) ∧
    (zoneFull.zoneMap 2022 ≠ none ∧
      ∃ z1 : zoneRateLimiter Nat,
        zoneRateLimiter.DeleteZoneItem (some zoneFull) (some 2022) = (none, some z1) ∧
        z1.zoneMap 2022 = none) :=
  have hp : zoneFull.zoneMap 2022 ≠ none := by
    intro h
    cases h
  ⟨⟨rfl, (C10_DeleteZoneItem_iff_present zoneFull 7).2.1 rfl⟩,
    ⟨hp, by
      obtain ⟨z1, h1, h2, _⟩ := (C10_DeleteZoneItem_iff_present zoneFull 2022).2.2 hp
      exact ⟨z1, h1, h2⟩⟩⟩

/-! ## The admission rule (C2) -/

theorem wrap64_of_isInt64 (x : Int) (h : isInt64 x) : wrap64 x = x := by
  unfold isInt64 at h
  unfold wrap64
  omega

theorem isInt64_wrap64 (x : Int) : isInt64 (wrap64 x) := by
  unfold isInt64 wrap64
  omega

theorem add64_sub64_mul64 (a p q f : Int) :
    add64 (sub64 a (mul64 p q)) f = wrap64 (a - p * q + f) := by
  unfold add64 sub64 mul64 wrap64
  generalize p * q = y
  omega

theorem tdiv_bounds_of_nonneg (a b : Int) (ha : 0 ≤ a) (hb : 1 ≤ b) :
    0 ≤ Int.tdiv a b ∧ Int.tdiv a b ≤ a := by
  rw [Int.tdiv_eq_ediv ha (by omega)]
  exact ⟨Int.ediv_nonneg ha (by omega), Int.ediv_le_self b ha⟩

theorem isInt64_tdiv (t b : Int) (ht : isInt64 t) (hb : 1 ≤ b) : isInt64 (Int.tdiv t b) := by
  unfold isInt64 at *
  by_cases h : 0 ≤ t
  · have := tdiv_bounds_of_nonneg t b h hb
    omega
  · have h1 := tdiv_bounds_of_nonneg (-t) b (by omega) hb
    rw [Int.neg_tdiv] at h1
    omega

theorem one_le_tdiv (a b : Int) (hb : 1 ≤ b) (hab : b ≤ a) : 1 ≤ Int.tdiv a b := by
  rw [Int.tdiv_eq_ediv (by omega) (by omega)]
  exact Int.le_ediv_of_mul_le (by omega) (by omega)

theorem factorOf_eq (res : Int) (h1 : 1 ≤ res) (h2 : res ≤ 1000000000) :
    factorOf res = Int.tdiv 1000000000 res ∧ 1 ≤ Int.tdiv 1000000000 res ∧
      Int.tdiv 1000000000 res ≤ 1000000000 := by
  have hb := tdiv_bounds_of_nonneg 1000000000 res (by omega) h1
  have hp := one_le_tdiv 1000000000 res h1 h2
  refine ⟨?_, hp, hb.2⟩
  unfold factorOf
  apply wrap64_of_isInt64
  unfold isInt64
  omega

theorem hourTicks_eq (res : Int) (h1 : 1 ≤ res) : hourTicks res = Int.tdiv timeHour res := by
  have hb := tdiv_bounds_of_nonneg timeHour res (by unfold timeHour; omega) h1
  unfold hourTicks
  apply wrap64_of_isInt64
  unfold isInt64
  unfold timeHour at hb ⊢
  omega

theorem tickOf_eq (t res : Int) (ht : isInt64 t) (h1 : 1 ≤ res) :
    tickOf t res = Int.tdiv t res :=
  wrap64_of_isInt64 _ (isInt64_tdiv t res ht h1)

theorem recognized_bounds (res : Resolution) (h : recognized res) :
    1 ≤ res ∧ res ≤ 1000000000 := by
  rcases h with h | h | h | h <;> subst h <;> decide

/-- The local variable `excess` is the clamped unbounded value when the clock difference
and the unclamped sum fit in 64 bits. -/
theorem excessOf_eq (rate : Nat) (res excess last t : Int) (hr32 : rate < 2 ^ 32)
    (h1 : 1 ≤ res) (h2 : res ≤ 1000000000) (ht : isInt64 t)
    (hd : isInt64 (Int.tdiv t res - last))
    (he : isInt64 (excess - (rate : Int) *
      min (Int.tdiv t res - last) (Int.tdiv timeHour res) + Int.tdiv 1000000000 res)) :
    excessOf rate res excess last t =
      max 0 (excess - (rate : Int) *
        min (Int.tdiv t res - last) (Int.tdiv timeHour res) + Int.tdiv 1000000000 res) := by
  obtain ⟨hf, hf1, hf2⟩ := factorOf_eq res h1 h2
  have hel : elapsedOf res last t = min (Int.tdiv t res - last) (Int.tdiv timeHour res) := by
    unfold elapsedOf sub64
    rw [hourTicks_eq res h1, tickOf_eq t res ht h1, wrap64_of_isInt64 _ hd]
    split_ifs with hlt
    · exact (min_eq_right (le_of_lt hlt)).symm
    · exact (min_eq_left (not_lt.mp hlt)).symm
  have hrate : wrap64 (Int.tdiv (mul64 (rate : Int) (Int.tdiv 1000000000 res))
      (Int.tdiv 1000000000 res)) = (rate : Int) := by
    have hprod : isInt64 ((rate : Int) * Int.tdiv 1000000000 res) := by
      have hr : (rate : Int) < 4294967296 := by exact_mod_cast hr32
      have hr0 : (0 : Int) ≤ rate := Int.ofNat_nonneg rate
      unfold isInt64
      constructor
      · have := mul_nonneg hr0 (by omega : (0 : Int) ≤ Int.tdiv 1000000000 res)
        omega
      · have := mul_le_mul (le_of_lt hr) hf2 (by omega) (by omega)
        omega
    unfold mul64
    rw [wrap64_of_isInt64 _ hprod, Int.mul_tdiv_cancel _ (by omega)]
    apply wrap64_of_isInt64
    have hr : (rate : Int) < 4294967296 := by exact_mod_cast hr32
    have hr0 : (0 : Int) ≤ rate := Int.ofNat_nonneg rate
    unfold isInt64
    omega
  unfold excessOf
  simp only [hf, hrate, hel, add64_sub64_mul64, wrap64_of_isInt64 _ he]
  split_ifs with hneg
  · exact (max_eq_left (le_of_lt hneg)).symm
  · exact (max_eq_right (not_lt.mp hneg)).symm

theorem limiterFast_rejected :
    rateLimiter.GetDelayInMicroseconds limiterFast 1700000000000000000 =
      Except.ok ((0, some errorReject), limiterFast) := by
  rfl

/-- The admission rule fails at one reading: the fresh limiter `limiterFast` (rate
4000000000, burst 0, 1 microsecond resolution) at the clock reading
1700000000000000000 ns has `e = max 0 (0 - 4000000000 * 3600000000 + 1000000) = 0 ≤
burst * factor`, yet the call rejects, because `rate * elapsed` exceeds the `int64` range
and wraps around. -/
theorem limiterFast_breaks_admissionRule :
    0 < limiterFast.rate ∧ recognized limiterFast.resolution ∧
      isInt64 1700000000000000000 ∧ ¬ admissionRule limiterFast 1700000000000000000 := by
  refine ⟨by decide, Or.inl rfl, by decide, ?_⟩
  intro h
  have hle : max (0 : Int) (limiterFast.excess - (limiterFast.rate : Int) *
      min (Int.tdiv 1700000000000000000 limiterFast.resolution - limiterFast.last)
        (Int.tdiv timeHour limiterFast.resolution) +
      Int.tdiv 1000000000 limiterFast.resolution) ≤
      (limiterFast.burst : Int) * Int.tdiv 1000000000 limiterFast.resolution := by
    decide
  obtain ⟨d, r1, hd⟩ := h.1.2 hle
  rw [limiterFast_rejected] at hd
  simp at hd

/-- Where nothing wraps, the admission rule holds: for every single limiter with
rate > 0 (rate and burst in the `uint32` range), a recognized resolution and every `int64`
clock reading, provided the clock difference `now - last` and the sum
`excess - rate * elapsed + factor` fit in 64 bits, where
`elapsed = min (now - last) (one hour of ticks)`: with
`e = max 0 (excess - rate * elapsed + factor)`, the call admits if and only if
`e ≤ burst * factor`, and an admitted call stores excess `e` and last `now`. -/
theorem admissionRule_without_overflow (r : rateLimiter) (t : Int) (hr : 0 < r.rate)
    (hr32 : r.rate < 2 ^ 32) (hb32 : r.burst < 2 ^ 32) (hres : recognized r.resolution)
    (ht : isInt64 t) (hd : isInt64 (Int.tdiv t r.resolution - r.last))
    (he : isInt64 (r.excess - (r.rate : Int) *
      min (Int.tdiv t r.resolution - r.last) (Int.tdiv timeHour r.resolution) +
      Int.tdiv 1000000000 r.resolution)) :
    admissionRule r t := by
  obtain ⟨h1, h2⟩ := recognized_bounds _ hres
  obtain ⟨hf, hf1, hf2⟩ := factorOf_eq _ h1 h2
  have hfne : factorOf r.resolution ≠ 0 := by
    rw [hf]
    omega
  have hex := excessOf_eq r.rate r.resolution r.excess r.last t hr32 h1 h2 ht hd he
  have hburst : mul64 (r.burst : Int) (factorOf r.resolution) =
      (r.burst : Int) * Int.tdiv 1000000000 r.resolution := by
    have hb : (r.burst : Int) < 4294967296 := by exact_mod_cast hb32
    have hb0 : (0 : Int) ≤ r.burst := Int.ofNat_nonneg _
    rw [hf]
    apply wrap64_of_isInt64
    unfold isInt64
    constructor
    · have := mul_nonneg hb0 (by omega : (0 : Int) ≤ Int.tdiv 1000000000 r.resolution)
      omega
    · have := mul_le_mul (le_of_lt hb) hf2 (by omega) (by omega)
      omega
  have h0 : r.resolution ≠ 0 := fun h => by
    rw [h] at h1
    exact absurd h1 (by decide)
  have hG := GetDelay_eq r t (by omega) h0 hfne
  rw [hburst, hex, tickOf_eq t _ ht h1] at hG
  unfold admissionRule
  simp only
  by_cases hlt : (r.burst : Int) * Int.tdiv 1000000000 r.resolution <
      max 0 (r.excess - (r.rate : Int) *
        min (Int.tdiv t r.resolution - r.last) (Int.tdiv timeHour r.resolution) +
        Int.tdiv 1000000000 r.resolution)
  · rw [if_pos hlt] at hG
    rw [hG]
    refine ⟨⟨?_, fun hle => absurd hlt (not_lt.mpr hle)⟩, ?_⟩
    · rintro ⟨d, r1, h⟩
      simp at h
    · intro d r1 h
      simp at h
  · rw [if_neg hlt] at hG
    rw [hG]
    refine ⟨⟨fun _ => not_lt.mp hlt, fun _ => ⟨_, _, rfl⟩⟩, ?_⟩
    intro d r1 h
    simp only [Except.ok.injEq, Prod.mk.injEq] at h
    rw [← h.2]
    exact ⟨rfl, rfl⟩

/-- Instance of `admissionRule_without_overflow`: the limiter of `TestNormal1` (rate
1000, burst 10, 1 microsecond resolution) with three requests of excess, called again in
the same tick. -/
theorem admissionRule_without_overflow_instance :
    (0 < limiterNodelay.rate ∧ limiterNodelay.rate < 2 ^ 32 ∧ limiterNodelay.burst < 2 ^ 32 ∧
      recognized limiterNodelay.resolution ∧ isInt64 1700000000000000000 ∧
      isInt64 (Int.tdiv 1700000000000000000 limiterNodelay.resolution - limiterNodelay.last) ∧
      isInt64 (limiterNodelay.excess - (limiterNodelay.rate : Int) *
        min (Int.tdiv 1700000000000000000 limiterNodelay.resolution - limiterNodelay.last)
          (Int.tdiv timeHour limiterNodelay.resolution) +
        Int.tdiv 1000000000 limiterNodelay.resolution)) ∧
    admissionRule limiterNodelay 1700000000000000000 :=
  ⟨⟨by decide, by decide, by decide, Or.inl rfl, by decide, by decide, by decide⟩,
    admissionRule_without_overflow limiterNodelay 1700000000000000000 (by decide)
      (by decide) (by decide) (Or.inl rfl) (by decide) (by decide) (by decide)⟩

/-! ## Rounding to binary64 -/

theorem bitLenAux_zero (fuel : Nat) : bitLenAux fuel 0 = 0 := by
  cases fuel <;> simp [bitLenAux]

theorem bitLenAux_spec (fuel : Nat) : ∀ n : Nat, n ≤ fuel →
    n < 2 ^ bitLenAux fuel n ∧ (0 < n → 2 ^ (bitLenAux fuel n - 1) ≤ n) := by
  induction fuel with
  | zero =>
    intro n hn
    have h0 : n = 0 := by omega
    subst h0
    simp [bitLenAux]
  | succ fuel ih =>
    intro n hn
    by_cases h0 : n = 0
    · subst h0
      simp [bitLenAux]
    · have hhalf : n / 2 ≤ fuel := by omega
      obtain ⟨hlt, hge⟩ := ih (n / 2) hhalf
      simp only [bitLenAux, h0, if_false, Nat.add_sub_cancel]
      constructor
      · rw [pow_succ]
        omega
      · intro _
        by_cases h2 : n / 2 = 0
        · rw [h2, bitLenAux_zero]
          simp
          omega
        · have hpos : 0 < n / 2 := Nat.pos_of_ne_zero h2
          have hk : 1 ≤ bitLenAux fuel (n / 2) := by
            by_contra hc
            have hz : bitLenAux fuel (n / 2) = 0 := by omega
            rw [hz] at hlt
            simp at hlt
            omega
          have := hge hpos
          have hp : 2 ^ bitLenAux fuel (n / 2) = 2 ^ (bitLenAux fuel (n / 2) - 1) * 2 := by
            rw [← pow_succ]
            congr 1
            omega
          omega

theorem bitLen_spec (n : Nat) (hn : 0 < n) :
    n < 2 ^ bitLen n ∧ 2 ^ (bitLen n - 1) ≤ n ∧ 1 ≤ bitLen n := by
  obtain ⟨h1, h2⟩ := bitLenAux_spec n n (le_refl n)
  refine ⟨h1, h2 hn, ?_⟩
  by_contra hc
  have hz : bitLen n = 0 := by omega
  unfold bitLen at hz
  rw [hz] at h1
  simp at h1
  omega

theorem roundHalfEven_spec (p q : Nat) (hq : 0 < q) :
    2 * (roundHalfEven p q * q) ≤ 2 * p + q ∧ 2 * p ≤ 2 * (roundHalfEven p q * q) + q := by
  have hdm := Nat.div_add_mod p q
  have hr := Nat.mod_lt p hq
  have hsucc : (p / q + 1) * q = q * (p / q) + q := by ring
  have hcomm : p / q * q = q * (p / q) := Nat.mul_comm _ _
  unfold roundHalfEven
  simp only
  split_ifs <;> simp only [hsucc, hcomm] <;> omega

theorem floorLog2_le (a q : Nat) (ha : 0 < a) (hq : 0 < q) :
    (2 : ℚ) ^ (floorLog2 a q) ≤ (a : ℚ) / (q : ℚ) := by
  obtain ⟨-, ha2, ha3⟩ := bitLen_spec a ha
  obtain ⟨hq1, -, -⟩ := bitLen_spec q hq
  have hqpos : (0 : ℚ) < (q : ℚ) := by exact_mod_cast hq
  have hA : (2 : ℚ) ^ ((bitLen a : Int) - 1) ≤ (a : ℚ) := by
    have h1 : ((bitLen a : Int) - 1) = ((bitLen a - 1 : Nat) : Int) := by omega
    rw [h1, zpow_natCast]
    exact_mod_cast ha2
  have hQ : (q : ℚ) ≤ (2 : ℚ) ^ (bitLen q : Int) := by
    rw [zpow_natCast]
    exact_mod_cast le_of_lt hq1
  have hgen : (2 : ℚ) ^ ((bitLen a : Int) - (bitLen q : Int) - 1) ≤ (a : ℚ) / (q : ℚ) := by
    have h1 : (bitLen a : Int) - (bitLen q : Int) - 1 = ((bitLen a : Int) - 1) - (bitLen q : Int) := by
      omega
    rw [h1, zpow_sub₀ (by norm_num : (2 : ℚ) ≠ 0)]
    exact div_le_div₀ (by exact_mod_cast Nat.zero_le a) hA hqpos hQ
  unfold floorLog2
  simp only
  split_ifs with hk hle hle
  · rw [le_div_iff₀ hqpos]
    have h1 : (bitLen a : Int) - (bitLen q : Int) =
        (((bitLen a : Int) - (bitLen q : Int)).toNat : Int) := (Int.toNat_of_nonneg hk).symm
    rw [h1, zpow_natCast, mul_comm]
    exact_mod_cast hle
  · exact hgen
  · have hneg : (bitLen a : Int) - (bitLen q : Int) =
        -((-((bitLen a : Int) - (bitLen q : Int))).toNat : Int) := by
      rw [Int.toNat_of_nonneg (by omega)]
      omega
    rw [hneg, zpow_neg, zpow_natCast, le_div_iff₀ hqpos, inv_mul_le_iff₀ (by positivity)]
    rw [mul_comm]
    exact_mod_cast hle
  · exact hgen

theorem roundHalfEven_rat (p q : Nat) (hq : 0 < q) :
    |(roundHalfEven p q : ℚ) - (p : ℚ) / (q : ℚ)| ≤ 1 / 2 := by
  obtain ⟨h1, h2⟩ := roundHalfEven_spec p q hq
  have hqpos : (0 : ℚ) < (q : ℚ) := by exact_mod_cast hq
  have h1q : 2 * ((roundHalfEven p q : ℚ) * q) ≤ 2 * p + q := by exact_mod_cast h1
  have h2q : 2 * (p : ℚ) ≤ 2 * ((roundHalfEven p q : ℚ) * q) + q := by exact_mod_cast h2
  have hrw : (roundHalfEven p q : ℚ) - (p : ℚ) / (q : ℚ) =
      ((roundHalfEven p q : ℚ) * q - p) / q := by
    field_simp
  rw [hrw, abs_le]
  constructor
  · rw [le_div_iff₀ hqpos]
    linarith
  · rw [div_le_iff₀ hqpos]
    linarith

theorem roundPos_spec (a q : Nat) (ha : 0 < a) (hq : 0 < q) :
    0 < (roundPos a q).den ∧ 0 ≤ (roundPos a q).num ∧
      |(roundPos a q).toRat - (a : ℚ) / (q : ℚ)| ≤ (a : ℚ) / (q : ℚ) / 2 ^ 53 := by
  have hL := floorLog2_le a q ha hq
  have hqpos : (0 : ℚ) < (q : ℚ) := by exact_mod_cast hq
  have hE : (2 : ℚ) ^ (floorLog2 a q - 52) / 2 ≤ (a : ℚ) / (q : ℚ) / 2 ^ 53 := by
    rw [zpow_sub₀ (by norm_num : (2 : ℚ) ≠ 0)]
    have h52 : (2 : ℚ) ^ (52 : Int) = 2 ^ 52 := by norm_num
    rw [h52, div_div]
    have h53 : (2 : ℚ) ^ 52 * 2 = 2 ^ 53 := by norm_num
    rw [h53]
    exact div_le_div_of_nonneg_right hL (by positivity)
  unfold roundPos
  simp only
  split_ifs with he
  · have hn : (2 : ℚ) ^ (floorLog2 a q - 52) = (2 : ℚ) ^ (floorLog2 a q - 52).toNat := by
      rw [← zpow_natCast, Int.toNat_of_nonneg he]
    rw [hn] at hE
    have hpow : (0 : ℚ) < (2 : ℚ) ^ (floorLog2 a q - 52).toNat := by positivity
    have hr := roundHalfEven_rat a (q * 2 ^ (floorLog2 a q - 52).toNat) (by positivity)
    refine ⟨by norm_num, by positivity, le_trans ?_ hE⟩
    simp only [Frac.toRat]
    push_cast at hr ⊢
    have hrw : (roundHalfEven a (q * 2 ^ (floorLog2 a q - 52).toNat) : ℚ) *
        2 ^ (floorLog2 a q - 52).toNat / 1 - (a : ℚ) / (q : ℚ) =
        ((roundHalfEven a (q * 2 ^ (floorLog2 a q - 52).toNat) : ℚ) -
          (a : ℚ) / ((q : ℚ) * 2 ^ (floorLog2 a q - 52).toNat)) *
          2 ^ (floorLog2 a q - 52).toNat := by
      field_simp
      ring
    rw [hrw, abs_mul, abs_of_pos hpow]
    calc |(roundHalfEven a (q * 2 ^ (floorLog2 a q - 52).toNat) : ℚ) -
          (a : ℚ) / ((q : ℚ) * 2 ^ (floorLog2 a q - 52).toNat)| *
          2 ^ (floorLog2 a q - 52).toNat
        ≤ 1 / 2 * 2 ^ (floorLog2 a q - 52).toNat := mul_le_mul_of_nonneg_right hr (le_of_lt hpow)
      _ = 2 ^ (floorLog2 a q - 52).toNat / 2 := by ring
  · have hn : (2 : ℚ) ^ (floorLog2 a q - 52) =
        1 / (2 : ℚ) ^ (-(floorLog2 a q - 52)).toNat := by
      rw [← zpow_natCast, Int.toNat_of_nonneg (by omega), zpow_neg, one_div, inv_inv]
    rw [hn] at hE
    have hpow : (0 : ℚ) < (2 : ℚ) ^ (-(floorLog2 a q - 52)).toNat := by positivity
    have hr := roundHalfEven_rat (a * 2 ^ (-(floorLog2 a q - 52)).toNat) q hq
    refine ⟨by positivity, by positivity, le_trans ?_ hE⟩
    simp only [Frac.toRat]
    push_cast at hr ⊢
    have hrw : (roundHalfEven (a * 2 ^ (-(floorLog2 a q - 52)).toNat) q : ℚ) /
        2 ^ (-(floorLog2 a q - 52)).toNat - (a : ℚ) / (q : ℚ) =
        ((roundHalfEven (a * 2 ^ (-(floorLog2 a q - 52)).toNat) q : ℚ) -
          (a : ℚ) * 2 ^ (-(floorLog2 a q - 52)).toNat / (q : ℚ)) /
          2 ^ (-(floorLog2 a q - 52)).toNat := by
      field_simp
      ring
    rw [hrw, abs_div, abs_of_pos hpow, div_le_iff₀ hpow]
    calc |(roundHalfEven (a * 2 ^ (-(floorLog2 a q - 52)).toNat) q : ℚ) -
          (a : ℚ) * 2 ^ (-(floorLog2 a q - 52)).toNat / (q : ℚ)|
        ≤ 1 / 2 := hr
      _ = 1 / 2 ^ (-(floorLog2 a q - 52)).toNat / 2 * 2 ^ (-(floorLog2 a q - 52)).toNat := by
        field_simp

theorem roundF64_spec (p : Int) (q : Nat) (hp : 0 ≤ p) (hq : 0 < q) :
    0 < (roundF64 p q).den ∧ 0 ≤ (roundF64 p q).num ∧
      |(roundF64 p q).toRat - (p : ℚ) / (q : ℚ)| ≤ (p : ℚ) / (q : ℚ) / 2 ^ 53 := by
  unfold roundF64
  by_cases h0 : p = 0
  · subst h0
    simp [Frac.toRat]
  · have hpos : 0 < p := by omega
    have hnat : 0 < p.toNat := by omega
    have hcast : ((p.toNat : Nat) : ℚ) = (p : ℚ) := by
      have : ((p.toNat : Nat) : Int) = p := Int.toNat_of_nonneg hp
      exact_mod_cast this
    simp only [h0, if_false, hpos, if_true]
    have h := roundPos_spec p.toNat q hnat hq
    rw [hcast] at h
    exact h

theorem roundHalfEven_one (p : Nat) : roundHalfEven p 1 = p := by
  simp [roundHalfEven, Nat.mod_one]

theorem roundF64_exact (n : Int) (h0 : 0 ≤ n) (h1 : n < 2 ^ 53) :
    0 < (roundF64 n 1).den ∧ 0 ≤ (roundF64 n 1).num ∧ (roundF64 n 1).toRat = (n : ℚ) := by
  obtain ⟨hd, hn, -⟩ := roundF64_spec n 1 h0 (by norm_num)
  refine ⟨hd, hn, ?_⟩
  unfold roundF64
  by_cases hz : n = 0
  · subst hz
    simp [Frac.toRat]
  · have hpos : 0 < n := by omega
    have hnat : 0 < n.toNat := by omega
    have hcast : ((n.toNat : Nat) : ℚ) = (n : ℚ) := by
      have : ((n.toNat : Nat) : Int) = n := Int.toNat_of_nonneg h0
      exact_mod_cast this
    simp only [hz, if_false, hpos, if_true]
    have hL := floorLog2_le n.toNat 1 hnat (by norm_num)
    have hlt : (2 : ℚ) ^ (floorLog2 n.toNat 1) < (2 : ℚ) ^ (53 : Int) := by
      have h53 : (2 : ℚ) ^ (53 : Int) = 2 ^ 53 := by norm_num
      rw [h53]
      have hn53 : (n : ℚ) < 2 ^ 53 := by exact_mod_cast h1
      calc (2 : ℚ) ^ (floorLog2 n.toNat 1) ≤ ((n.toNat : Nat) : ℚ) / ((1 : Nat) : ℚ) := hL
        _ = (n : ℚ) := by rw [hcast]; simp
        _ < 2 ^ 53 := hn53
    have hL53 : floorLog2 n.toNat 1 < 53 :=
      (zpow_lt_zpow_iff_right₀ (by norm_num : (1 : ℚ) < 2)).mp hlt
    unfold roundPos
    simp only
    split_ifs with he
    · have he0 : floorLog2 n.toNat 1 - 52 = 0 := by omega
      simp [he0, Frac.toRat, roundHalfEven_one, hcast, h0]
    · simp only [Frac.toRat, roundHalfEven_one]
      push_cast
      rw [hcast]
      field_simp

theorem int64OfFloat_spec (x : Frac) (hn : 0 ≤ x.num) :
    0 ≤ int64OfFloat x ∧ ((int64OfFloat x : Int) : ℚ) ≤ x.toRat ∧
      x.toRat < ((int64OfFloat x : Int) : ℚ) + 1 := by
  have hden : (0 : Int) ≤ (x.den : Int) := Int.ofNat_nonneg _
  have hfl : int64OfFloat x = ⌊x.toRat⌋ := by
    unfold int64OfFloat Frac.toRat
    rw [Int.tdiv_eq_ediv hn hden, Rat.floor_intCast_div_natCast]
  refine ⟨Int.tdiv_nonneg hn hden, ?_, ?_⟩
  · rw [hfl]
    exact Int.floor_le _
  · rw [hfl]
    exact Int.lt_floor_add_one _

theorem fdiv_spec (x y : Frac) (hxn : 0 ≤ x.num) (hxd : 0 < x.den) (hyn : 0 < y.num)
    (hyd : 0 < y.den) :
    0 < (fdiv x y).den ∧ 0 ≤ (fdiv x y).num ∧
      |(fdiv x y).toRat - x.toRat / y.toRat| ≤ x.toRat / y.toRat / 2 ^ 53 := by
  have hq : 0 < x.den * y.num.toNat := Nat.mul_pos hxd (by omega)
  have hp : 0 ≤ x.num * (y.den : Int) := mul_nonneg hxn (Int.ofNat_nonneg _)
  have h := roundF64_spec (x.num * (y.den : Int)) (x.den * y.num.toNat) hp hq
  have hcast : ((y.num.toNat : Nat) : ℚ) = (y.num : ℚ) := by
    have : ((y.num.toNat : Nat) : Int) = y.num := Int.toNat_of_nonneg (le_of_lt hyn)
    exact_mod_cast this
  have hval : ((x.num * (y.den : Int) : Int) : ℚ) / ((x.den * y.num.toNat : Nat) : ℚ) =
      x.toRat / y.toRat := by
    have hxd1 : (x.den : ℚ) ≠ 0 := by exact_mod_cast (Nat.pos_iff_ne_zero.mp hxd)
    have hyd1 : (y.den : ℚ) ≠ 0 := by exact_mod_cast (Nat.pos_iff_ne_zero.mp hyd)
    have hyn1 : (y.num : ℚ) ≠ 0 := by exact_mod_cast (ne_of_gt hyn)
    unfold Frac.toRat
    push_cast
    rw [hcast]
    field_simp
  rw [hval] at h
  unfold fdiv
  rw [if_pos (le_of_lt hyn)]
  exact h

theorem fmul_1e6_spec (x : Frac) (hxn : 0 ≤ x.num) (hxd : 0 < x.den) :
    0 < (fmul x f1e6).den ∧ 0 ≤ (fmul x f1e6).num ∧
      |(fmul x f1e6).toRat - x.toRat * 1000000| ≤ x.toRat * 1000000 / 2 ^ 53 := by
  have hq : 0 < x.den * 1 := by omega
  have hp : 0 ≤ x.num * 1000000 := by omega
  have h := roundF64_spec (x.num * 1000000) (x.den * 1) hp hq
  have hval : ((x.num * 1000000 : Int) : ℚ) / ((x.den * 1 : Nat) : ℚ) = x.toRat * 1000000 := by
    have hxd1 : (x.den : ℚ) ≠ 0 := by exact_mod_cast (Nat.pos_iff_ne_zero.mp hxd)
    unfold Frac.toRat
    push_cast
    field_simp
  rw [hval] at h
  unfold fmul f1e6
  exact h

theorem Frac.toRat_nonneg (x : Frac) (hxn : 0 ≤ x.num) : 0 ≤ x.toRat := by
  unfold Frac.toRat
  exact div_nonneg (by exact_mod_cast hxn) (by positivity)

/-- The delay reported for an excess `ex` and a scaled rate `rt`, both exactly
representable in binary64, lies within two roundings of `ex / rt * 1e6`. -/
theorem delayOf_bounds (ex rt : Int) (h0 : 0 ≤ ex) (h1 : ex < 2 ^ 53) (h2 : 0 < rt)
    (h3 : rt < 2 ^ 53) :
    0 ≤ delayOf ex rt ∧
      ((delayOf ex rt : Int) : ℚ) ≤ (ex : ℚ) / (rt : ℚ) * 1000000 * (1 + 1 / 2 ^ 53) ^ 2 ∧
      (ex : ℚ) / (rt : ℚ) * 1000000 * (1 - 1 / 2 ^ 53) ^ 2 < ((delayOf ex rt : Int) : ℚ) + 1 := by
  obtain ⟨hxd, hxn, hxv⟩ := roundF64_exact ex h0 h1
  obtain ⟨hyd, hyn, hyv⟩ := roundF64_exact rt (le_of_lt h2) h3
  have hrt : (0 : ℚ) < (rt : ℚ) := by exact_mod_cast h2
  have hex : (0 : ℚ) ≤ (ex : ℚ) := by exact_mod_cast h0
  have hynpos : 0 < (roundF64 rt 1).num := by
    rcases lt_or_eq_of_le hyn with h | h
    · exact h
    · exfalso
      unfold Frac.toRat at hyv
      rw [← h] at hyv
      simp at hyv
      rw [← hyv] at hrt
      exact lt_irrefl _ hrt
  obtain ⟨hq1d, hq1n, hq1⟩ := fdiv_spec (roundF64 ex 1) (roundF64 rt 1) hxn hxd hynpos hyd
  rw [hxv, hyv] at hq1
  obtain ⟨-, hq2n, hq2⟩ := fmul_1e6_spec _ hq1n hq1d
  obtain ⟨hd0, hd1, hd2⟩ := int64OfFloat_spec _ hq2n
  have hv : (0 : ℚ) ≤ (ex : ℚ) / (rt : ℚ) := div_nonneg hex (le_of_lt hrt)
  have hq1pos := Frac.toRat_nonneg _ hq1n
  rw [abs_le] at hq1 hq2
  unfold delayOf float64OfInt
  refine ⟨hd0, ?_, ?_⟩
  · refine le_trans hd1 ?_
    have ha : (fmul (fdiv (roundF64 ex 1) (roundF64 rt 1)) f1e6).toRat ≤
        (fdiv (roundF64 ex 1) (roundF64 rt 1)).toRat * (1000000 * (1 + 1 / 2 ^ 53)) := by
      linarith [hq2.2]
    have hb : (fdiv (roundF64 ex 1) (roundF64 rt 1)).toRat ≤
        (ex : ℚ) / (rt : ℚ) * (1 + 1 / 2 ^ 53) := by
      linarith [hq1.2]
    calc (fmul (fdiv (roundF64 ex 1) (roundF64 rt 1)) f1e6).toRat
        ≤ (fdiv (roundF64 ex 1) (roundF64 rt 1)).toRat * (1000000 * (1 + 1 / 2 ^ 53)) := ha
      _ ≤ (ex : ℚ) / (rt : ℚ) * (1 + 1 / 2 ^ 53) * (1000000 * (1 + 1 / 2 ^ 53)) :=
        mul_le_mul_of_nonneg_right hb (by positivity)
      _ = (ex : ℚ) / (rt : ℚ) * 1000000 * (1 + 1 / 2 ^ 53) ^ 2 := by ring
  · refine lt_of_le_of_lt ?_ hd2
    have ha : (fdiv (roundF64 ex 1) (roundF64 rt 1)).toRat * (1000000 * (1 - 1 / 2 ^ 53)) ≤
        (fmul (fdiv (roundF64 ex 1) (roundF64 rt 1)) f1e6).toRat := by
      linarith [hq2.1]
    have hb : (ex : ℚ) / (rt : ℚ) * (1 - 1 / 2 ^ 53) ≤
        (fdiv (roundF64 ex 1) (roundF64 rt 1)).toRat := by
      linarith [hq1.1]
    calc (ex : ℚ) / (rt : ℚ) * 1000000 * (1 - 1 / 2 ^ 53) ^ 2
        = (ex : ℚ) / (rt : ℚ) * (1 - 1 / 2 ^ 53) * (1000000 * (1 - 1 / 2 ^ 53)) := by ring
      _ ≤ (fdiv (roundF64 ex 1) (roundF64 rt 1)).toRat * (1000000 * (1 - 1 / 2 ^ 53)) :=
        mul_le_mul_of_nonneg_right hb (by norm_num)
      _ ≤ (fmul (fdiv (roundF64 ex 1) (roundF64 rt 1)) f1e6).toRat := ha

/-- For a factor of at most `1000000` and `uint32` rate and burst, the reported delay is
non-negative, at most `burst * 1000000 / rate`, and within one microsecond of the
truncated exact quotient. -/
theorem delayOf_close (ex rate burst F : Int) (hF1 : 1 ≤ F) (hF2 : F ≤ 1000000)
    (hr0 : 0 < rate) (hr1 : rate < 2 ^ 32) (hb1 : burst < 2 ^ 32) (he0 : 0 ≤ ex)
    (he1 : ex ≤ burst * F) :
    0 ≤ delayOf ex (rate * F) ∧ delayOf ex (rate * F) * rate ≤ burst * 1000000 ∧
      |delayOf ex (rate * F) - Int.tdiv (ex * 1000000) (rate * F)| ≤ 1 := by
  have hrt0 : 0 < rate * F := mul_pos hr0 (by omega)
  have hb0 : 0 ≤ burst := by
    by_contra hneg
    have : burst * F < 0 := mul_neg_of_neg_of_pos (by omega) (by omega)
    omega
  have hrt1 : rate * F < 2 ^ 53 := by
    have := mul_le_mul (by omega : rate ≤ 4294967295) hF2 (by omega) (by omega)
    omega
  have hbF : burst * F < 2 ^ 53 := by
    have := mul_le_mul (by omega : burst ≤ 4294967295) hF2 (by omega) (by omega)
    omega
  obtain ⟨hd0, hup, hlo⟩ := delayOf_bounds ex (rate * F) he0 (by omega) hrt0 hrt1
  have hrq : (0 : ℚ) < (rate : ℚ) := by exact_mod_cast hr0
  have hFq : (0 : ℚ) < (F : ℚ) := by exact_mod_cast (by omega : 0 < F)
  have hr1q : (1 : ℚ) ≤ (rate : ℚ) := by exact_mod_cast (by omega : 1 ≤ rate)
  have hexq : (0 : ℚ) ≤ (ex : ℚ) := by exact_mod_cast he0
  have he1q : (ex : ℚ) ≤ (burst : ℚ) * (F : ℚ) := by exact_mod_cast he1
  have hbq : (burst : ℚ) ≤ 4294967295 := by exact_mod_cast (by omega : burst ≤ 4294967295)
  have hb0q : (0 : ℚ) ≤ (burst : ℚ) := by exact_mod_cast hb0
  have hcast : ((rate * F : Int) : ℚ) = (rate : ℚ) * (F : ℚ) := by push_cast; ring
  rw [hcast] at hup hlo
  have hVr : (ex : ℚ) / ((rate : ℚ) * (F : ℚ)) * 1000000 * (rate : ℚ) ≤ (burst : ℚ) * 1000000 := by
    have h1 : (ex : ℚ) / ((rate : ℚ) * (F : ℚ)) * 1000000 * (rate : ℚ) =
        (ex : ℚ) / (F : ℚ) * 1000000 := by
      field_simp
      ring
    rw [h1]
    have h2 : (ex : ℚ) / (F : ℚ) ≤ (burst : ℚ) := by
      rw [div_le_iff₀ hFq]
      exact he1q
    linarith
  have hV0 : (0 : ℚ) ≤ (ex : ℚ) / ((rate : ℚ) * (F : ℚ)) * 1000000 := by positivity
  have hVN : (ex : ℚ) / ((rate : ℚ) * (F : ℚ)) * 1000000 ≤ 4294967295 * 1000000 := by
    have h3 : (ex : ℚ) / ((rate : ℚ) * (F : ℚ)) * 1000000 ≤
        (ex : ℚ) / ((rate : ℚ) * (F : ℚ)) * 1000000 * (rate : ℚ) :=
      le_mul_of_one_le_right hV0 hr1q
    linarith
  have hk1 : (1 + 1 / 2 ^ 53 : ℚ) ^ 2 = 1 + (2 / 2 ^ 53 + 1 / 2 ^ 106) := by norm_num
  have hk2 : (1 - 1 / 2 ^ 53 : ℚ) ^ 2 = 1 - (2 / 2 ^ 53 - 1 / 2 ^ 106) := by norm_num
  have hk3 : (4294967295 * 1000000 : ℚ) * (2 / 2 ^ 53 + 1 / 2 ^ 106) < 1 := by norm_num
  have hk4 : (0 : ℚ) ≤ 2 / 2 ^ 53 - 1 / 2 ^ 106 := by norm_num
  have hk5 : (2 / 2 ^ 53 - 1 / 2 ^ 106 : ℚ) ≤ 2 / 2 ^ 53 + 1 / 2 ^ 106 := by norm_num
  have hk6 : (0 : ℚ) ≤ 2 / 2 ^ 53 + 1 / 2 ^ 106 := by norm_num
  rw [hk1] at hup
  rw [hk2] at hlo
  have herr : (ex : ℚ) / ((rate : ℚ) * (F : ℚ)) * 1000000 * (2 / 2 ^ 53 + 1 / 2 ^ 106) < 1 :=
    lt_of_le_of_lt (mul_le_mul_of_nonneg_right hVN hk6) hk3
  have herr2 : (ex : ℚ) / ((rate : ℚ) * (F : ℚ)) * 1000000 * (2 / 2 ^ 53 - 1 / 2 ^ 106) < 1 :=
    lt_of_le_of_lt (mul_le_mul_of_nonneg_left hk5 hV0) herr
  have hfl1 : Int.tdiv (ex * 1000000) (rate * F) * (rate * F) ≤ ex * 1000000 := by
    rw [Int.tdiv_eq_ediv (by omega) (le_of_lt hrt0)]
    exact Int.ediv_mul_le _ (ne_of_gt hrt0)
  have hfl2 : ex * 1000000 < (Int.tdiv (ex * 1000000) (rate * F) + 1) * (rate * F) :=
    Int.lt_tdiv_add_one_mul_self _ hrt0
  have hrtq : (0 : ℚ) < (rate : ℚ) * (F : ℚ) := mul_pos hrq hFq
  have hfl1q : ((Int.tdiv (ex * 1000000) (rate * F) : Int) : ℚ) ≤
      (ex : ℚ) / ((rate : ℚ) * (F : ℚ)) * 1000000 := by
    have h : ((Int.tdiv (ex * 1000000) (rate * F) * (rate * F) : Int) : ℚ) ≤
        ((ex * 1000000 : Int) : ℚ) := by exact_mod_cast hfl1
    push_cast at h
    rw [div_mul_eq_mul_div, le_div_iff₀ hrtq]
    linarith
  have hfl2q : (ex : ℚ) / ((rate : ℚ) * (F : ℚ)) * 1000000 <
      ((Int.tdiv (ex * 1000000) (rate * F) : Int) : ℚ) + 1 := by
    have h : ((ex * 1000000 : Int) : ℚ) <
        (((Int.tdiv (ex * 1000000) (rate * F) + 1) * (rate * F) : Int) : ℚ) := by
      exact_mod_cast hfl2
    push_cast at h
    rw [div_mul_eq_mul_div, div_lt_iff₀ hrtq]
    linarith
  refine ⟨hd0, ?_, ?_⟩
  · have hq : ((delayOf ex (rate * F) * rate : Int) : ℚ) < ((burst * 1000000 : Int) : ℚ) + 1 := by
      push_cast
      have h5 : ((delayOf ex (rate * F) : Int) : ℚ) * (rate : ℚ) ≤
          (ex : ℚ) / ((rate : ℚ) * (F : ℚ)) * 1000000 *
            (1 + (2 / 2 ^ 53 + 1 / 2 ^ 106)) * (rate : ℚ) :=
        mul_le_mul_of_nonneg_right hup (le_of_lt hrq)
      have h6 : (ex : ℚ) / ((rate : ℚ) * (F : ℚ)) * 1000000 *
            (1 + (2 / 2 ^ 53 + 1 / 2 ^ 106)) * (rate : ℚ) ≤
          (burst : ℚ) * 1000000 * (1 + (2 / 2 ^ 53 + 1 / 2 ^ 106)) := by
        have := mul_le_mul_of_nonneg_right hVr (by norm_num : (0 : ℚ) ≤ 1 + (2 / 2 ^ 53 + 1 / 2 ^ 106))
        linarith
      have h7 : (burst : ℚ) * 1000000 * (2 / 2 ^ 53 + 1 / 2 ^ 106) < 1 := by
        have : (burst : ℚ) * 1000000 ≤ 4294967295 * 1000000 := by linarith
        exact lt_of_le_of_lt (mul_le_mul_of_nonneg_right this hk6) hk3
      linarith
    have hz : delayOf ex (rate * F) * rate < burst * 1000000 + 1 := by exact_mod_cast hq
    omega
  · rw [abs_le]
    constructor
    · have hq : ((Int.tdiv (ex * 1000000) (rate * F) : Int) : ℚ) - 2 <
          ((delayOf ex (rate * F) : Int) : ℚ) := by linarith
      have hz : Int.tdiv (ex * 1000000) (rate * F) - 2 < delayOf ex (rate * F) := by
        exact_mod_cast hq
      omega
    · have hq : ((delayOf ex (rate * F) : Int) : ℚ) <
          ((Int.tdiv (ex * 1000000) (rate * F) : Int) : ℚ) + 2 := by linarith
      have hz : delayOf ex (rate * F) < Int.tdiv (ex * 1000000) (rate * F) + 2 := by
        exact_mod_cast hq
      omega

/-! ## The reported delay (C4) -/

theorem recognized_factor (res : Resolution) (h : recognized res) :
    1 ≤ Int.tdiv 1000000000 res ∧ Int.tdiv 1000000000 res ≤ 1000000 := by
  rcases h with h | h | h | h <;> subst h <;> decide

theorem mul64_uint32_factor (n : Nat) (F : Int) (hn : n < 2 ^ 32) (hF1 : 1 ≤ F)
    (hF2 : F ≤ 1000000000) : mul64 (n : Int) F = (n : Int) * F := by
  have hb : (n : Int) < 4294967296 := by exact_mod_cast hn
  have hb0 : (0 : Int) ≤ n := Int.ofNat_nonneg _
  apply wrap64_of_isInt64
  unfold isInt64
  constructor
  · have := mul_nonneg hb0 (by omega : (0 : Int) ≤ F)
    omega
  · have := mul_le_mul (le_of_lt hb) hF2 (by omega) (by omega)
    omega

theorem excessOf_nonneg (rate : Nat) (res excess last t : Int) :
    0 ≤ excessOf rate res excess last t := by
  unfold excessOf
  simp only
  split_ifs <;> omega

/-- An admitted call with nodelay = false on a single limiter with `uint32` rate and
burst and a recognized resolution reports a delay that obeys `floatDelayRule`. -/
theorem GetDelay_admitted_delay (r r1 : rateLimiter) (t d : Int) (hn : r.nodelay = false)
    (hr32 : r.rate < 2 ^ 32) (hb32 : r.burst < 2 ^ 32) (hres : recognized r.resolution)
    (h : rateLimiter.GetDelayInMicroseconds r t = Except.ok ((d, none), r1)) :
    floatDelayRule r.rate r.burst r.resolution r1.excess d := by
  obtain ⟨h1, h2⟩ := recognized_bounds _ hres
  obtain ⟨hF1, hF2⟩ := recognized_factor _ hres
  obtain ⟨hf, -, -⟩ := factorOf_eq _ h1 h2
  have hfne : factorOf r.resolution ≠ 0 := by
    rw [hf]
    omega
  have h0 : r.resolution ≠ 0 := fun hz => by
    rw [hz] at h1
    exact absurd h1 (by decide)
  by_cases hr : r.rate = 0
  · rw [GetDelay_rate_zero r t hr] at h
    simp at h
  · rw [GetDelay_eq r t hr h0 hfne, hf,
      mul64_uint32_factor r.burst _ hb32 hF1 (by omega),
      mul64_uint32_factor r.rate _ hr32 hF1 (by omega)] at h
    by_cases hlt : (r.burst : Int) * Int.tdiv 1000000000 r.resolution <
        excessOf r.rate r.resolution r.excess r.last t
    · rw [if_pos hlt] at h
      simp at h
    · rw [if_neg hlt] at h
      simp only [hn, Bool.false_eq_true, if_false, Except.ok.injEq, Prod.mk.injEq,
        and_true] at h
      obtain ⟨hd, hr1⟩ := h
      have hex1 : r1.excess = excessOf r.rate r.resolution r.excess r.last t := by
        rw [← hr1]
      rw [hex1]
      have hrpos : (0 : Int) < (r.rate : Int) := by
        have : 0 < r.rate := Nat.pos_of_ne_zero hr
        exact_mod_cast this
      have hclose := delayOf_close (excessOf r.rate r.resolution r.excess r.last t)
        (r.rate : Int) (r.burst : Int) (Int.tdiv 1000000000 r.resolution) hF1 hF2 hrpos
        (by exact_mod_cast hr32) (by exact_mod_cast hb32) (excessOf_nonneg _ _ _ _ _)
        (not_lt.mp hlt)
      rw [hd] at hclose
      exact ⟨hd.symm, hclose.2.2, hclose.1, hclose.2.1⟩

set_option maxRecDepth 100000 in
theorem limiterSlow_admitted :
    rateLimiter.GetDelayInMicroseconds limiterSlow 1700000001857147000 =
      Except.ok ((4142852, none),
        { limiterSlow with excess := 4142853, last := 1700000001857147 }) := by
  rfl

/-- C4 as stated fails: `limiterSlow` (rate 1, burst 10, 1 microsecond resolution,
nodelay false, excess 5000000) called 1857147 ticks after its last call is admitted and
stores excess 4142853; `4142853 / 1000000 * 1000000` is exactly 4142853, but the
reported delay is 4142852, because `float64(4142853) / float64(1000000)` is rounded
below 4.142853 before the multiplication by `1e6` and the truncation. -/
theorem C4_exact_delay_counterexample :
    limiterSlow.nodelay = false ∧
      rateLimiter.GetDelayInMicroseconds limiterSlow 1700000001857147000 =
        Except.ok ((4142852, none),
          { limiterSlow with excess := 4142853, last := 1700000001857147 }) ∧
      ¬ exactDelayRule limiterSlow.rate limiterSlow.burst limiterSlow.resolution
        4142853 4142852 := by
  refine ⟨rfl, limiterSlow_admitted, ?_⟩
  intro h
  exact absurd h.1 (by decide)

/-- C4 (amended): for every admitted call on a cell with nodelay = false, `uint32` rate
and burst and a recognized resolution, the reported delay is
`int64(float64(excess') / float64(rate') * 1e6)` computed in binary64 arithmetic, where
`excess'` is the excess stored by that call and `rate' = rate * factor`; it differs from
`excess' / rate' * 1000000` truncated by at most one microsecond, it is non-negative and
it is at most `burst * 1000000 / rate`.  Stated for the single limiter and for the zone
entry of a present key. -/
theorem C4_delay_is_binary64_quotient {K : Type} [DecidableEq K] :
    (∀ (r r1 : rateLimiter) (t d : Int), r.nodelay = false → r.rate < 2 ^ 32 →
      r.burst < 2 ^ 32 → recognized r.resolution →
      rateLimiter.GetDelayInMicroseconds r t = Except.ok ((d, none), r1) →
      floatDelayRule r.rate r.burst r.resolution r1.excess d) ∧
    (∀ (z z1 : zoneRateLimiter K) (k : K) (item : zoneItem) (t d : Int),
      z.zoneMap k = some item → item.nodelay = false → item.rate < 2 ^ 32 →
      item.burst < 2 ^ 32 → recognized z.resolution →
      zoneRateLimiter.GetDelayInMicroseconds z (some k) t = Except.ok ((d, none), z1) →
      ∃ item1 : zoneItem, z1.zoneMap k = some item1 ∧
        floatDelayRule item.rate item.burst z.resolution item1.excess d) := by
  constructor
  · intro r r1 t d hn hr32 hb32 hres h
    exact GetDelay_admitted_delay r r1 t d hn hr32 hb32 hres h
  · intro z z1 k item t d hk hn hr32 hb32 hres h
    rw [zone_GetDelay_present z k item t hk] at h
    cases hc : rateLimiter.GetDelayInMicroseconds (cellOf z item) t with
    | error p => rw [hc] at h; simp at h
    | ok v =>
      obtain ⟨⟨d2, e2⟩, r2⟩ := v
      rw [hc] at h
      cases e2 with
      | some e3 => simp at h
      | none =>
        simp only [Except.ok.injEq, Prod.mk.injEq, and_true] at h
        obtain ⟨hd, hz⟩ := h
        have hrule := GetDelay_admitted_delay (cellOf z item) r2 t d2 hn hr32 hb32 hres hc
        refine ⟨{ item with excess := r2.excess, last := r2.last }, ?_, ?_⟩
        · rw [← hz]
          exact zoneStore_same _ _ _
        · rw [← hd]
          exact hrule

/-- Instance of the amended C4 at `limiterSlow`: the reported delay 4142852 is one
microsecond below the exact quotient 4142853. -/
theorem C4_delay_is_binary64_quotient_witness :
    (limiterSlow.nodelay = false ∧ limiterSlow.rate < 2 ^ 32 ∧ limiterSlow.burst < 2 ^ 32 ∧
      recognized limiterSlow.resolution ∧
      rateLimiter.GetDelayInMicroseconds limiterSlow 1700000001857147000 =
        Except.ok ((4142852, none),
          { limiterSlow with excess := 4142853, last := 1700000001857147 })) ∧
    floatDelayRule limiterSlow.rate limiterSlow.burst limiterSlow.resolution 4142853 4142852 :=
  ⟨⟨rfl, by decide, by decide, Or.inl rfl, limiterSlow_admitted⟩,
    (@C4_delay_is_binary64_quotient Nat _).1 limiterSlow
      { limiterSlow with excess := 4142853, last := 1700000001857147 } 1700000001857147000
      4142852 rfl (by decide) (by decide) (Or.inl rfl) limiterSlow_admitted⟩

/-! ## Registry setters and zone isolation (C11, C12) -/

/-- Two registries with the same resolution and the same entry under `k` decide alike
on `k`, whatever their defaults and their other entries are. -/
theorem sameDecision_of_eq {K : Type} [DecidableEq K] (z z2 : zoneRateLimiter K) (k : K)
    (t : Int) (hmap : z2.zoneMap k = z.zoneMap k) (hres : z2.resolution = z.resolution) :
    sameDecision z z2 k t := by
  unfold sameDecision
  cases hk : z.zoneMap k with
  | none =>
    have hk2 : z2.zoneMap k = none := by rw [hmap, hk]
    simp [zoneRateLimiter.GetDelayInMicroseconds, hk, hk2]
  | some item =>
    have hk2 : z2.zoneMap k = some item := by rw [hmap, hk]
    have hc : cellOf z2 item = cellOf z item := by
      unfold cellOf
      rw [hres]
    rw [zone_GetDelay_present z k item t hk, zone_GetDelay_present z2 k item t hk2, hc]
    cases rateLimiter.GetDelayInMicroseconds (cellOf z item) t with
    | error p => simp
    | ok v =>
      obtain ⟨⟨d, e⟩, r1⟩ := v
      cases e with
      | some e1 => simp [hk, hk2]
      | none => simp [zoneStore_same]

set_option maxRecDepth 100000 in
theorem zoneSlow_admitted :
    zoneRateLimiter.GetDelayInMicroseconds zoneSlow (some 2022) 1700000001857147000 =
      Except.ok ((4142852, none),
        { zoneSlow with zoneMap := zoneStore zoneSlow.zoneMap 2022 { itemSlow with excess := 4142853, last := 1700000001857147 } }) := by
  rfl

theorem zoneSlow_millisecond_rejected :
    zoneRateLimiter.GetDelayInMicroseconds
        { zoneSlow with resolution := ResolutionEnum.Millisecond } (some 2022)
        1700000001857147000 =
      Except.ok ((0, some errorReject),
        { zoneSlow with resolution := ResolutionEnum.Millisecond }) := by
  rfl

/-- C11 as stated fails for `SetResolution`: the registry `zoneSlow` (1 microsecond
resolution) admits the call on key 2022 at the clock reading 1700000001857147000 ns with
delay 4142852, and after `SetResolution(ResolutionEnum.Millisecond)` the same call on
the untouched entry is rejected, because `GetDelayInMicroseconds` scales every entry
with the resolution of the registry. -/
theorem C11_SetResolution_changes_decision_counterexample :
    zoneSlow.zoneMap 2022 = some itemSlow ∧
      ¬ settersKeepDecision zoneSlow 2022
        (zoneRateLimiter.SetResolution (some zoneSlow) ResolutionEnum.Millisecond) := by
  refine ⟨rfl, ?_⟩
  rintro ⟨z3, h1, -, h3⟩
  have hz : z3 = { zoneSlow with resolution := ResolutionEnum.Millisecond } := by
    simp only [zoneRateLimiter.SetResolution, Option.some.injEq] at h1
    exact h1.symm
  subst hz
  have h := h3 1700000001857147000
  unfold sameDecision at h
  rw [zoneSlow_admitted, zoneSlow_millisecond_rejected] at h
  simp at h

/-- C11 (amended): for every registry and every key present in it, `SetRate`, `SetBurst`
and `SetNodelay` on the registry leave the entry as it is and the next
`GetDelayInMicroseconds` on the key, at any clock value, ends as it would have without
the setter call (same panic, or same delay, same error and same resulting entry);
`SetResolution` also leaves the configuration and state stored in the entry as they are,
but it replaces the resolution that the decisions on all entries use, so the next decision
is guaranteed to be the same only when the resolution value is the one already set. -/
theorem C11_default_setters_keep_entries {K : Type} [DecidableEq K] (z : zoneRateLimiter K)
    (k : K) (item : zoneItem) (rate burst : Nat) (nodelay : Bool) (res : Resolution)
    (h : z.zoneMap k = some item) :
    settersKeepDecision z k (zoneRateLimiter.SetRate (some z) rate) ∧
    settersKeepDecision z k (zoneRateLimiter.SetBurst (some z) burst) ∧
    settersKeepDecision z k (zoneRateLimiter.SetNodelay (some z) nodelay) ∧
    ∃ z3 : zoneRateLimiter K, zoneRateLimiter.SetResolution (some z) res = some z3 ∧
      z3.zoneMap k = some item ∧ z3.resolution = res ∧
      (res = z.resolution → ∀ t : Int, sameDecision z z3 k t) := by
  refine ⟨⟨{ z with rate := rate }, rfl, rfl, fun t => sameDecision_of_eq _ _ k t rfl rfl⟩,
    ⟨{ z with burst := burst }, rfl, rfl, fun t => sameDecision_of_eq _ _ k t rfl rfl⟩,
    ⟨{ z with nodelay := nodelay }, rfl, rfl, fun t => sameDecision_of_eq _ _ k t rfl rfl⟩,
    ⟨{ z with resolution := res }, rfl, h, rfl, fun hres t =>
      sameDecision_of_eq _ _ k t rfl hres⟩⟩

/-- Instance of the amended C11 on `zoneSlow` and its key 2022. -/
theorem C11_default_setters_keep_entries_witness :
    zoneSlow.zoneMap 2022 = some itemSlow ∧
    settersKeepDecision zoneSlow 2022 (zoneRateLimiter.SetRate (some zoneSlow) 5) ∧
    settersKeepDecision zoneSlow 2022 (zoneRateLimiter.SetBurst (some zoneSlow) 7) ∧
    settersKeepDecision zoneSlow 2022 (zoneRateLimiter.SetNodelay (some zoneSlow) true) :=
  ⟨rfl, (C11_default_setters_keep_entries zoneSlow 2022 itemSlow 5 7 true 1000 rfl).1,
    (C11_default_setters_keep_entries zoneSlow 2022 itemSlow 5 7 true 1000 rfl).2.1,
    (C11_default_setters_keep_entries zoneSlow 2022 itemSlow 5 7 true 1000 rfl).2.2.1⟩

/-- C12: zone isolation.  For every registry and every two distinct keys A and B (A may
also be nil or absent), a call of `GetDelayInMicroseconds` on A that returns, admitted or
rejected, leaves the entry of B (configuration, excess and last) and the registry
defaults unchanged, so that a later decision on B at any clock value ends the same way
whether or not the call on A happened. -/
theorem C12_zone_isolation {K : Type} [DecidableEq K] (z z1 : zoneRateLimiter K)
    (a : Option K) (b : K) (t : Int) (p : Int × Option GoError) (hab : a ≠ some b)
    (h : zoneRateLimiter.GetDelayInMicroseconds z a t = Except.ok (p, z1)) :
    z1.zoneMap b = z.zoneMap b ∧ z1.tolimiterMeta = z.tolimiterMeta ∧
      ∀ t2 : Int, sameDecision z z1 b t2 := by
  have key : z1.zoneMap b = z.zoneMap b ∧ z1.tolimiterMeta = z.tolimiterMeta := by
    cases a with
    | none =>
      simp only [zoneRateLimiter.GetDelayInMicroseconds, Except.ok.injEq, Prod.mk.injEq] at h
      rw [← h.2]
      exact ⟨rfl, rfl⟩
    | some ka =>
      have hne : b ≠ ka := fun hb => hab (by rw [hb])
      cases hk : z.zoneMap ka with
      | none =>
        simp only [zoneRateLimiter.GetDelayInMicroseconds, hk, Except.ok.injEq,
          Prod.mk.injEq] at h
        rw [← h.2]
        exact ⟨rfl, rfl⟩
      | some item =>
        rw [zone_GetDelay_present z ka item t hk] at h
        cases hc : rateLimiter.GetDelayInMicroseconds (cellOf z item) t with
        | error q => rw [hc] at h; simp at h
        | ok v =>
          obtain ⟨⟨d, e⟩, r1⟩ := v
          rw [hc] at h
          cases e with
          | some e1 =>
            simp only [Except.ok.injEq, Prod.mk.injEq] at h
            rw [← h.2]
            exact ⟨rfl, rfl⟩
          | none =>
            simp only [Except.ok.injEq, Prod.mk.injEq] at h
            rw [← h.2]
            exact ⟨zoneStore_other _ _ _ _ hne, rfl⟩
  refine ⟨key.1, key.2, fun t2 => sameDecision_of_eq z z1 b t2 key.1 ?_⟩
  rw [show z1.resolution = z1.tolimiterMeta.resolution from rfl, key.2]

set_option maxRecDepth 100000 in
theorem zoneTwo_admitted :
    zoneRateLimiter.GetDelayInMicroseconds zoneTwo (some 2022) 1700000001857147000 =
      Except.ok ((4142852, none),
        { zoneTwo with zoneMap := zoneStore zoneTwo.zoneMap 2022 { itemSlow with excess := 4142853, last := 1700000001857147 } }) := by
  rfl

/-- Instance of C12: an admitted call on key 2022 of `zoneTwo` leaves the entry of
key 7 as it was. -/
theorem C12_zone_isolation_witness :
    (some 2022 : Option Nat) ≠ some 7 ∧
    zoneRateLimiter.GetDelayInMicroseconds zoneTwo (some 2022) 1700000001857147000 =
      Except.ok ((4142852, none),
        { zoneTwo with zoneMap := zoneStore zoneTwo.zoneMap 2022 { itemSlow with excess := 4142853, last := 1700000001857147 } }) ∧
    zoneStore zoneTwo.zoneMap 2022 { itemSlow with excess := 4142853, last := 1700000001857147 } 7 =
      zoneTwo.zoneMap 7 :=
  ⟨by decide, zoneTwo_admitted,
    (C12_zone_isolation zoneTwo _ (some 2022) 7 1700000001857147000 _ (by decide)
      zoneTwo_admitted).1⟩

/-! ## Setters of the single limiter (C15) -/

/-- C15: each of `SetRate`, `SetBurst`, `SetNodelay` and `SetResolution` of the single
limiter returns the limiter it was called on, with the one named configuration field set
to the given value and the other three configuration fields, the excess and the last
unchanged; called on a nil receiver it returns nil and does nothing else. -/
theorem C15_setters_change_one_field (r : rateLimiter) (rate burst : Nat) (nodelay : Bool)
    (res : Resolution) :
    (rateLimiter.SetRate (some r) rate = some { r with rate := rate } ∧
      rateLimiter.SetRate none rate = none) ∧
    (rateLimiter.SetBurst (some r) burst = some { r with burst := burst } ∧
      rateLimiter.SetBurst none burst = none) ∧
    (rateLimiter.SetNodelay (some r) nodelay = some { r with nodelay := nodelay } ∧
      rateLimiter.SetNodelay none nodelay = none) ∧
    (rateLimiter.SetResolution (some r) res = some { r with resolution := res } ∧
      rateLimiter.SetResolution none res = none) ∧
    (({ r with rate := rate } : rateLimiter).burst = r.burst ∧
      ({ r with rate := rate } : rateLimiter).nodelay = r.nodelay ∧
      ({ r with rate := rate } : rateLimiter).resolution = r.resolution ∧
      ({ r with rate := rate } : rateLimiter).tolimiterRecord = r.tolimiterRecord) ∧
    (({ r with burst := burst } : rateLimiter).rate = r.rate ∧
      ({ r with burst := burst } : rateLimiter).nodelay = r.nodelay ∧
      ({ r with burst := burst } : rateLimiter).resolution = r.resolution ∧
      ({ r with burst := burst } : rateLimiter).tolimiterRecord = r.tolimiterRecord) ∧
    (({ r with nodelay := nodelay } : rateLimiter).rate = r.rate ∧
      ({ r with nodelay := nodelay } : rateLimiter).burst = r.burst ∧
      ({ r with nodelay := nodelay } : rateLimiter).resolution = r.resolution ∧
      ({ r with nodelay := nodelay } : rateLimiter).tolimiterRecord = r.tolimiterRecord) ∧
    (({ r with resolution := res } : rateLimiter).rate = r.rate ∧
      ({ r with resolution := res } : rateLimiter).burst = r.burst ∧
      ({ r with resolution := res } : rateLimiter).nodelay = r.nodelay ∧
      ({ r with resolution := res } : rateLimiter).tolimiterRecord = r.tolimiterRecord) :=
  ⟨⟨rfl, rfl⟩, ⟨rfl, rfl⟩, ⟨rfl, rfl⟩, ⟨rfl, rfl⟩, ⟨rfl, rfl, rfl, rfl⟩, ⟨rfl, rfl, rfl, rfl⟩,
    ⟨rfl, rfl, rfl, rfl⟩, ⟨rfl, rfl, rfl, rfl⟩⟩

/-! ## The zone decision is the single limiter decision (C18) -/

/-- C18: for every key present in a zone registry, `GetDelayInMicroseconds` on the key
is the decision of the single limiter that has the rate, burst, nodelay, excess and last
of the entry and the resolution of the registry (`cellOf`), at the same clock value: both
stop with the same panic, or both return the same delay and the same error, and the entry
is left with the configuration it had and the excess and last the single limiter is left
with. -/
theorem C18_zone_decision_is_limiter_decision {K : Type} [DecidableEq K]
    (z : zoneRateLimiter K) (k : K) (item : zoneItem) (t : Int)
    (h : z.zoneMap k = some item) :
    match zoneRateLimiter.GetDelayInMicroseconds z (some k) t,
      rateLimiter.GetDelayInMicroseconds (cellOf z item) t with
    | Except.ok (p1, z1), Except.ok (p2, r2) =>
      p1 = p2 ∧ ∃ item1 : zoneItem, z1.zoneMap k = some item1 ∧
        item1.excess = r2.excess ∧ item1.last = r2.last ∧
        item1.tolimiterMeta = item.tolimiterMeta
    | Except.error p, Except.error q => p = q
    | _, _ => False := by
  rw [zone_GetDelay_present z k item t h]
  cases hc : rateLimiter.GetDelayInMicroseconds (cellOf z item) t with
  | error p => simp
  | ok v =>
    obtain ⟨⟨d, e⟩, r1⟩ := v
    cases e with
    | some e1 =>
      obtain ⟨h1, -, -⟩ := GetDelay_error_state (cellOf z item) r1 t d e1 hc
      subst h1
      simp [h, cellOf]
    | none => simp [zoneStore_same]

/-- Instance of C18 on `zoneSlow`: the zone call and the call on `limiterSlow` both
report 4142852 and store excess 4142853. -/
theorem C18_zone_decision_is_limiter_decision_witness :
    zoneSlow.zoneMap 2022 = some itemSlow ∧ cellOf zoneSlow itemSlow = limiterSlow ∧
    ((4142852, none) : Int × Option GoError) = (4142852, none) := by
  have h := C18_zone_decision_is_limiter_decision zoneSlow 2022 itemSlow
    1700000001857147000 rfl
  have hc : cellOf zoneSlow itemSlow = limiterSlow := rfl
  rw [zoneSlow_admitted, hc, limiterSlow_admitted] at h
  exact ⟨rfl, hc, h.1⟩

/-! ## Run-time panics (C19) -/

theorem natAbs_tdiv_le (a b : Int) : (Int.tdiv a b).natAbs ≤ a.natAbs := by
  rw [Int.natAbs_tdiv]
  exact Nat.div_le_self _ _

theorem factorOf_eq_tdiv (res : Int) : factorOf res = Int.tdiv 1000000000 res := by
  have h := natAbs_tdiv_le 1000000000 res
  unfold factorOf
  apply wrap64_of_isInt64
  unfold isInt64
  have h1 : (1000000000 : Int).natAbs = 1000000000 := rfl
  rw [h1] at h
  omega

theorem factorOf_eq_zero_iff (res : Int) :
    factorOf res = 0 ↔ res = 0 ∨ res < -1000000000 ∨ 1000000000 < res := by
  rw [factorOf_eq_tdiv, ← Int.natAbs_eq_zero, Int.natAbs_tdiv]
  have h1 : (1000000000 : Int).natAbs = 1000000000 := rfl
  rw [h1]
  constructor
  · intro h
    have h2 : res.natAbs = 0 ∨ 1000000000 < res.natAbs := by
      by_cases hz : res.natAbs = 0
      · exact Or.inl hz
      · right
        by_contra hle
        have hpos : 0 < Nat.div 1000000000 res.natAbs :=
          Nat.div_pos (by omega) (by omega)
        omega
    omega
  · intro h
    by_cases hz : res = 0
    · subst hz
      rfl
    · exact Nat.div_eq_of_lt (by omega)

/-- The single limiter panics exactly when its rate is not 0 and its resolution is 0 or
of magnitude above `1000000000`. -/
theorem GetDelay_panics_iff (r : rateLimiter) (t : Int) :
    (∃ p, rateLimiter.GetDelayInMicroseconds r t = Except.error p) ↔
      r.rate ≠ 0 ∧
        (r.resolution = 0 ∨ r.resolution < -1000000000 ∨ 1000000000 < r.resolution) := by
  by_cases hr : r.rate = 0
  · rw [GetDelay_rate_zero r t hr]
    simp [hr]
  · by_cases h0 : r.resolution = 0
    · rw [GetDelay_resolution_zero r t hr h0]
      simp [hr, h0]
    · by_cases hf : factorOf r.resolution = 0
      · rw [GetDelay_factor_zero r t hr h0 hf]
        have := (factorOf_eq_zero_iff r.resolution).mp hf
        simp [hr, this]
      · rw [GetDelay_eq r t hr h0 hf]
        have hn : ¬ (r.resolution = 0 ∨ r.resolution < -1000000000 ∨
            1000000000 < r.resolution) := fun h => hf ((factorOf_eq_zero_iff _).mpr h)
        constructor
        · rintro ⟨p, hp⟩
          split_ifs at hp
        · rintro ⟨-, h⟩
          exact absurd h hn

/-- C19 as stated fails: the limiter `NewRateLimiter(1000).SetResolution(0)` is reachable
through the constructor and a public setter, and its `GetDelayInMicroseconds` stops with
the integer division by zero of `1e9 / r.resolution`. -/
theorem C19_resolution_zero_panics_counterexample :
    limiterResolutionZero = some { NewRateLimiter 1000 with resolution := 0 } ∧
      rateLimiter.GetDelayInMicroseconds { NewRateLimiter 1000 with resolution := 0 }
        1700000000000000000 = Except.error GoPanic.divideByZero :=
  ⟨rfl, rfl⟩

/-- C19 (amended): for every configuration (any rate, burst, nodelay and resolution),
every state and every clock value, `GetDelayInMicroseconds` of the single limiter aborts
if and only if the rate is not 0 and the resolution is 0 or of magnitude above
`1000000000` (the two zero divisors `resolution` and `1e9 / resolution`); in every other
configuration, in particular with each recognized resolution, it returns a delay or the
rejection.  On a present key the zone limiter aborts under the same condition on the
rate of the entry and the resolution of the registry. -/
theorem C19_aborts_iff_zero_divisor {K : Type} [DecidableEq K] :
    (∀ (r : rateLimiter) (t : Int),
      ((∃ p, rateLimiter.GetDelayInMicroseconds r t = Except.error p) ↔
        r.rate ≠ 0 ∧
          (r.resolution = 0 ∨ r.resolution < -1000000000 ∨ 1000000000 < r.resolution)) ∧
      (recognized r.resolution →
        ∃ d e r1, rateLimiter.GetDelayInMicroseconds r t = Except.ok ((d, e), r1) ∧
          (e = none ∨ e = some errorReject))) ∧
    (∀ (z : zoneRateLimiter K) (k : K) (item : zoneItem) (t : Int),
      z.zoneMap k = some item →
      ((∃ p, zoneRateLimiter.GetDelayInMicroseconds z (some k) t = Except.error p) ↔
        item.rate ≠ 0 ∧
          (z.resolution = 0 ∨ z.resolution < -1000000000 ∨ 1000000000 < z.resolution))) := by
  constructor
  · intro r t
    refine ⟨GetDelay_panics_iff r t, fun hres => ?_⟩
    obtain ⟨h1, h2⟩ := recognized_bounds _ hres
    cases hc : rateLimiter.GetDelayInMicroseconds r t with
    | error p =>
      have hp := (GetDelay_panics_iff r t).mp ⟨p, hc⟩
      exfalso
      rcases hp.2 with h | h | h
      · rw [h] at h1
        exact absurd h1 (by decide)
      · exact absurd (lt_of_le_of_lt h1 h) (by decide)
      · exact absurd (lt_of_lt_of_le h h2) (lt_irrefl _)
    | ok v =>
      obtain ⟨⟨d, e⟩, r1⟩ := v
      refine ⟨d, e, r1, rfl, ?_⟩
      cases e with
      | none => exact Or.inl rfl
      | some e1 =>
        right
        rw [(GetDelay_error_state r r1 t d e1 hc).2.2]
  · intro z k item t hk
    rw [zone_GetDelay_present z k item t hk]
    have h := GetDelay_panics_iff (cellOf z item) t
    have hrate : (cellOf z item).rate = item.rate := rfl
    have hresn : (cellOf z item).resolution = z.resolution := rfl
    rw [hrate, hresn] at h
    rw [← h]
    cases rateLimiter.GetDelayInMicroseconds (cellOf z item) t with
    | error p => simp
    | ok v =>
      obtain ⟨⟨d, e⟩, r1⟩ := v
      cases e <;> simp

/-- Instance of the amended C19: the limiter of `TestNormal1` returns, and the limiter
with resolution 0 aborts. -/
theorem C19_aborts_iff_zero_divisor_witness :
    recognized limiterNodelay.resolution ∧
    (∃ d e r1, rateLimiter.GetDelayInMicroseconds limiterNodelay 1700000000000000000 =
        Except.ok ((d, e), r1) ∧ (e = none ∨ e = some errorReject)) ∧
    (∃ p, rateLimiter.GetDelayInMicroseconds { NewRateLimiter 1000 with resolution := 0 }
        1700000000000000000 = Except.error p) :=
  ⟨Or.inl rfl,
    ((@C19_aborts_iff_zero_divisor Nat _).1 limiterNodelay 1700000000000000000).2 (Or.inl rfl),
    ((@C19_aborts_iff_zero_divisor Nat _).1 { NewRateLimiter 1000 with resolution := 0 }
      1700000000000000000).1.mpr ⟨by decide, Or.inl rfl⟩⟩

/-! ## Overflow (C20) -/

theorem excessOf_eq_clamp (rate : Nat) (res excess last t : Int) :
    excessOf rate res excess last t =
      if tentativeOf rate res excess last t < 0 then 0
      else tentativeOf rate res excess last t := rfl

theorem elapsedOf_eq (res last t : Int) (h1 : 1 ≤ res) (ht : isInt64 t)
    (hd : isInt64 (Int.tdiv t res - last)) :
    elapsedOf res last t = min (Int.tdiv t res - last) (Int.tdiv timeHour res) := by
  unfold elapsedOf sub64
  rw [hourTicks_eq res h1, tickOf_eq t res ht h1, wrap64_of_isInt64 _ hd]
  split_ifs with hlt
  · exact (min_eq_right (le_of_lt hlt)).symm
  · exact (min_eq_left (not_lt.mp hlt)).symm

theorem perTick_eq (rate : Nat) (F : Int) (hr32 : rate < 2 ^ 32) (hF1 : 1 ≤ F)
    (hF2 : F ≤ 1000000000) : wrap64 (Int.tdiv (mul64 (rate : Int) F) F) = (rate : Int) := by
  rw [mul64_uint32_factor rate F hr32 hF1 hF2, Int.mul_tdiv_cancel _ (by omega)]
  apply wrap64_of_isInt64
  have hr : (rate : Int) < 4294967296 := by exact_mod_cast hr32
  have hr0 : (0 : Int) ≤ rate := Int.ofNat_nonneg rate
  unfold isInt64
  omega

/-- The tentative excess is the unbounded value when the clock difference and the
unbounded value itself fit in 64 bits. -/
theorem tentativeOf_eq (rate : Nat) (res excess last t : Int) (hr32 : rate < 2 ^ 32)
    (h1 : 1 ≤ res) (h2 : res ≤ 1000000000) (ht : isInt64 t)
    (hd : isInt64 (Int.tdiv t res - last))
    (he : isInt64 (excess - (rate : Int) *
      min (Int.tdiv t res - last) (Int.tdiv timeHour res) + Int.tdiv 1000000000 res)) :
    tentativeOf rate res excess last t =
      excess - (rate : Int) *
        min (Int.tdiv t res - last) (Int.tdiv timeHour res) + Int.tdiv 1000000000 res := by
  obtain ⟨hf, hf1, hf2⟩ := factorOf_eq res h1 h2
  unfold tentativeOf
  rw [hf, perTick_eq rate _ hr32 hf1 hf2, elapsedOf_eq res last t h1 ht hd,
    add64_sub64_mul64, wrap64_of_isInt64 _ he]

set_option maxRecDepth 100000 in
/-- The one-hour quota does not keep the drain product in range: for the fresh limiter
`limiterMax` (rate 4294967295, burst 10, 1 microsecond resolution, excess 0, last 0) at
the clock reading 1700000000000000000 ns the elapsed time is clamped to one hour,
3600000000 ticks, and `rate * elapsed` is about 1.5e19, beyond the `int64` range; the
tentative excess the code computes is not the unbounded one. -/
theorem limiterMax_not_overflowFree :
    (limiterMax.rate < 2 ^ 32 ∧ limiterMax.burst < 2 ^ 32 ∧ recognized limiterMax.resolution ∧
      0 ≤ limiterMax.excess ∧
      limiterMax.excess ≤ (limiterMax.burst : Int) * Int.tdiv 1000000000 limiterMax.resolution ∧
      limiterMax.last ≤ Int.tdiv 1700000000000000000 limiterMax.resolution ∧
      isInt64 1700000000000000000) ∧
    ¬ overflowFree limiterMax 1700000000000000000 := by
  refine ⟨⟨by decide, by decide, Or.inl rfl, by decide, by decide, by decide, by decide⟩, ?_⟩
  intro h
  exact absurd h.2.2 (by decide)

/-- Where the rate times one hour of ticks fits in 64 bits, nothing wraps: for every
rate and burst representable in `uint32`, every recognized resolution, every stored state
with `0 ≤ excess ≤ burst * factor` and every `int64` clock reading whose tick `now`
satisfies `last ≤ now` and `now - last < 2^63`, provided
`rate * (one hour of ticks) < 2^63`, the scaled rate, the scaled burst and the tentative
excess computed in `int64` equal the same quantities over unbounded integers. -/
theorem overflowFree_below_rate_bound (r : rateLimiter) (t : Int)
    (hr32 : r.rate < 2 ^ 32) (hb32 : r.burst < 2 ^ 32) (hres : recognized r.resolution)
    (he0 : 0 ≤ r.excess)
    (he1 : r.excess ≤ (r.burst : Int) * Int.tdiv 1000000000 r.resolution)
    (hlast : r.last ≤ Int.tdiv t r.resolution) (ht : isInt64 t)
    (hdiff : Int.tdiv t r.resolution - r.last < 2 ^ 63)
    (hrate : (r.rate : Int) * Int.tdiv timeHour r.resolution < 2 ^ 63) :
    overflowFree r t := by
  obtain ⟨h1, h2⟩ := recognized_bounds _ hres
  obtain ⟨hF1, hF2⟩ := recognized_factor _ hres
  obtain ⟨hf, -, -⟩ := factorOf_eq _ h1 h2
  have hhour := tdiv_bounds_of_nonneg timeHour r.resolution (by decide) h1
  have hd : isInt64 (Int.tdiv t r.resolution - r.last) := by
    unfold isInt64
    omega
  have hr0 : (0 : Int) ≤ (r.rate : Int) := Int.ofNat_nonneg _
  have hb : (r.burst : Int) < 4294967296 := by exact_mod_cast hb32
  have hb0 : (0 : Int) ≤ (r.burst : Int) := Int.ofNat_nonneg _
  have hbF : (r.burst : Int) * Int.tdiv 1000000000 r.resolution ≤
      4294967295 * 1000000 :=
    mul_le_mul (by omega) hF2 (by omega) (by omega)
  have hmin0 : 0 ≤ min (Int.tdiv t r.resolution - r.last) (Int.tdiv timeHour r.resolution) :=
    le_min (by omega) hhour.1
  have hminle : min (Int.tdiv t r.resolution - r.last) (Int.tdiv timeHour r.resolution) ≤
      Int.tdiv timeHour r.resolution := min_le_right _ _
  have hprod0 : 0 ≤ (r.rate : Int) *
      min (Int.tdiv t r.resolution - r.last) (Int.tdiv timeHour r.resolution) :=
    mul_nonneg hr0 hmin0
  have hprod : (r.rate : Int) *
      min (Int.tdiv t r.resolution - r.last) (Int.tdiv timeHour r.resolution) ≤
      (r.rate : Int) * Int.tdiv timeHour r.resolution :=
    mul_le_mul_of_nonneg_left hminle hr0
  have he : isInt64 (r.excess - (r.rate : Int) *
      min (Int.tdiv t r.resolution - r.last) (Int.tdiv timeHour r.resolution) +
      Int.tdiv 1000000000 r.resolution) := by
    unfold isInt64
    constructor
    · omega
    · omega
  refine ⟨?_, ?_, tentativeOf_eq r.rate r.resolution r.excess r.last t hr32 h1 h2 ht hd he⟩
  · rw [hf]
    exact mul64_uint32_factor r.rate _ hr32 hF1 (by omega)
  · rw [hf]
    exact mul64_uint32_factor r.burst _ hb32 hF1 (by omega)

/-- Instance of `overflowFree_below_rate_bound`: the limiter of `TestNormal1` with three
requests of excess, called again in the same tick. -/
theorem overflowFree_below_rate_bound_instance :
    (limiterNodelay.rate < 2 ^ 32 ∧ limiterNodelay.burst < 2 ^ 32 ∧
      recognized limiterNodelay.resolution ∧ 0 ≤ limiterNodelay.excess ∧
      limiterNodelay.excess ≤
        (limiterNodelay.burst : Int) * Int.tdiv 1000000000 limiterNodelay.resolution ∧
      limiterNodelay.last ≤ Int.tdiv 1700000000000000000 limiterNodelay.resolution ∧
      isInt64 1700000000000000000 ∧
      Int.tdiv 1700000000000000000 limiterNodelay.resolution - limiterNodelay.last < 2 ^ 63 ∧
      (limiterNodelay.rate : Int) * Int.tdiv timeHour limiterNodelay.resolution < 2 ^ 63) ∧
    overflowFree limiterNodelay 1700000000000000000 :=
  ⟨⟨by decide, by decide, Or.inl rfl, by decide, by decide, by decide, by decide, by decide,
      by decide⟩,
    overflowFree_below_rate_bound limiterNodelay 1700000000000000000 (by decide)
      (by decide) (Or.inl rfl) (by decide) (by decide) (by decide) (by decide) (by decide)
      (by decide)⟩

/-! ## The state invariant (C17) -/

theorem mul64_uint32_any_factor (n : Nat) (res : Int) (hn : n < 2 ^ 32) :
    mul64 (n : Int) (factorOf res) = (n : Int) * Int.tdiv 1000000000 res := by
  have h := natAbs_tdiv_le 1000000000 res
  have h1 : (1000000000 : Int).natAbs = 1000000000 := rfl
  rw [h1] at h
  have hb : (n : Int) ≤ 4294967295 := by
    have : n ≤ 4294967295 := by omega
    exact_mod_cast this
  have hb0 : (0 : Int) ≤ n := Int.ofNat_nonneg _
  rw [factorOf_eq_tdiv]
  apply wrap64_of_isInt64
  unfold isInt64
  by_cases hF : 0 ≤ Int.tdiv 1000000000 res
  · have h2 := mul_nonneg hb0 hF
    have h3 := mul_le_mul hb (by omega : Int.tdiv 1000000000 res ≤ 1000000000) hF (by omega)
    omega
  · have h2 : (n : Int) * Int.tdiv 1000000000 res ≤ 0 :=
      mul_nonpos_of_nonneg_of_nonpos hb0 (by omega)
    have h3 := mul_le_mul hb (by omega : -(Int.tdiv 1000000000 res) ≤ 1000000000)
      (by omega) (by omega)
    have h4 : (n : Int) * -(Int.tdiv 1000000000 res) =
        -((n : Int) * Int.tdiv 1000000000 res) := by ring
    omega

/-- One returning call keeps the configuration and either leaves the limiter as it is
or stores an excess between 0 and the scaled burst. -/
theorem GetDelay_step (r r1 : rateLimiter) (t : Int) (p : Int × Option GoError)
    (h : rateLimiter.GetDelayInMicroseconds r t = Except.ok (p, r1)) :
    r1.tolimiterMeta = r.tolimiterMeta ∧
      (r1 = r ∨ (r.rate ≠ 0 ∧ factorOf r.resolution ≠ 0 ∧ 0 ≤ r1.excess ∧
        r1.excess ≤ mul64 (r.burst : Int) (factorOf r.resolution))) := by
  by_cases hr : r.rate = 0
  · rw [GetDelay_rate_zero r t hr] at h
    simp only [Except.ok.injEq, Prod.mk.injEq] at h
    rw [← h.2]
    exact ⟨rfl, Or.inl rfl⟩
  · by_cases h0 : r.resolution = 0
    · rw [GetDelay_resolution_zero r t hr h0] at h
      exact absurd h (by simp)
    · by_cases hf : factorOf r.resolution = 0
      · rw [GetDelay_factor_zero r t hr h0 hf] at h
        exact absurd h (by simp)
      · rw [GetDelay_eq r t hr h0 hf] at h
        by_cases hlt : mul64 (r.burst : Int) (factorOf r.resolution) <
            excessOf r.rate r.resolution r.excess r.last t
        · rw [if_pos hlt] at h
          simp only [Except.ok.injEq, Prod.mk.injEq] at h
          rw [← h.2]
          exact ⟨rfl, Or.inl rfl⟩
        · rw [if_neg hlt] at h
          simp only [Except.ok.injEq, Prod.mk.injEq] at h
          rw [← h.2]
          exact ⟨rfl, Or.inr ⟨hr, hf, excessOf_nonneg _ _ _ _ _, not_lt.mp hlt⟩⟩

theorem callsAt_invariant (ts : List Int) : ∀ (r0 r : rateLimiter), r0.burst < 2 ^ 32 →
    0 < r0.resolution → 0 ≤ r0.excess →
    r0.excess ≤ (r0.burst : Int) * Int.tdiv 1000000000 r0.resolution →
    callsAt r0 ts = Except.ok r →
    r.tolimiterMeta = r0.tolimiterMeta ∧ 0 ≤ r.excess ∧
      r.excess ≤ (r0.burst : Int) * Int.tdiv 1000000000 r0.resolution := by
  induction ts with
  | nil =>
    intro r0 r _ _ h0 h1 h
    simp only [callsAt, Except.ok.injEq] at h
    rw [← h]
    exact ⟨rfl, h0, h1⟩
  | cons t ts ih =>
    intro r0 r hb hres h0 h1 h
    unfold callsAt at h
    cases hc : rateLimiter.GetDelayInMicroseconds r0 t with
    | error p => rw [hc] at h; simp at h
    | ok v =>
      obtain ⟨p, r1⟩ := v
      rw [hc] at h
      simp only at h
      obtain ⟨hmeta, hstep⟩ := GetDelay_step r0 r1 t p hc
      have hb1 : r1.burst = r0.burst := by
        rw [show r1.burst = r1.tolimiterMeta.burst from rfl, hmeta]
      have hres1 : r1.resolution = r0.resolution := by
        rw [show r1.resolution = r1.tolimiterMeta.resolution from rfl, hmeta]
      have hinv : 0 ≤ r1.excess ∧
          r1.excess ≤ (r0.burst : Int) * Int.tdiv 1000000000 r0.resolution := by
        rcases hstep with heq | ⟨-, -, hge, hle⟩
        · rw [heq]
          exact ⟨h0, h1⟩
        · rw [mul64_uint32_any_factor r0.burst r0.resolution hb] at hle
          exact ⟨hge, hle⟩
      have := ih r1 r (by rw [hb1]; exact hb) (by rw [hres1]; exact hres) hinv.1
        (by rw [hb1, hres1]; exact hinv.2) h
      rw [hb1, hres1, hmeta] at this
      exact this

/-- C17 (amended): starting from a freshly constructed cell (excess 0, last 0) with a fixed
configuration of positive resolution (burst in the `uint32` range), after any finite
sequence of `GetDelayInMicroseconds` calls at arbitrary clock values the configuration
is the one the cell started with and the stored excess satisfies
`0 ≤ excess ≤ burst * factor`. -/
theorem C17_excess_stays_within_burst (rate burst : Nat) (nodelay : Bool) (res : Resolution)
    (ts : List Int) (r : rateLimiter) (hb32 : burst < 2 ^ 32) (hres : 0 < res)
    (h : callsAt (freshLimiter rate burst nodelay res) ts = Except.ok r) :
    0 ≤ r.excess ∧ r.excess ≤ (burst : Int) * Int.tdiv 1000000000 res ∧
      r.tolimiterMeta = (freshLimiter rate burst nodelay res).tolimiterMeta := by
  have hres1 : (1 : Int) ≤ res := hres
  have hF := tdiv_bounds_of_nonneg 1000000000 res (by decide) hres1
  have h1 : (freshLimiter rate burst nodelay res).excess ≤
      ((freshLimiter rate burst nodelay res).burst : Int) *
        Int.tdiv 1000000000 (freshLimiter rate burst nodelay res).resolution :=
    mul_nonneg (Int.ofNat_nonneg _) hF.1
  obtain ⟨hm, hge, hle⟩ := callsAt_invariant ts (freshLimiter rate burst nodelay res) r hb32
    hres (le_refl _) h1 h
  exact ⟨hge, hle, hm⟩

set_option maxRecDepth 100000 in
/-- Instance of C17: three calls in one tick on the fresh limiter of `TestNormal1`. -/
theorem C17_excess_stays_within_burst_witness :
    (10 < 2 ^ 32 ∧ (0 : Int) < ResolutionEnum.Microsecond ∧
      callsAt (freshLimiter 1000 10 false ResolutionEnum.Microsecond)
          [1700000000000000000, 1700000000000000000, 1700000000000000000] =
        Except.ok { freshLimiter 1000 10 false ResolutionEnum.Microsecond with excess := 2000000, last := 1700000000000000 }) ∧
    (0 : Int) ≤ 2000000 ∧
    (2000000 : Int) ≤ (10 : Nat) * Int.tdiv 1000000000 ResolutionEnum.Microsecond :=
  have h : callsAt (freshLimiter 1000 10 false ResolutionEnum.Microsecond)
      [1700000000000000000, 1700000000000000000, 1700000000000000000] =
      Except.ok { freshLimiter 1000 10 false ResolutionEnum.Microsecond with excess := 2000000, last := 1700000000000000 } := by
    rfl
  ⟨⟨by decide, by decide, h⟩,
    (C17_excess_stays_within_burst 1000 10 false ResolutionEnum.Microsecond _ _ (by decide)
      (by decide) h).1,
    (C17_excess_stays_within_burst 1000 10 false ResolutionEnum.Microsecond _ _ (by decide)
      (by decide) h).2.1⟩

/-! ## Get and the requested sleep (C16) -/

theorem delayOf_zero (rt : Int) : delayOf 0 rt = 0 := by
  simp [delayOf, float64OfInt, roundF64, fdiv, fmul, f1e6, int64OfFloat]

/-- Whatever the rounding of the operands, the reported delay is non-negative and at
most twice `ex / rt * 1e6`. -/
theorem delayOf_le_twice (ex rt : Int) (h0 : 0 ≤ ex) (h2 : 0 < rt) :
    0 ≤ delayOf ex rt ∧
      ((delayOf ex rt : Int) : ℚ) ≤ 2 * ((ex : ℚ) / (rt : ℚ) * 1000000) := by
  obtain ⟨hxd, hxn, hxv⟩ := roundF64_spec ex 1 h0 (by norm_num)
  obtain ⟨hyd, hyn, hyv⟩ := roundF64_spec rt 1 (le_of_lt h2) (by norm_num)
  have hrt : (0 : ℚ) < (rt : ℚ) := by exact_mod_cast h2
  have hex : (0 : ℚ) ≤ (ex : ℚ) := by exact_mod_cast h0
  simp only [Nat.cast_one, div_one] at hxv hyv
  rw [abs_le] at hxv hyv
  have hylow : (rt : ℚ) * (1 - 1 / 2 ^ 53) ≤ (roundF64 rt 1).toRat := by linarith [hyv.1]
  have hypos : (0 : ℚ) < (roundF64 rt 1).toRat :=
    lt_of_lt_of_le (mul_pos hrt (by norm_num)) hylow
  have hynpos : 0 < (roundF64 rt 1).num := by
    rcases lt_or_eq_of_le hyn with h | h
    · exact h
    · exfalso
      unfold Frac.toRat at hypos
      rw [← h] at hypos
      simp at hypos
  have hxup : (roundF64 ex 1).toRat ≤ (ex : ℚ) * (1 + 1 / 2 ^ 53) := by linarith [hxv.2]
  have hx0 := Frac.toRat_nonneg _ hxn
  obtain ⟨hq1d, hq1n, hq1⟩ := fdiv_spec (roundF64 ex 1) (roundF64 rt 1) hxn hxd hynpos hyd
  obtain ⟨-, hq2n, hq2⟩ := fmul_1e6_spec _ hq1n hq1d
  obtain ⟨hd0, hd1, -⟩ := int64OfFloat_spec _ hq2n
  rw [abs_le] at hq1 hq2
  have hquot : (roundF64 ex 1).toRat / (roundF64 rt 1).toRat ≤
      (ex : ℚ) * (1 + 1 / 2 ^ 53) / ((rt : ℚ) * (1 - 1 / 2 ^ 53)) :=
    div_le_div₀ (mul_nonneg hex (by norm_num)) hxup (mul_pos hrt (by norm_num)) hylow
  have hquot0 : (0 : ℚ) ≤ (roundF64 ex 1).toRat / (roundF64 rt 1).toRat :=
    div_nonneg hx0 (le_of_lt hypos)
  have hq1up : (fdiv (roundF64 ex 1) (roundF64 rt 1)).toRat ≤
      (ex : ℚ) * (1 + 1 / 2 ^ 53) / ((rt : ℚ) * (1 - 1 / 2 ^ 53)) * (1 + 1 / 2 ^ 53) := by
    have h1 : (fdiv (roundF64 ex 1) (roundF64 rt 1)).toRat ≤
        (roundF64 ex 1).toRat / (roundF64 rt 1).toRat * (1 + 1 / 2 ^ 53) := by
      linarith [hq1.2]
    exact le_trans h1 (mul_le_mul_of_nonneg_right hquot (by norm_num))
  have hq2up : (fmul (fdiv (roundF64 ex 1) (roundF64 rt 1)) f1e6).toRat ≤
      (fdiv (roundF64 ex 1) (roundF64 rt 1)).toRat * (1000000 * (1 + 1 / 2 ^ 53)) := by
    linarith [hq2.2]
  have hconst : (ex : ℚ) * (1 + 1 / 2 ^ 53) / ((rt : ℚ) * (1 - 1 / 2 ^ 53)) *
      (1 + 1 / 2 ^ 53) * (1000000 * (1 + 1 / 2 ^ 53)) =
      (ex : ℚ) / (rt : ℚ) * 1000000 * ((1 + 1 / 2 ^ 53) ^ 3 / (1 - 1 / 2 ^ 53)) := by
    field_simp
    ring
  have hc2 : ((1 + 1 / 2 ^ 53) ^ 3 / (1 - 1 / 2 ^ 53) : ℚ) ≤ 2 := by norm_num
  have hV : (0 : ℚ) ≤ (ex : ℚ) / (rt : ℚ) * 1000000 := by positivity
  unfold delayOf float64OfInt
  refine ⟨hd0, le_trans hd1 ?_⟩
  calc (fmul (fdiv (roundF64 ex 1) (roundF64 rt 1)) f1e6).toRat
      ≤ (fdiv (roundF64 ex 1) (roundF64 rt 1)).toRat * (1000000 * (1 + 1 / 2 ^ 53)) := hq2up
    _ ≤ (ex : ℚ) * (1 + 1 / 2 ^ 53) / ((rt : ℚ) * (1 - 1 / 2 ^ 53)) * (1 + 1 / 2 ^ 53) *
          (1000000 * (1 + 1 / 2 ^ 53)) :=
        mul_le_mul_of_nonneg_right hq1up (by norm_num)
    _ = (ex : ℚ) / (rt : ℚ) * 1000000 * ((1 + 1 / 2 ^ 53) ^ 3 / (1 - 1 / 2 ^ 53)) := hconst
    _ ≤ (ex : ℚ) / (rt : ℚ) * 1000000 * 2 := mul_le_mul_of_nonneg_left hc2 hV
    _ = 2 * ((ex : ℚ) / (rt : ℚ) * 1000000) := by ring

/-- An admitted call on a limiter with `uint32` rate and burst, whatever its resolution,
reports a delay between 0 and `2 * 4294967295 * 1000000` microseconds; in nanoseconds it
fits in an `int64`. -/
theorem GetDelay_admitted_bound (r r1 : rateLimiter) (t d : Int) (hr32 : r.rate < 2 ^ 32)
    (hb32 : r.burst < 2 ^ 32)
    (h : rateLimiter.GetDelayInMicroseconds r t = Except.ok ((d, none), r1)) :
    0 ≤ d ∧ d ≤ 8589934590000000 := by
  by_cases hr : r.rate = 0
  · rw [GetDelay_rate_zero r t hr] at h
    simp at h
  by_cases h0 : r.resolution = 0
  · rw [GetDelay_resolution_zero r t hr h0] at h
    exact absurd h (by simp)
  by_cases hf : factorOf r.resolution = 0
  · rw [GetDelay_factor_zero r t hr h0 hf] at h
    exact absurd h (by simp)
  rw [GetDelay_eq r t hr h0 hf, mul64_uint32_any_factor r.burst _ hb32,
    mul64_uint32_any_factor r.rate _ hr32] at h
  rw [factorOf_eq_tdiv] at hf
  by_cases hlt : (r.burst : Int) * Int.tdiv 1000000000 r.resolution <
      excessOf r.rate r.resolution r.excess r.last t
  · rw [if_pos hlt] at h
    simp at h
  rw [if_neg hlt] at h
  simp only [Except.ok.injEq, Prod.mk.injEq, and_true] at h
  have hd := h.1
  have hex0 := excessOf_nonneg r.rate r.resolution r.excess r.last t
  have hexle := not_lt.mp hlt
  have hb0 : (0 : Int) ≤ (r.burst : Int) := Int.ofNat_nonneg _
  have hb : (r.burst : Int) ≤ 4294967295 := by
    have : r.burst ≤ 4294967295 := by omega
    exact_mod_cast this
  have hr1 : (1 : Int) ≤ (r.rate : Int) := by
    have : 1 ≤ r.rate := Nat.pos_of_ne_zero hr
    exact_mod_cast this
  by_cases hn : r.nodelay = true
  · rw [if_pos hn] at hd
    omega
  rw [if_neg hn] at hd
  rw [← hd]
  by_cases hF : 0 < Int.tdiv 1000000000 r.resolution
  · have hrt : 0 < (r.rate : Int) * Int.tdiv 1000000000 r.resolution :=
      mul_pos (by omega) hF
    obtain ⟨hd0, hdq⟩ := delayOf_le_twice (excessOf r.rate r.resolution r.excess r.last t)
      ((r.rate : Int) * Int.tdiv 1000000000 r.resolution) hex0 hrt
    refine ⟨hd0, ?_⟩
    have hrtq : (0 : ℚ) <
        (((r.rate : Int) * Int.tdiv 1000000000 r.resolution : Int) : ℚ) := by
      exact_mod_cast hrt
    have hle : excessOf r.rate r.resolution r.excess r.last t ≤
        (r.burst : Int) * ((r.rate : Int) * Int.tdiv 1000000000 r.resolution) := by
      have h1 : (r.burst : Int) * Int.tdiv 1000000000 r.resolution ≤
          (r.burst : Int) * ((r.rate : Int) * Int.tdiv 1000000000 r.resolution) := by
        apply mul_le_mul_of_nonneg_left _ hb0
        exact le_mul_of_one_le_left (le_of_lt hF) hr1
      omega
    have hleq : ((excessOf r.rate r.resolution r.excess r.last t : Int) : ℚ) ≤
        ((r.burst : Int) : ℚ) *
          (((r.rate : Int) * Int.tdiv 1000000000 r.resolution : Int) : ℚ) := by
      exact_mod_cast hle
    have hquot : ((excessOf r.rate r.resolution r.excess r.last t : Int) : ℚ) /
        (((r.rate : Int) * Int.tdiv 1000000000 r.resolution : Int) : ℚ) ≤
        ((r.burst : Int) : ℚ) := by
      rw [div_le_iff₀ hrtq]
      exact hleq
    have hbq : (((r.burst : Int)) : ℚ) ≤ 4294967295 := by exact_mod_cast hb
    have hfin : ((delayOf (excessOf r.rate r.resolution r.excess r.last t)
        ((r.rate : Int) * Int.tdiv 1000000000 r.resolution) : Int) : ℚ) ≤
        ((8589934590000000 : Int) : ℚ) := by
      push_cast at hdq hquot hbq ⊢
      linarith
    exact_mod_cast hfin
  · have hFneg : Int.tdiv 1000000000 r.resolution < 0 := by omega
    have hbF : (r.burst : Int) * Int.tdiv 1000000000 r.resolution ≤ 0 :=
      mul_nonpos_of_nonneg_of_nonpos hb0 (le_of_lt hFneg)
    have hz : excessOf r.rate r.resolution r.excess r.last t = 0 := by omega
    rw [hz, delayOf_zero]
    omega

theorem mul64_delay_1000 (d : Int) (h0 : 0 ≤ d) (h1 : d ≤ 8589934590000000) :
    mul64 d 1000 = d * 1000 := by
  apply wrap64_of_isInt64
  unfold isInt64
  omega

/-- With `uint32` rate and burst, `Get` of the single limiter ends as
`GetDelayInMicroseconds` does and sleeps for the reported delay. -/
theorem Get_eq (r : rateLimiter) (t : Int) (hr32 : r.rate < 2 ^ 32)
    (hb32 : r.burst < 2 ^ 32) :
    rateLimiter.Get r t =
      match rateLimiter.GetDelayInMicroseconds r t with
      | Except.error p => Except.error p
      | Except.ok ((_, some e), r1) => Except.ok ((some e, []), r1)
      | Except.ok ((d, none), r1) =>
        Except.ok ((none, if 0 < d then [d * 1000] else []), r1) := by
  unfold rateLimiter.Get
  cases hc : rateLimiter.GetDelayInMicroseconds r t with
  | error p => simp [bind, Except.bind]
  | ok v =>
    obtain ⟨⟨d, e⟩, r1⟩ := v
    cases e with
    | some e1 => simp [bind, Except.bind]
    | none =>
      obtain ⟨hd0, hd1⟩ := GetDelay_admitted_bound r r1 t d hr32 hb32 hc
      simp only [bind, Except.bind, mul64_delay_1000 d hd0 hd1]
      split_ifs <;> rfl

theorem zone_GetDelay_admitted_bound {K : Type} [DecidableEq K] (z z1 : zoneRateLimiter K)
    (key : Option K) (t d : Int)
    (hu : ∀ k item, key = some k → z.zoneMap k = some item →
      item.rate < 2 ^ 32 ∧ item.burst < 2 ^ 32)
    (h : zoneRateLimiter.GetDelayInMicroseconds z key t = Except.ok ((d, none), z1)) :
    0 ≤ d ∧ d ≤ 8589934590000000 := by
  cases key with
  | none =>
    simp only [zoneRateLimiter.GetDelayInMicroseconds, Except.ok.injEq, Prod.mk.injEq,
      and_true] at h
    omega
  | some k =>
    cases hk : z.zoneMap k with
    | none =>
      simp only [zoneRateLimiter.GetDelayInMicroseconds, hk, Except.ok.injEq, Prod.mk.injEq,
        and_true] at h
      omega
    | some item =>
      obtain ⟨hr32, hb32⟩ := hu k item rfl hk
      rw [zone_GetDelay_present z k item t hk] at h
      cases hc : rateLimiter.GetDelayInMicroseconds (cellOf z item) t with
      | error p => rw [hc] at h; simp at h
      | ok v =>
        obtain ⟨⟨d2, e2⟩, r2⟩ := v
        rw [hc] at h
        cases e2 with
        | some e3 => simp at h
        | none =>
          simp only [Except.ok.injEq, Prod.mk.injEq, and_true] at h
          rw [← h.1]
          exact GetDelay_admitted_bound (cellOf z item) r2 t d2 hr32 hb32 hc

/-- C16: for every limiter state and clock value (rate and burst in the `uint32`
range), `Get` ends as the single `GetDelayInMicroseconds` call on the same state and
clock does: it stops with the same panic; it returns the rejection error exactly when
that call rejects, and then requests no sleep; when that call admits with delay `d`,
`Get` returns success after requesting one sleep of `d * 1000` nanoseconds, that is `d`
microseconds, and no sleep when `d` is 0; in each case the cell is left in the state the
`GetDelayInMicroseconds` call leaves.  The same holds for `Get(key)` on the zone
registry. -/
theorem C16_Get_sleeps_reported_delay {K : Type} [DecidableEq K] :
    (∀ (r : rateLimiter) (t : Int), r.rate < 2 ^ 32 → r.burst < 2 ^ 32 →
      rateLimiter.Get r t =
        match rateLimiter.GetDelayInMicroseconds r t with
        | Except.error p => Except.error p
        | Except.ok ((_, some e), r1) => Except.ok ((some e, []), r1)
        | Except.ok ((d, none), r1) =>
          Except.ok ((none, if 0 < d then [d * 1000] else []), r1)) ∧
    (∀ (z : zoneRateLimiter K) (key : Option K) (t : Int),
      (∀ k item, key = some k → z.zoneMap k = some item →
        item.rate < 2 ^ 32 ∧ item.burst < 2 ^ 32) →
      zoneRateLimiter.Get z key t =
        match zoneRateLimiter.GetDelayInMicroseconds z key t with
        | Except.error p => Except.error p
        | Except.ok ((_, some e), z1) => Except.ok ((some e, []), z1)
        | Except.ok ((d, none), z1) =>
          Except.ok ((none, if 0 < d then [d * 1000] else []), z1)) := by
  refine ⟨fun r t hr32 hb32 => Get_eq r t hr32 hb32, ?_⟩
  intro z key t hu
  unfold zoneRateLimiter.Get
  cases hc : zoneRateLimiter.GetDelayInMicroseconds z key t with
  | error p => simp [bind, Except.bind]
  | ok v =>
    obtain ⟨⟨d, e⟩, z1⟩ := v
    cases e with
    | some e1 => simp [bind, Except.bind]
    | none =>
      obtain ⟨hd0, hd1⟩ := zone_GetDelay_admitted_bound z z1 key t d hu hc
      simp only [bind, Except.bind, mul64_delay_1000 d hd0 hd1]
      split_ifs <;> rfl

set_option maxRecDepth 100000 in
/-- Instance of C16: `Get` on `limiterSlow` sleeps 4142852000 ns, the reported delay of
4142852 microseconds, and `Get` on `limiterFull` returns the rejection without a sleep. -/
theorem C16_Get_sleeps_reported_delay_witness :
    (limiterSlow.rate < 2 ^ 32 ∧ limiterSlow.burst < 2 ^ 32 ∧
      rateLimiter.Get limiterSlow 1700000001857147000 =
        Except.ok ((none, [4142852000]),
          { limiterSlow with excess := 4142853, last := 1700000001857147 })) ∧
    (limiterFull.rate < 2 ^ 32 ∧ limiterFull.burst < 2 ^ 32 ∧
      rateLimiter.Get limiterFull 5000000 = Except.ok ((some errorReject, []), limiterFull)) := by
  have h1 := (@C16_Get_sleeps_reported_delay Nat _).1 limiterSlow 1700000001857147000
    (by decide) (by decide)
  have h2 := (@C16_Get_sleeps_reported_delay Nat _).1 limiterFull 5000000
    (by decide) (by decide)
  have e2 : rateLimiter.GetDelayInMicroseconds limiterFull 5000000 =
      Except.ok ((0, some errorReject), limiterFull) := by rfl
  rw [limiterSlow_admitted] at h1
  rw [e2] at h2
  exact ⟨⟨by decide, by decide, h1⟩, ⟨by decide, by decide, h2⟩⟩

/-! ## Calls in one tick (C14) -/

/-- The call in closed form when rate and burst are `uint32` values, the resolution is
between 1 and `1000000000` and the clock difference and the tentative excess fit in
64 bits. -/
theorem GetDelay_eq_exact (r : rateLimiter) (t : Int) (hr : r.rate ≠ 0)
    (hr32 : r.rate < 2 ^ 32) (hb32 : r.burst < 2 ^ 32) (h1 : 1 ≤ r.resolution)
    (h2 : r.resolution ≤ 1000000000) (ht : isInt64 t)
    (hd : isInt64 (Int.tdiv t r.resolution - r.last))
    (he : isInt64 (r.excess - (r.rate : Int) *
      min (Int.tdiv t r.resolution - r.last) (Int.tdiv timeHour r.resolution) +
      Int.tdiv 1000000000 r.resolution)) :
    rateLimiter.GetDelayInMicroseconds r t =
      if (r.burst : Int) * Int.tdiv 1000000000 r.resolution <
          max 0 (r.excess - (r.rate : Int) *
            min (Int.tdiv t r.resolution - r.last) (Int.tdiv timeHour r.resolution) +
            Int.tdiv 1000000000 r.resolution) then
        Except.ok ((0, some errorReject), r)
      else
        Except.ok ((if r.nodelay then 0
            else delayOf (max 0 (r.excess - (r.rate : Int) *
                min (Int.tdiv t r.resolution - r.last) (Int.tdiv timeHour r.resolution) +
                Int.tdiv 1000000000 r.resolution))
              ((r.rate : Int) * Int.tdiv 1000000000 r.resolution), none),
          { r with excess := max 0 (r.excess - (r.rate : Int) *
                min (Int.tdiv t r.resolution - r.last) (Int.tdiv timeHour r.resolution) +
                Int.tdiv 1000000000 r.resolution),
                   last := Int.tdiv t r.resolution }) := by
  obtain ⟨hf, hf1, hf2⟩ := factorOf_eq _ h1 h2
  have hfne : factorOf r.resolution ≠ 0 := by
    rw [hf]
    omega
  have h0 : r.resolution ≠ 0 := fun h => by
    rw [h] at h1
    exact absurd h1 (by decide)
  rw [GetDelay_eq r t hr h0 hfne,
    excessOf_eq r.rate r.resolution r.excess r.last t hr32 h1 h2 ht hd he,
    tickOf_eq t _ ht h1, hf, mul64_uint32_factor r.burst _ hb32 hf1 hf2,
    mul64_uint32_factor r.rate _ hr32 hf1 hf2]

theorem tdiv_mono_of_nonneg (a b res : Int) (ha : 0 ≤ a) (hab : a ≤ b) (h1 : 1 ≤ res) :
    Int.tdiv a res ≤ Int.tdiv b res := by
  rw [Int.tdiv_eq_ediv ha (by omega), Int.tdiv_eq_ediv (by omega) (by omega)]
  exact Int.ediv_le_ediv (by omega) hab

/-- First call on a fresh limiter, more than an hour after the epoch: admitted with
delay 0, excess 0 and last the clock tick. -/
theorem fresh_first_call (rate burst : Nat) (nodelay : Bool) (res t : Int) (hr : 0 < rate)
    (hr32 : rate < 2 ^ 32) (hb32 : burst < 2 ^ 32) (h1 : 1 ≤ res) (h2 : res ≤ 1000000000)
    (ht : isInt64 t) (hhour : timeHour < t)
    (hrate : (rate : Int) * Int.tdiv timeHour res < 2 ^ 63) :
    rateLimiter.GetDelayInMicroseconds (freshLimiter rate burst nodelay res) t =
      Except.ok ((0, none),
        { freshLimiter rate burst nodelay res with excess := 0, last := Int.tdiv t res }) := by
  obtain ⟨-, hF1, hF2⟩ := factorOf_eq res h1 h2
  have hH := tdiv_bounds_of_nonneg timeHour res (by decide) h1
  have hFH : Int.tdiv 1000000000 res ≤ Int.tdiv timeHour res :=
    tdiv_mono_of_nonneg _ _ res (by decide) (by decide) h1
  have htick : Int.tdiv timeHour res ≤ Int.tdiv t res :=
    tdiv_mono_of_nonneg _ _ res (by decide) (le_of_lt hhour) h1
  have hti := isInt64_tdiv t res ht h1
  have hr1 : (1 : Int) ≤ (rate : Int) := by exact_mod_cast hr
  have hb0 : (0 : Int) ≤ (burst : Int) := Int.ofNat_nonneg _
  have hprod : Int.tdiv timeHour res ≤ (rate : Int) * Int.tdiv timeHour res :=
    le_mul_of_one_le_left hH.1 hr1
  have hbF : 0 ≤ (burst : Int) * Int.tdiv 1000000000 res := mul_nonneg hb0 (by omega)
  have hmin : min (Int.tdiv t res - 0) (Int.tdiv timeHour res) = Int.tdiv timeHour res := by
    rw [sub_zero]
    exact min_eq_right htick
  have hG := GetDelay_eq_exact (freshLimiter rate burst nodelay res) t (by
      show rate ≠ 0
      omega) hr32 hb32 h1 h2 ht (by
      show isInt64 (Int.tdiv t res - 0)
      rw [sub_zero]
      exact hti) (by
      show isInt64 (0 - (rate : Int) * min (Int.tdiv t res - 0) (Int.tdiv timeHour res) +
        Int.tdiv 1000000000 res)
      rw [hmin]
      unfold isInt64
      omega)
  have hmax : max 0 ((freshLimiter rate burst nodelay res).excess -
      ((freshLimiter rate burst nodelay res).rate : Int) *
        min (Int.tdiv t (freshLimiter rate burst nodelay res).resolution -
          (freshLimiter rate burst nodelay res).last)
          (Int.tdiv timeHour (freshLimiter rate burst nodelay res).resolution) +
      Int.tdiv 1000000000 (freshLimiter rate burst nodelay res).resolution) = 0 := by
    show max 0 (0 - (rate : Int) * min (Int.tdiv t res - 0) (Int.tdiv timeHour res) +
      Int.tdiv 1000000000 res) = 0
    rw [hmin]
    exact max_eq_left (by omega)
  rw [hmax] at hG
  rw [hG, if_neg (by
    show ¬ (burst : Int) * Int.tdiv 1000000000 res < 0
    omega), delayOf_zero]
  simp only [ite_self]
  rfl

/-- A call in the tick of the last call, on a limiter holding `j` requests of excess. -/
theorem same_tick_call (rate burst : Nat) (nodelay : Bool) (res t : Int) (j : Nat)
    (hr : 0 < rate) (hr32 : rate < 2 ^ 32) (hb32 : burst < 2 ^ 32) (hres : recognized res)
    (ht : isInt64 t) (hj : j ≤ burst) :
    rateLimiter.GetDelayInMicroseconds
        { freshLimiter rate burst nodelay res with excess := (j : Int) * Int.tdiv 1000000000 res, last := Int.tdiv t res } t =
      if j + 1 ≤ burst then
        Except.ok ((if nodelay then 0
            else delayOf (((j + 1 : Nat) : Int) * Int.tdiv 1000000000 res)
              ((rate : Int) * Int.tdiv 1000000000 res), none),
          { freshLimiter rate burst nodelay res with excess := ((j + 1 : Nat) : Int) * Int.tdiv 1000000000 res, last := Int.tdiv t res })
      else
        Except.ok ((0, some errorReject),
          { freshLimiter rate burst nodelay res with excess := (j : Int) * Int.tdiv 1000000000 res, last := Int.tdiv t res }) := by
  obtain ⟨h1, h2⟩ := recognized_bounds _ hres
  obtain ⟨hF1, hF2⟩ := recognized_factor _ hres
  have hH := tdiv_bounds_of_nonneg timeHour res (by decide) h1
  have hj0 : (0 : Int) ≤ (j : Int) := Int.ofNat_nonneg _
  have hjb : (j : Int) ≤ (burst : Int) := by exact_mod_cast hj
  have hb : (burst : Int) ≤ 4294967295 := by
    have : burst ≤ 4294967295 := by omega
    exact_mod_cast this
  have hjF0 : 0 ≤ (j : Int) * Int.tdiv 1000000000 res := mul_nonneg hj0 (by omega)
  have hjF : (j : Int) * Int.tdiv 1000000000 res ≤ 4294967295 * 1000000 :=
    mul_le_mul (by omega) hF2 (by omega) (by omega)
  have hmin : min (Int.tdiv t res - Int.tdiv t res) (Int.tdiv timeHour res) = 0 := by
    rw [sub_self]
    exact min_eq_left hH.1
  have hval : (j : Int) * Int.tdiv 1000000000 res - (rate : Int) * 0 +
      Int.tdiv 1000000000 res = ((j + 1 : Nat) : Int) * Int.tdiv 1000000000 res := by
    push_cast
    ring
  have hG := GetDelay_eq_exact
    { freshLimiter rate burst nodelay res with excess := (j : Int) * Int.tdiv 1000000000 res, last := Int.tdiv t res }
    t (by
      show rate ≠ 0
      omega) hr32 hb32 h1 h2 ht (by
      show isInt64 (Int.tdiv t res - Int.tdiv t res)
      rw [sub_self]
      decide) (by
      show isInt64 ((j : Int) * Int.tdiv 1000000000 res - (rate : Int) *
        min (Int.tdiv t res - Int.tdiv t res) (Int.tdiv timeHour res) +
        Int.tdiv 1000000000 res)
      rw [hmin]
      unfold isInt64
      omega)
  have hmax : max 0 ((j : Int) * Int.tdiv 1000000000 res - (rate : Int) *
      min (Int.tdiv t res - Int.tdiv t res) (Int.tdiv timeHour res) +
      Int.tdiv 1000000000 res) = ((j + 1 : Nat) : Int) * Int.tdiv 1000000000 res := by
    rw [hmin, hval]
    exact max_eq_right (mul_nonneg (Int.ofNat_nonneg _) (by omega))
  dsimp only [freshLimiter, NewRateLimiter] at hG ⊢
  rw [hmax] at hG
  rw [hG]
  by_cases hle : j + 1 ≤ burst
  · have hle2 : ((j + 1 : Nat) : Int) ≤ (burst : Int) := by exact_mod_cast hle
    have hnot : ¬ (burst : Int) * Int.tdiv 1000000000 res <
        ((j + 1 : Nat) : Int) * Int.tdiv 1000000000 res :=
      not_lt.mpr (mul_le_mul_of_nonneg_right hle2 (by omega))
    rw [if_neg hnot, if_pos hle]
  · have hlt2 : (burst : Int) < ((j + 1 : Nat) : Int) := by
      have : burst < j + 1 := by omega
      exact_mod_cast this
    have hyes : (burst : Int) * Int.tdiv 1000000000 res <
        ((j + 1 : Nat) : Int) * Int.tdiv 1000000000 res :=
      mul_lt_mul_of_pos_right hlt2 (by omega)
    rw [if_pos hyes, if_neg hle]

/-! ## Rounding to binary64 is monotone -/

theorem roundHalfEven_tie (p q n : Nat) (hq : 0 < q) (h : 2 * p = (2 * n + 1) * q) :
    roundHalfEven p q = if n % 2 = 0 then n else n + 1 := by
  have h1 : (2 * n + 1) * q = 2 * (n * q) + q := by ring
  have h2 : (n + 1) * q = n * q + q := by ring
  have hdiv : p / q = n := Nat.div_eq_of_lt_le (by omega) (by omega)
  have hdm := Nat.div_add_mod p q
  rw [hdiv, Nat.mul_comm q n] at hdm
  have hmod : 2 * (p % q) = q := by omega
  unfold roundHalfEven
  simp only [hdiv]
  rw [if_neg (by omega), if_neg (by omega)]

theorem roundHalfEven_mono (p1 q1 p2 q2 : Nat) (hq1 : 0 < q1) (hq2 : 0 < q2)
    (h : p1 * q2 ≤ p2 * q1) : roundHalfEven p1 q1 ≤ roundHalfEven p2 q2 := by
  by_contra hlt
  have hgt : roundHalfEven p2 q2 + 1 ≤ roundHalfEven p1 q1 := by omega
  have hq1q : (0 : ℚ) < (q1 : ℚ) := by exact_mod_cast hq1
  have hq2q : (0 : ℚ) < (q2 : ℚ) := by exact_mod_cast hq2
  have hr1 := roundHalfEven_rat p1 q1 hq1
  have hr2 := roundHalfEven_rat p2 q2 hq2
  rw [abs_le] at hr1 hr2
  have hx : (p1 : ℚ) / (q1 : ℚ) ≤ (p2 : ℚ) / (q2 : ℚ) := by
    rw [div_le_div_iff₀ hq1q hq2q]
    exact_mod_cast h
  have hgtq : (roundHalfEven p2 q2 : ℚ) + 1 ≤ (roundHalfEven p1 q1 : ℚ) := by
    exact_mod_cast hgt
  have e1 : (roundHalfEven p1 q1 : ℚ) = (roundHalfEven p2 q2 : ℚ) + 1 := by linarith [hr1.2, hr2.1]
  have e2 : (p2 : ℚ) / (q2 : ℚ) = (roundHalfEven p2 q2 : ℚ) + 1 / 2 := by
    linarith [hr1.2, hr2.1]
  have e3 : (p1 : ℚ) / (q1 : ℚ) = (roundHalfEven p2 q2 : ℚ) + 1 / 2 := by
    linarith [hr1.2, hr2.1]
  have n1 : 2 * p1 = (2 * roundHalfEven p2 q2 + 1) * q1 := by
    have : (2 : ℚ) * (p1 : ℚ) = (2 * (roundHalfEven p2 q2 : ℚ) + 1) * (q1 : ℚ) := by
      rw [div_eq_iff (ne_of_gt hq1q)] at e3
      linarith
    exact_mod_cast this
  have n2 : 2 * p2 = (2 * roundHalfEven p2 q2 + 1) * q2 := by
    have : (2 : ℚ) * (p2 : ℚ) = (2 * (roundHalfEven p2 q2 : ℚ) + 1) * (q2 : ℚ) := by
      rw [div_eq_iff (ne_of_gt hq2q)] at e2
      linarith
    exact_mod_cast this
  have t1 := roundHalfEven_tie p1 q1 _ hq1 n1
  have t2 := roundHalfEven_tie p2 q2 _ hq2 n2
  have e1n : roundHalfEven p1 q1 = roundHalfEven p2 q2 + 1 := by exact_mod_cast e1
  split_ifs at t1 t2 <;> omega

theorem floorLog2_lt (a q : Nat) (ha : 0 < a) (hq : 0 < q) :
    (a : ℚ) / (q : ℚ) < (2 : ℚ) ^ (floorLog2 a q + 1) := by
  obtain ⟨ha1, -, -⟩ := bitLen_spec a ha
  obtain ⟨-, hq2, hq3⟩ := bitLen_spec q hq
  have hqpos : (0 : ℚ) < (q : ℚ) := by exact_mod_cast hq
  have hA : (a : ℚ) < (2 : ℚ) ^ (bitLen a : Int) := by
    rw [zpow_natCast]
    exact_mod_cast ha1
  have hQ : (2 : ℚ) ^ ((bitLen q : Int) - 1) ≤ (q : ℚ) := by
    have h1 : ((bitLen q : Int) - 1) = ((bitLen q - 1 : Nat) : Int) := by omega
    rw [h1, zpow_natCast]
    exact_mod_cast hq2
  have hgen : (a : ℚ) / (q : ℚ) < (2 : ℚ) ^ ((bitLen a : Int) - (bitLen q : Int) + 1) := by
    have h1 : (bitLen a : Int) - (bitLen q : Int) + 1 =
        (bitLen a : Int) - ((bitLen q : Int) - 1) := by omega
    rw [h1, zpow_sub₀ (by norm_num : (2 : ℚ) ≠ 0)]
    have hpowpos : (0 : ℚ) < (2 : ℚ) ^ ((bitLen q : Int) - 1) := by positivity
    calc (a : ℚ) / (q : ℚ) ≤ (a : ℚ) / (2 : ℚ) ^ ((bitLen q : Int) - 1) :=
          div_le_div_of_nonneg_left (by exact_mod_cast Nat.zero_le a) hpowpos hQ
      _ < (2 : ℚ) ^ (bitLen a : Int) / (2 : ℚ) ^ ((bitLen q : Int) - 1) :=
          div_lt_div_of_pos_right hA hpowpos
  unfold floorLog2
  simp only
  split_ifs with hk hle hle
  · exact hgen
  · rw [sub_add_cancel, div_lt_iff₀ hqpos]
    have h1 : (bitLen a : Int) - (bitLen q : Int) =
        (((bitLen a : Int) - (bitLen q : Int)).toNat : Int) := (Int.toNat_of_nonneg hk).symm
    rw [h1, zpow_natCast, mul_comm]
    have : a < q * 2 ^ ((bitLen a : Int) - (bitLen q : Int)).toNat := by omega
    exact_mod_cast this
  · exact hgen
  · rw [sub_add_cancel]
    have hneg : (bitLen a : Int) - (bitLen q : Int) =
        -((-((bitLen a : Int) - (bitLen q : Int))).toNat : Int) := by
      rw [Int.toNat_of_nonneg (by omega)]
      omega
    rw [hneg, zpow_neg, zpow_natCast, div_lt_iff₀ hqpos, lt_inv_mul_iff₀ (by positivity)]
    rw [mul_comm]
    have : a * 2 ^ (-((bitLen a : Int) - (bitLen q : Int))).toNat < q := by omega
    exact_mod_cast this

/-- The rounding of a positive fraction is the rounded mantissa times the power of two
of its exponent. -/
theorem roundPos_repr (a q : Nat) (hq : 0 < q) :
    ∃ p2 q2 : Nat, 0 < q2 ∧
      (p2 : ℚ) / (q2 : ℚ) = (a : ℚ) / (q : ℚ) / (2 : ℚ) ^ (floorLog2 a q - 52) ∧
      (roundPos a q).toRat =
        (roundHalfEven p2 q2 : ℚ) * (2 : ℚ) ^ (floorLog2 a q - 52) := by
  have hqpos : (q : ℚ) ≠ 0 := by exact_mod_cast (Nat.pos_iff_ne_zero.mp hq)
  unfold roundPos
  simp only
  split_ifs with he
  · have hn : (2 : ℚ) ^ (floorLog2 a q - 52) = (2 : ℚ) ^ (floorLog2 a q - 52).toNat := by
      rw [← zpow_natCast, Int.toNat_of_nonneg he]
    refine ⟨a, q * 2 ^ (floorLog2 a q - 52).toNat, by positivity, ?_, ?_⟩
    · rw [hn]
      push_cast
      rw [div_div]
    · rw [hn]
      simp only [Frac.toRat]
      push_cast
      rw [div_one]
  · have hn : (2 : ℚ) ^ (floorLog2 a q - 52) =
        1 / (2 : ℚ) ^ (-(floorLog2 a q - 52)).toNat := by
      rw [← zpow_natCast, Int.toNat_of_nonneg (by omega), zpow_neg, one_div, inv_inv]
    refine ⟨a * 2 ^ (-(floorLog2 a q - 52)).toNat, q, hq, ?_, ?_⟩
    · rw [hn]
      push_cast
      field_simp
    · rw [hn]
      simp only [Frac.toRat]
      push_cast
      field_simp

theorem roundPos_mono (a1 q1 a2 q2 : Nat) (ha1 : 0 < a1) (hq1 : 0 < q1) (ha2 : 0 < a2)
    (hq2 : 0 < q2) (h : (a1 : ℚ) / (q1 : ℚ) ≤ (a2 : ℚ) / (q2 : ℚ)) :
    (roundPos a1 q1).toRat ≤ (roundPos a2 q2).toRat := by
  obtain ⟨p1, d1, hd1, hv1, hR1⟩ := roundPos_repr a1 q1 hq1
  obtain ⟨p2, d2, hd2, hv2, hR2⟩ := roundPos_repr a2 q2 hq2
  have hL1 := floorLog2_le a1 q1 ha1 hq1
  have hU1 := floorLog2_lt a1 q1 ha1 hq1
  have hL2 := floorLog2_le a2 q2 ha2 hq2
  have hU2 := floorLog2_lt a2 q2 ha2 hq2
  have hd1q : (0 : ℚ) < (d1 : ℚ) := by exact_mod_cast hd1
  have hd2q : (0 : ℚ) < (d2 : ℚ) := by exact_mod_cast hd2
  have hLle : floorLog2 a1 q1 ≤ floorLog2 a2 q2 := by
    have hlt : (2 : ℚ) ^ (floorLog2 a1 q1) < (2 : ℚ) ^ (floorLog2 a2 q2 + 1) :=
      lt_of_le_of_lt (le_trans hL1 h) hU2
    have := (zpow_lt_zpow_iff_right₀ (by norm_num : (1 : ℚ) < 2)).mp hlt
    omega
  have hpow1 : (0 : ℚ) < (2 : ℚ) ^ (floorLog2 a1 q1 - 52) := by positivity
  have hpow2 : (0 : ℚ) < (2 : ℚ) ^ (floorLog2 a2 q2 - 52) := by positivity
  rw [hR1, hR2]
  rcases eq_or_lt_of_le hLle with heq | hlt
  · rw [heq] at hv1 ⊢
    apply mul_le_mul_of_nonneg_right _ (le_of_lt hpow2)
    have hfr : (p1 : ℚ) / (d1 : ℚ) ≤ (p2 : ℚ) / (d2 : ℚ) := by
      rw [hv1, hv2]
      exact div_le_div_of_nonneg_right h (le_of_lt hpow2)
    rw [div_le_div_iff₀ hd1q hd2q] at hfr
    have hnat : p1 * d2 ≤ p2 * d1 := by exact_mod_cast hfr
    exact_mod_cast roundHalfEven_mono p1 d1 p2 d2 hd1 hd2 hnat
  · have hm1 : roundHalfEven p1 d1 ≤ 2 ^ 53 := by
      have hfr : (p1 : ℚ) / (d1 : ℚ) ≤ (2 : ℚ) ^ 53 := by
        rw [hv1, div_le_iff₀ hpow1]
        have h53 : (2 : ℚ) ^ 53 * (2 : ℚ) ^ (floorLog2 a1 q1 - 52) =
            (2 : ℚ) ^ (floorLog2 a1 q1 + 1) := by
          rw [← zpow_natCast, ← zpow_add₀ (by norm_num : (2 : ℚ) ≠ 0)]
          congr 1
          push_cast
          ring
        rw [h53]
        exact le_of_lt hU1
      rw [div_le_iff₀ hd1q] at hfr
      have hnat : p1 * 1 ≤ 2 ^ 53 * d1 := by
        rw [Nat.mul_one]
        exact_mod_cast hfr
      have := roundHalfEven_mono p1 d1 (2 ^ 53) 1 hd1 (by norm_num) hnat
      rw [roundHalfEven_one] at this
      exact this
    have hm2 : 2 ^ 52 ≤ roundHalfEven p2 d2 := by
      have hfr : (2 : ℚ) ^ 52 ≤ (p2 : ℚ) / (d2 : ℚ) := by
        rw [hv2, le_div_iff₀ hpow2]
        have h52 : (2 : ℚ) ^ 52 * (2 : ℚ) ^ (floorLog2 a2 q2 - 52) =
            (2 : ℚ) ^ (floorLog2 a2 q2) := by
          rw [← zpow_natCast, ← zpow_add₀ (by norm_num : (2 : ℚ) ≠ 0)]
          congr 1
          push_cast
          ring
        rw [h52]
        exact hL2
      rw [le_div_iff₀ hd2q] at hfr
      have hnat : 2 ^ 52 * d2 ≤ p2 * 1 := by
        rw [Nat.mul_one]
        exact_mod_cast hfr
      have := roundHalfEven_mono (2 ^ 52) 1 p2 d2 (by norm_num) hd2 hnat
      rw [roundHalfEven_one] at this
      exact this
    have hm1q : (roundHalfEven p1 d1 : ℚ) ≤ (2 : ℚ) ^ 53 := by exact_mod_cast hm1
    have hm2q : (2 : ℚ) ^ 52 ≤ (roundHalfEven p2 d2 : ℚ) := by exact_mod_cast hm2
    have hstep : (2 : ℚ) ^ 53 * (2 : ℚ) ^ (floorLog2 a1 q1 - 52) ≤
        (2 : ℚ) ^ 52 * (2 : ℚ) ^ (floorLog2 a2 q2 - 52) := by
      have h53 : (2 : ℚ) ^ 53 * (2 : ℚ) ^ (floorLog2 a1 q1 - 52) =
          (2 : ℚ) ^ (floorLog2 a1 q1 + 1) := by
        rw [← zpow_natCast, ← zpow_add₀ (by norm_num : (2 : ℚ) ≠ 0)]
        congr 1
        push_cast
        ring
      have h52 : (2 : ℚ) ^ 52 * (2 : ℚ) ^ (floorLog2 a2 q2 - 52) =
          (2 : ℚ) ^ (floorLog2 a2 q2) := by
        rw [← zpow_natCast, ← zpow_add₀ (by norm_num : (2 : ℚ) ≠ 0)]
        congr 1
        push_cast
        ring
      rw [h53, h52]
      exact zpow_le_zpow_right₀ (by norm_num) (by omega)
    calc (roundHalfEven p1 d1 : ℚ) * (2 : ℚ) ^ (floorLog2 a1 q1 - 52)
        ≤ (2 : ℚ) ^ 53 * (2 : ℚ) ^ (floorLog2 a1 q1 - 52) :=
          mul_le_mul_of_nonneg_right hm1q (le_of_lt hpow1)
      _ ≤ (2 : ℚ) ^ 52 * (2 : ℚ) ^ (floorLog2 a2 q2 - 52) := hstep
      _ ≤ (roundHalfEven p2 d2 : ℚ) * (2 : ℚ) ^ (floorLog2 a2 q2 - 52) :=
          mul_le_mul_of_nonneg_right hm2q (le_of_lt hpow2)

theorem roundF64_mono (p1 p2 : Int) (q1 q2 : Nat) (hp1 : 0 ≤ p1) (hq1 : 0 < q1)
    (hq2 : 0 < q2) (h : (p1 : ℚ) / (q1 : ℚ) ≤ (p2 : ℚ) / (q2 : ℚ)) :
    (roundF64 p1 q1).toRat ≤ (roundF64 p2 q2).toRat := by
  have hq1q : (0 : ℚ) < (q1 : ℚ) := by exact_mod_cast hq1
  have hq2q : (0 : ℚ) < (q2 : ℚ) := by exact_mod_cast hq2
  have hp1q : (0 : ℚ) ≤ (p1 : ℚ) := by exact_mod_cast hp1
  have hp2 : 0 ≤ p2 := by
    have h0 : (0 : ℚ) ≤ (p2 : ℚ) / (q2 : ℚ) := le_trans (div_nonneg hp1q (le_of_lt hq1q)) h
    have h1 : (0 : ℚ) ≤ (p2 : ℚ) := by
      by_contra hneg
      have := div_neg_of_neg_of_pos (not_le.mp hneg) hq2q
      linarith
    exact_mod_cast h1
  by_cases hz : p1 = 0
  · have hR2 := Frac.toRat_nonneg _ (roundF64_spec p2 q2 hp2 hq2).2.1
    have hR1 : (roundF64 p1 q1).toRat = 0 := by
      subst hz
      simp [roundF64, Frac.toRat]
    rw [hR1]
    exact hR2
  · have hpos1 : 0 < p1 := by omega
    have hpos2 : 0 < p2 := by
      have h0 : (0 : ℚ) < (p2 : ℚ) / (q2 : ℚ) :=
        lt_of_lt_of_le (div_pos (by exact_mod_cast hpos1) hq1q) h
      have h1 : (0 : ℚ) < (p2 : ℚ) := by
        by_contra hneg
        have := div_nonpos_of_nonpos_of_nonneg (not_lt.mp hneg) (le_of_lt hq2q)
        linarith
      exact_mod_cast h1
    have hc1 : ((p1.toNat : Nat) : ℚ) = (p1 : ℚ) := by
      have : ((p1.toNat : Nat) : Int) = p1 := Int.toNat_of_nonneg hp1
      exact_mod_cast this
    have hc2 : ((p2.toNat : Nat) : ℚ) = (p2 : ℚ) := by
      have : ((p2.toNat : Nat) : Int) = p2 := Int.toNat_of_nonneg hp2
      exact_mod_cast this
    have e1 : roundF64 p1 q1 = roundPos p1.toNat q1 := by
      unfold roundF64
      rw [if_neg hz, if_pos hpos1]
    have e2 : roundF64 p2 q2 = roundPos p2.toNat q2 := by
      unfold roundF64
      rw [if_neg (by omega), if_pos hpos2]
    rw [e1, e2]
    exact roundPos_mono p1.toNat q1 p2.toNat q2 (by omega) hq1 (by omega) hq2
      (by rw [hc1, hc2]; exact h)

theorem int64OfFloat_eq_floor (x : Frac) (hn : 0 ≤ x.num) : int64OfFloat x = ⌊x.toRat⌋ := by
  unfold int64OfFloat Frac.toRat
  rw [Int.tdiv_eq_ediv hn (Int.ofNat_nonneg _), Rat.floor_intCast_div_natCast]

theorem roundF64_int_pos (rt : Int) (h : 0 < rt) :
    0 < (roundF64 rt 1).den ∧ 0 < (roundF64 rt 1).num := by
  obtain ⟨hyd, hyn, hyv⟩ := roundF64_spec rt 1 (le_of_lt h) (by norm_num)
  have hrt : (0 : ℚ) < (rt : ℚ) := by exact_mod_cast h
  simp only [Nat.cast_one, div_one] at hyv
  rw [abs_le] at hyv
  have hylow : (rt : ℚ) * (1 - 1 / 2 ^ 53) ≤ (roundF64 rt 1).toRat := by linarith [hyv.1]
  have hypos : (0 : ℚ) < (roundF64 rt 1).toRat :=
    lt_of_lt_of_le (mul_pos hrt (by norm_num)) hylow
  refine ⟨hyd, ?_⟩
  rcases lt_or_eq_of_le hyn with h1 | h1
  · exact h1
  · exfalso
    unfold Frac.toRat at hypos
    rw [← h1] at hypos
    simp at hypos

theorem fdiv_mono (x1 x2 y : Frac) (hx1n : 0 ≤ x1.num) (hx1d : 0 < x1.den)
    (hx2d : 0 < x2.den) (hyn : 0 < y.num) (hyd : 0 < y.den) (h : x1.toRat ≤ x2.toRat) :
    (fdiv x1 y).toRat ≤ (fdiv x2 y).toRat := by
  have hYq : (0 : ℚ) < y.toRat := by
    unfold Frac.toRat
    exact div_pos (by exact_mod_cast hyn) (by exact_mod_cast hyd)
  have hcast : ((y.num.toNat : Nat) : ℚ) = (y.num : ℚ) := by
    have : ((y.num.toNat : Nat) : Int) = y.num := Int.toNat_of_nonneg (le_of_lt hyn)
    exact_mod_cast this
  have hval : ∀ x : Frac, 0 < x.den →
      ((x.num * (y.den : Int) : Int) : ℚ) / ((x.den * y.num.toNat : Nat) : ℚ) =
        x.toRat / y.toRat := by
    intro x hxd
    have hxd1 : (x.den : ℚ) ≠ 0 := by exact_mod_cast (Nat.pos_iff_ne_zero.mp hxd)
    have hyd1 : (y.den : ℚ) ≠ 0 := by exact_mod_cast (Nat.pos_iff_ne_zero.mp hyd)
    have hyn1 : (y.num : ℚ) ≠ 0 := by exact_mod_cast (ne_of_gt hyn)
    unfold Frac.toRat
    push_cast
    rw [hcast]
    field_simp
  have hynat : 0 < y.num.toNat := by omega
  have hfr : ((x1.num * (y.den : Int) : Int) : ℚ) / ((x1.den * y.num.toNat : Nat) : ℚ) ≤
      ((x2.num * (y.den : Int) : Int) : ℚ) / ((x2.den * y.num.toNat : Nat) : ℚ) := by
    rw [hval x1 hx1d, hval x2 hx2d]
    exact div_le_div_of_nonneg_right h (le_of_lt hYq)
  unfold fdiv
  rw [if_pos (le_of_lt hyn), if_pos (le_of_lt hyn)]
  exact roundF64_mono (x1.num * (y.den : Int)) (x2.num * (y.den : Int))
    (x1.den * y.num.toNat) (x2.den * y.num.toNat) (mul_nonneg hx1n (Int.ofNat_nonneg _))
    (Nat.mul_pos hx1d hynat) (Nat.mul_pos hx2d hynat) hfr

theorem fmul_1e6_mono (x1 x2 : Frac) (hx1n : 0 ≤ x1.num) (hx1d : 0 < x1.den)
    (hx2d : 0 < x2.den) (h : x1.toRat ≤ x2.toRat) :
    (fmul x1 f1e6).toRat ≤ (fmul x2 f1e6).toRat := by
  have hval : ∀ x : Frac, 0 < x.den →
      ((x.num * 1000000 : Int) : ℚ) / ((x.den * 1 : Nat) : ℚ) = x.toRat * 1000000 := by
    intro x hxd
    have hxd1 : (x.den : ℚ) ≠ 0 := by exact_mod_cast (Nat.pos_iff_ne_zero.mp hxd)
    unfold Frac.toRat
    push_cast
    field_simp
  have hfr : ((x1.num * 1000000 : Int) : ℚ) / ((x1.den * 1 : Nat) : ℚ) ≤
      ((x2.num * 1000000 : Int) : ℚ) / ((x2.den * 1 : Nat) : ℚ) := by
    rw [hval x1 hx1d, hval x2 hx2d]
    exact mul_le_mul_of_nonneg_right h (by norm_num)
  unfold fmul f1e6
  exact roundF64_mono (x1.num * 1000000) (x2.num * 1000000) (x1.den * 1) (x2.den * 1)
    (by omega) (by omega) (by omega) hfr

theorem int64OfFloat_mono (x1 x2 : Frac) (hx1n : 0 ≤ x1.num) (hx2n : 0 ≤ x2.num)
    (h : x1.toRat ≤ x2.toRat) : int64OfFloat x1 ≤ int64OfFloat x2 := by
  rw [int64OfFloat_eq_floor x1 hx1n, int64OfFloat_eq_floor x2 hx2n]
  exact Int.floor_le_floor h

theorem float64OfInt_mono (n1 n2 : Int) (h0 : 0 ≤ n1) (h : n1 ≤ n2) :
    (float64OfInt n1).toRat ≤ (float64OfInt n2).toRat := by
  have hq : ((n1 : Int) : ℚ) / ((1 : Nat) : ℚ) ≤ ((n2 : Int) : ℚ) / ((1 : Nat) : ℚ) := by
    simp only [Nat.cast_one, div_one]
    exact_mod_cast h
  unfold float64OfInt
  exact roundF64_mono n1 n2 1 1 h0 (by norm_num) (by norm_num) hq

/-- The reported delay does not decrease when the excess grows, the scaled rate being
fixed and positive. -/
theorem delayOf_mono (ex1 ex2 rt : Int) (h0 : 0 ≤ ex1) (h : ex1 ≤ ex2) (hrt : 0 < rt) :
    delayOf ex1 rt ≤ delayOf ex2 rt := by
  obtain ⟨hyd, hyn⟩ := roundF64_int_pos rt hrt
  obtain ⟨hx1d, hx1n, -⟩ := roundF64_spec ex1 1 h0 (by norm_num)
  obtain ⟨hx2d, hx2n, -⟩ := roundF64_spec ex2 1 (le_trans h0 h) (by norm_num)
  have hX := float64OfInt_mono ex1 ex2 h0 h
  have hQ := fdiv_mono (float64OfInt ex1) (float64OfInt ex2) (float64OfInt rt) hx1n hx1d
    hx2d hyn hyd hX
  obtain ⟨hq1d, hq1n, -⟩ := fdiv_spec (float64OfInt ex1) (float64OfInt rt) hx1n hx1d hyn hyd
  obtain ⟨hq2d, hq2n, -⟩ := fdiv_spec (float64OfInt ex2) (float64OfInt rt) hx2n hx2d hyn hyd
  have hM := fmul_1e6_mono _ _ hq1n hq1d hq2d hQ
  obtain ⟨-, hm1n, -⟩ := fmul_1e6_spec _ hq1n hq1d
  obtain ⟨-, hm2n, -⟩ := fmul_1e6_spec _ hq2n hq2d
  exact int64OfFloat_mono _ _ hm1n hm2n hM


/-! ## Calls at one and the same clock reading -/

theorem callsAt_same_tick (rate burst : Nat) (nodelay : Bool) (res t : Int)
    (hr : 0 < rate) (hr32 : rate < 2 ^ 32) (hb32 : burst < 2 ^ 32) (hres : recognized res)
    (ht : isInt64 t) : ∀ (n i : Nat), i + n ≤ burst →
    callsAt { freshLimiter rate burst nodelay res with excess := (i : Int) * Int.tdiv 1000000000 res, last := Int.tdiv t res }
        (List.replicate n t) =
      Except.ok { freshLimiter rate burst nodelay res with excess := ((i + n : Nat) : Int) * Int.tdiv 1000000000 res, last := Int.tdiv t res } := by
  intro n
  induction n with
  | zero =>
    intro i _
    rfl
  | succ n ih =>
    intro i hi
    rw [List.replicate_succ]
    simp only [callsAt]
    rw [same_tick_call rate burst nodelay res t i hr hr32 hb32 hres ht (by omega),
      if_pos (by omega)]
    have h := ih (i + 1) (by omega)
    rw [Nat.add_right_comm i 1 n] at h
    exact h

theorem callsAt_fresh_same_tick (rate burst : Nat) (nodelay : Bool) (res t : Int)
    (hr : 0 < rate) (hr32 : rate < 2 ^ 32) (hb32 : burst < 2 ^ 32) (hres : recognized res)
    (ht : isInt64 t) (hhour : timeHour < t)
    (hrate : (rate : Int) * Int.tdiv timeHour res < 2 ^ 63) (m : Nat) (hm : m ≤ burst) :
    callsAt (freshLimiter rate burst nodelay res) (List.replicate (m + 1) t) =
      Except.ok { freshLimiter rate burst nodelay res with excess := (m : Int) * Int.tdiv 1000000000 res, last := Int.tdiv t res } := by
  obtain ⟨h1, h2⟩ := recognized_bounds _ hres
  rw [List.replicate_succ]
  simp only [callsAt]
  rw [fresh_first_call rate burst nodelay res t hr hr32 hb32 h1 h2 ht hhour hrate]
  have h := callsAt_same_tick rate burst nodelay res t hr hr32 hb32 hres ht m 0 (by omega)
  rw [Nat.zero_add, Nat.cast_zero, zero_mul] at h
  exact h

/-- On a fresh cell, after `j ≤ burst` calls at one reading, the next call at that
reading is admitted with the binary64 delay of the excess `j * factor`, and after
`burst + 1` such calls the next one is rejected. -/
theorem idle_burst_lastCall (rate burst : Nat) (nodelay : Bool) (res t : Int)
    (hr : 0 < rate) (hr32 : rate < 2 ^ 32) (hb32 : burst < 2 ^ 32) (hres : recognized res)
    (ht : isInt64 t) (hhour : timeHour < t)
    (hrate : (rate : Int) * Int.tdiv timeHour res < 2 ^ 63) :
    (∀ j : Nat, j ≤ burst →
      lastCall (freshLimiter rate burst nodelay res) (List.replicate j t) t =
        Except.ok ((if nodelay then 0
            else delayOf ((j : Int) * Int.tdiv 1000000000 res)
              ((rate : Int) * Int.tdiv 1000000000 res), none),
          { freshLimiter rate burst nodelay res with excess := (j : Int) * Int.tdiv 1000000000 res, last := Int.tdiv t res })) ∧
      lastCall (freshLimiter rate burst nodelay res) (List.replicate (burst + 1) t) t =
        Except.ok ((0, some errorReject),
          { freshLimiter rate burst nodelay res with excess := (burst : Int) * Int.tdiv 1000000000 res, last := Int.tdiv t res }) := by
  obtain ⟨h1, h2⟩ := recognized_bounds _ hres
  constructor
  · intro j hj
    cases j with
    | zero =>
      show rateLimiter.GetDelayInMicroseconds (freshLimiter rate burst nodelay res) t = _
      rw [fresh_first_call rate burst nodelay res t hr hr32 hb32 h1 h2 ht hhour hrate,
        Nat.cast_zero, zero_mul, delayOf_zero, ite_self]
    | succ m =>
      unfold lastCall
      rw [callsAt_fresh_same_tick rate burst nodelay res t hr hr32 hb32 hres ht hhour hrate
        m (by omega)]
      dsimp only
      rw [same_tick_call rate burst nodelay res t m hr hr32 hb32 hres ht (by omega),
        if_pos hj]
  · unfold lastCall
    rw [callsAt_fresh_same_tick rate burst nodelay res t hr hr32 hb32 hres ht hhour hrate
      burst (le_refl _)]
    dsimp only
    rw [same_tick_call rate burst nodelay res t burst hr hr32 hb32 hres ht (le_refl _),
      if_neg (by omega)]


/-! ## C14: burst on an idle cell -/

set_option maxRecDepth 100000 in
/-- C14 (as stated, refuted): with rate 5, burst 41 and 1-microsecond resolution, the
42nd call at one clock reading stores excess 41000000 and the code reports the delay
8199999 microseconds, not trunc(41 * 1,000,000 / 5) = 8200000. -/
theorem C14_exact_burst_delay_counterexample :
    ¬ burstRule (fun j => Int.tdiv ((j : Int) * 1000000) 5) 5 41 false
      ResolutionEnum.Microsecond 3600000000001 := by
  intro h
  have h41 := h.1 41 (le_refl _)
  rw [(idle_burst_lastCall 5 41 false ResolutionEnum.Microsecond 3600000000001 (by decide)
    (by decide) (by decide) (Or.inl rfl) (by decide) (by decide) (by decide)).1 41
    (le_refl _)] at h41
  simp only [Except.ok.injEq, Prod.mk.injEq] at h41
  have hd : delayOf (((41 : Nat) : Int) * Int.tdiv 1000000000 ResolutionEnum.Microsecond)
      (((5 : Nat) : Int) * Int.tdiv 1000000000 ResolutionEnum.Microsecond) = 8199999 := by
    rfl
  have h1 := h41.1.1
  simp only [Bool.false_eq_true, if_false] at h1
  rw [hd] at h1
  exact absurd h1 (by decide)

/-- C14 (amended): for every cell with 0 < rate (rate and burst 32-bit, rate times one
hour of ticks below 2^63), a recognized resolution and a 64-bit clock reading `t` more
than an hour after the epoch, starting from fresh state with all calls made at `t`:
call number j+1 is admitted for every j ≤ burst, stores excess j * factor and, when
nodelay is false, reports the binary64 delay int64(float64(j * factor) /
float64(rate * factor) * 1e6), a non-decreasing sequence starting at 0 that is within
1 microsecond of trunc(j * 1,000,000 / rate); call number burst + 2 is rejected and
leaves the excess burst * factor. -/
theorem C14_idle_burst (rate burst : Nat) (nodelay : Bool) (res : Resolution) (t : Int)
    (hr : 0 < rate) (hr32 : rate < 2 ^ 32) (hb32 : burst < 2 ^ 32) (hres : recognized res)
    (ht : isInt64 t) (hhour : timeHour < t)
    (hrate : (rate : Int) * Int.tdiv timeHour res < 2 ^ 63) :
    burstRule (fun j => delayOf ((j : Int) * Int.tdiv 1000000000 res)
        ((rate : Int) * Int.tdiv 1000000000 res)) rate burst nodelay res t ∧
      ∀ j : Nat, j ≤ burst →
        |delayOf ((j : Int) * Int.tdiv 1000000000 res)
            ((rate : Int) * Int.tdiv 1000000000 res) -
          Int.tdiv ((j : Int) * 1000000) (rate : Int)| ≤ 1 := by
  obtain ⟨hF1, hF2⟩ := recognized_factor _ hres
  obtain ⟨hadm, hrej⟩ :=
    idle_burst_lastCall rate burst nodelay res t hr hr32 hb32 hres ht hhour hrate
  have hr0 : (0 : Int) < (rate : Int) := by exact_mod_cast hr
  have hrq : (rate : Int) < 2 ^ 32 := by exact_mod_cast hr32
  have hbq : (burst : Int) < 2 ^ 32 := by exact_mod_cast hb32
  refine ⟨⟨hadm, hrej, ?_, ?_⟩, ?_⟩
  · show delayOf (((0 : Nat) : Int) * Int.tdiv 1000000000 res) _ = 0
    rw [Nat.cast_zero, zero_mul, delayOf_zero]
  · intro i j hij _
    have hi0 : (0 : Int) ≤ (i : Int) := Int.ofNat_nonneg _
    have hijq : (i : Int) ≤ (j : Int) := by exact_mod_cast hij
    exact delayOf_mono _ _ _ (mul_nonneg hi0 (by omega))
      (mul_le_mul_of_nonneg_right hijq (by omega)) (mul_pos hr0 (by omega))
  · intro j hj
    have hj0 : (0 : Int) ≤ (j : Int) := Int.ofNat_nonneg _
    have hjb : (j : Int) ≤ (burst : Int) := by exact_mod_cast hj
    have hF0 : (0 : Int) < Int.tdiv 1000000000 res := by omega
    have hc := (delayOf_close ((j : Int) * Int.tdiv 1000000000 res) rate burst
      (Int.tdiv 1000000000 res) hF1 hF2 hr0 hrq hbq (mul_nonneg hj0 (by omega))
      (mul_le_mul_of_nonneg_right hjb (by omega))).2.2
    have hq : Int.tdiv ((j : Int) * Int.tdiv 1000000000 res * 1000000)
        ((rate : Int) * Int.tdiv 1000000000 res) =
        Int.tdiv ((j : Int) * 1000000) (rate : Int) := by
      rw [Int.tdiv_eq_ediv (mul_nonneg (mul_nonneg hj0 (by omega)) (by decide))
          (le_of_lt (mul_pos hr0 hF0)),
        Int.tdiv_eq_ediv (mul_nonneg hj0 (by decide)) (le_of_lt hr0),
        mul_right_comm (j : Int) (Int.tdiv 1000000000 res) 1000000]
      exact Int.mul_ediv_mul_of_pos_left _ _ hF0
    rw [hq] at hc
    exact hc

/-- C14 witness: rate 1000, burst 10, 1-microsecond resolution, all calls one nanosecond
after the first hour. -/
theorem C14_idle_burst_witness :
    (0 < 1000 ∧ 1000 < 2 ^ 32 ∧ 10 < 2 ^ 32 ∧ recognized ResolutionEnum.Microsecond ∧
      isInt64 3600000000001 ∧ timeHour < 3600000000001 ∧
      ((1000 : Nat) : Int) * Int.tdiv timeHour ResolutionEnum.Microsecond < 2 ^ 63) ∧
    (burstRule (fun j => delayOf ((j : Int) * Int.tdiv 1000000000 ResolutionEnum.Microsecond)
        (((1000 : Nat) : Int) * Int.tdiv 1000000000 ResolutionEnum.Microsecond)) 1000 10
        false ResolutionEnum.Microsecond 3600000000001 ∧
      ∀ j : Nat, j ≤ 10 →
        |delayOf ((j : Int) * Int.tdiv 1000000000 ResolutionEnum.Microsecond)
            (((1000 : Nat) : Int) * Int.tdiv 1000000000 ResolutionEnum.Microsecond) -
          Int.tdiv ((j : Int) * 1000000) ((1000 : Nat) : Int)| ≤ 1) :=
  ⟨⟨by decide, by decide, by decide, Or.inl rfl, by decide, by decide, by decide⟩,
    C14_idle_burst 1000 10 false ResolutionEnum.Microsecond 3600000000001 (by decide)
      (by decide) (by decide) (Or.inl rfl) (by decide) (by decide) (by decide)⟩


/-! ## Calls paced by the reported delay -/

/-- At 1-microsecond resolution the reported delay `d` of an excess up to 2^51 is the
integer quotient of the excess by the rate, up to one unit: `rate * d ≤ excess ≤
rate * d + rate`. -/
theorem delayOf_microsecond_residue (ex rate : Int) (h0 : 0 ≤ ex) (h1 : ex ≤ 2 ^ 51)
    (hr0 : 0 < rate) (hr1 : rate < 2 ^ 32) :
    0 ≤ delayOf ex (rate * 1000000) ∧ rate * delayOf ex (rate * 1000000) ≤ ex ∧
      ex ≤ rate * delayOf ex (rate * 1000000) + rate ∧ delayOf ex (rate * 1000000) ≤ ex := by
  have hrt0 : 0 < rate * 1000000 := by omega
  have hrt1 : rate * 1000000 < 2 ^ 53 := by omega
  obtain ⟨hd0, hup, hlo⟩ := delayOf_bounds ex (rate * 1000000) h0 (by omega) hrt0 hrt1
  have hrq : (0 : ℚ) < (rate : ℚ) := by exact_mod_cast hr0
  have hexq : (0 : ℚ) ≤ (ex : ℚ) := by exact_mod_cast h0
  have hexq1 : (ex : ℚ) ≤ 2 ^ 51 := by exact_mod_cast h1
  have hquot : (ex : ℚ) / ((rate * 1000000 : Int) : ℚ) * 1000000 = (ex : ℚ) / (rate : ℚ) := by
    push_cast
    field_simp
    ring
  rw [hquot] at hup hlo
  have hc1 : (ex : ℚ) * ((1 + 1 / 2 ^ 53) ^ 2 - 1) ≤ 2 ^ 51 * ((1 + 1 / 2 ^ 53) ^ 2 - 1) :=
    mul_le_mul_of_nonneg_right hexq1 (by norm_num)
  have hc2 : (ex : ℚ) * (1 - (1 - 1 / 2 ^ 53) ^ 2) ≤ 2 ^ 51 * (1 - (1 - 1 / 2 ^ 53) ^ 2) :=
    mul_le_mul_of_nonneg_right hexq1 (by norm_num)
  have hn1 : (2 : ℚ) ^ 51 * ((1 + 1 / 2 ^ 53) ^ 2 - 1) < 1 := by norm_num
  have hn2 : (2 : ℚ) ^ 51 * (1 - (1 - 1 / 2 ^ 53) ^ 2) < 1 := by norm_num
  have hupq : (rate : ℚ) * ((delayOf ex (rate * 1000000) : Int) : ℚ) < (ex : ℚ) + 1 := by
    have h := mul_le_mul_of_nonneg_left hup (le_of_lt hrq)
    have e1 : (rate : ℚ) * ((ex : ℚ) / (rate : ℚ) * (1 + 1 / 2 ^ 53) ^ 2) =
        (ex : ℚ) + (ex : ℚ) * ((1 + 1 / 2 ^ 53) ^ 2 - 1) := by
      field_simp
      ring
    rw [e1] at h
    linarith
  have hloq : (ex : ℚ) - 1 <
      (rate : ℚ) * (((delayOf ex (rate * 1000000) : Int) : ℚ) + 1) := by
    have h := mul_lt_mul_of_pos_left hlo hrq
    have e1 : (rate : ℚ) * ((ex : ℚ) / (rate : ℚ) * (1 - 1 / 2 ^ 53) ^ 2) =
        (ex : ℚ) - (ex : ℚ) * (1 - (1 - 1 / 2 ^ 53) ^ 2) := by
      field_simp
      ring
    rw [e1] at h
    linarith
  have hupz : rate * delayOf ex (rate * 1000000) < ex + 1 := by exact_mod_cast hupq
  have hloz : ex - 1 < rate * (delayOf ex (rate * 1000000) + 1) := by exact_mod_cast hloq
  have hdr : delayOf ex (rate * 1000000) ≤ rate * delayOf ex (rate * 1000000) :=
    le_mul_of_one_le_left hd0 (by omega)
  rw [mul_add, mul_one] at hloz
  refine ⟨hd0, by omega, by omega, by omega⟩

theorem tdiv_add_mul_1000 (t d : Int) (ht : 0 ≤ t) (hd : 0 ≤ d) :
    Int.tdiv (t + d * 1000) 1000 = Int.tdiv t 1000 + d := by
  rw [Int.tdiv_eq_ediv (by omega) (by decide), Int.tdiv_eq_ediv ht (by decide)]
  exact Int.add_mul_ediv_right t d (by decide)

/-- One paced call at 1-microsecond resolution: the stored excess is `e`, the previous
call was made at `t0` and reported `d`, and `e - rate * d` lies between 0 and `rate`. -/
theorem paced_step (rate burst : Nat) (res e d t0 : Int) (hres : res = 1000)
    (hr : 0 < rate) (hr6 : rate ≤ 1000000) (hb : 2 ≤ burst) (hb32 : burst < 2 ^ 32)
    (ht0 : 0 ≤ t0) (ht1 : t0 + d * 1000 < 2 ^ 63) (hd0 : 0 ≤ d) (hd1 : d ≤ 2000000)
    (h0 : 0 ≤ e - (rate : Int) * d) (h1 : e - (rate : Int) * d ≤ (rate : Int)) :
    rateLimiter.GetDelayInMicroseconds
        { freshLimiter rate burst false res with excess := e, last := Int.tdiv t0 res }
        (t0 + d * 1000) =
      Except.ok ((delayOf (e - (rate : Int) * d + 1000000) ((rate : Int) * 1000000), none),
        { freshLimiter rate burst false res with excess := e - (rate : Int) * d + 1000000, last := Int.tdiv (t0 + d * 1000) res }) := by
  subst hres
  have hF : Int.tdiv 1000000000 1000 = 1000000 := by decide
  have hH : Int.tdiv timeHour 1000 = 3600000000 := by decide
  have htick := tdiv_add_mul_1000 t0 d ht0 hd0
  have hr6q : (rate : Int) ≤ 1000000 := by exact_mod_cast hr6
  have hbq : (2 : Int) ≤ (burst : Int) := by exact_mod_cast hb
  have hel : Int.tdiv (t0 + d * 1000) 1000 - Int.tdiv t0 1000 = d := by omega
  have hmin : min d (3600000000 : Int) = d := min_eq_left (by omega)
  have hG := GetDelay_eq_exact
    { freshLimiter rate burst false 1000 with excess := e, last := Int.tdiv t0 1000 }
    (t0 + d * 1000) (by
      show rate ≠ 0
      omega) (by
      show rate < 2 ^ 32
      omega) hb32 (by
      show (1 : Int) ≤ 1000
      decide) (by
      show (1000 : Int) ≤ 1000000000
      decide) (by
      unfold isInt64
      omega) (by
      show isInt64 (Int.tdiv (t0 + d * 1000) 1000 - Int.tdiv t0 1000)
      rw [hel]
      unfold isInt64
      omega) (by
      show isInt64 (e - (rate : Int) *
        min (Int.tdiv (t0 + d * 1000) 1000 - Int.tdiv t0 1000) (Int.tdiv timeHour 1000) +
        Int.tdiv 1000000000 1000)
      rw [hel, hH, hF, hmin]
      unfold isInt64
      omega)
  have hmax : max 0 (e - (rate : Int) *
      min (Int.tdiv (t0 + d * 1000) 1000 - Int.tdiv t0 1000) (Int.tdiv timeHour 1000) +
      Int.tdiv 1000000000 1000) = e - (rate : Int) * d + 1000000 := by
    rw [hel, hH, hF, hmin]
    exact max_eq_right (by omega)
  dsimp only [freshLimiter, NewRateLimiter] at hG ⊢
  rw [hmax, hF] at hG
  rw [hG, if_neg (by omega)]
  simp

/-- The calls that follow a paced call: all are admitted and their delays add up to
`n * 1000000 / rate` up to the residue of the last one. -/
theorem paced_tail (rate burst : Nat) (res : Int) (hres : res = 1000) (hr : 0 < rate)
    (hr6 : rate ≤ 1000000) (hb : 2 ≤ burst) (hb32 : burst < 2 ^ 32) :
    ∀ (n : Nat) (e d t0 : Int), 0 ≤ t0 → t0 + d * 1000 + (n : Int) * 2000000000 < 2 ^ 63 →
      0 ≤ d → d ≤ 2000000 → 0 ≤ e - (rate : Int) * d → e - (rate : Int) * d ≤ (rate : Int) →
      ∃ out r2,
        pacedCalls n
            { freshLimiter rate burst false res with excess := e, last := Int.tdiv t0 res }
            (t0 + d * 1000) = Except.ok (out, r2) ∧
          out.length = n ∧ (∀ x ∈ out, x.2 = none) ∧
          (rate : Int) * (out.map Prod.fst).sum ≤ (n : Int) * 1000000 + (e - (rate : Int) * d) ∧
          (n : Int) * 1000000 + (e - (rate : Int) * d) ≤
            (rate : Int) * (out.map Prod.fst).sum + (rate : Int) := by
  intro n
  induction n with
  | zero =>
    intro e d t0 _ _ _ _ h0 h1
    refine ⟨[], _, rfl, rfl, ?_, ?_, ?_⟩
    · intro x hx
      exact absurd hx (List.not_mem_nil x)
    · simp only [List.map_nil, List.sum_nil, mul_zero, Nat.cast_zero, zero_mul, zero_add]
      exact h0
    · simp only [List.map_nil, List.sum_nil, mul_zero, Nat.cast_zero, zero_mul, zero_add]
      exact h1
  | succ n ih =>
    intro e d t0 ht0 ht1 hd0 hd1 h0 h1
    have hr0 : (0 : Int) < (rate : Int) := by exact_mod_cast hr
    have hr6q : (rate : Int) ≤ 1000000 := by exact_mod_cast hr6
    have hn0 : (0 : Int) ≤ (n : Int) := Int.ofNat_nonneg _
    push_cast at ht1
    obtain ⟨hq0, hq1, hq2, hq3⟩ := delayOf_microsecond_residue
      (e - (rate : Int) * d + 1000000) (rate : Int) (by omega) (by omega) hr0 (by omega)
    obtain ⟨out, r2, hrun, hlen, herr, hs1, hs2⟩ := ih (e - (rate : Int) * d + 1000000)
      (delayOf (e - (rate : Int) * d + 1000000) ((rate : Int) * 1000000)) (t0 + d * 1000)
      (by omega) (by omega) hq0 (by omega) (by omega) (by omega)
    refine ⟨(delayOf (e - (rate : Int) * d + 1000000) ((rate : Int) * 1000000), none) :: out,
      r2, ?_, ?_, ?_, ?_, ?_⟩
    · simp only [pacedCalls]
      rw [paced_step rate burst res e d t0 hres hr hr6 hb hb32 ht0 (by omega) hd0 hd1 h0 h1]
      dsimp only
      rw [hrun]
    · simp [hlen]
    · intro x hx
      rcases List.mem_cons.mp hx with h | h
      · rw [h]
      · exact herr x h
    · simp only [List.map_cons, List.sum_cons, mul_add]
      push_cast
      omega
    · simp only [List.map_cons, List.sum_cons, mul_add]
      push_cast
      omega

/-! ## C13: aggregate rate of a sequential caller -/

/-- C13: for a single limiter with 1-microsecond resolution, nodelay = false,
0 < rate ≤ 1,000,000 and 2 ≤ burst (a uint32), starting from fresh state with the first
call at a clock reading `t` more than one hour after the epoch, if n + 1 calls are made
one after another, each exactly the reported delay after the previous one (the clock
readings staying below 2^63 nanoseconds), then all n + 1 calls return, none is rejected,
and the sum of the reported delays is within 1 microsecond of n * 1,000,000 / rate. -/
theorem C13_paced_calls_conform (rate burst n : Nat) (t : Int) (hr : 0 < rate)
    (hr6 : rate ≤ 1000000) (hb : 2 ≤ burst) (hb32 : burst < 2 ^ 32) (hhour : timeHour < t)
    (hclock : t + (n : Int) * 2000000000 < 2 ^ 63) :
    ∃ out r2,
      pacedCalls (n + 1) (freshLimiter rate burst false ResolutionEnum.Microsecond) t =
          Except.ok (out, r2) ∧
        out.length = n + 1 ∧ (∀ x ∈ out, x.2 = none) ∧
        |(((out.map Prod.fst).sum : Int) : ℚ) - (n : ℚ) * 1000000 / (rate : ℚ)| ≤ 1 := by
  have hH : Int.tdiv timeHour ResolutionEnum.Microsecond = 3600000000 := by decide
  have hr6q : (rate : Int) ≤ 1000000 := by exact_mod_cast hr6
  have hr0 : (0 : Int) < (rate : Int) := by exact_mod_cast hr
  have hn0 : (0 : Int) ≤ (n : Int) := Int.ofNat_nonneg _
  have ht0 : timeHour = 3600000000000 := rfl
  rw [ht0] at hhour
  have hfirst := fresh_first_call rate burst false ResolutionEnum.Microsecond t hr
    (by omega) hb32 (by decide) (by decide) (by
      unfold isInt64
      omega) (by
      rw [ht0]
      exact hhour) (by
      rw [hH]
      omega)
  obtain ⟨out, r2, hrun, hlen, herr, hs1, hs2⟩ := paced_tail rate burst
    ResolutionEnum.Microsecond rfl hr hr6 hb hb32 n 0 0 t (by omega) (by omega)
    (le_refl _) (by decide) (by omega) (by omega)
  refine ⟨(0, none) :: out, r2, ?_, ?_, ?_, ?_⟩
  · simp only [pacedCalls]
    rw [hfirst]
    dsimp only
    rw [hrun]
  · simp [hlen]
  · intro x hx
    rcases List.mem_cons.mp hx with h | h
    · rw [h]
    · exact herr x h
  · have hrq : (0 : ℚ) < (rate : ℚ) := by exact_mod_cast hr0
    have h1 : (rate : Int) * (out.map Prod.fst).sum ≤ (n : Int) * 1000000 := by omega
    have h2 : (n : Int) * 1000000 ≤ (rate : Int) * (out.map Prod.fst).sum + (rate : Int) := by
      omega
    have h1q : (rate : ℚ) * (((out.map Prod.fst).sum : Int) : ℚ) ≤ (n : ℚ) * 1000000 := by
      exact_mod_cast h1
    have h2q : (n : ℚ) * 1000000 ≤
        (rate : ℚ) * (((out.map Prod.fst).sum : Int) : ℚ) + (rate : ℚ) := by
      exact_mod_cast h2
    simp only [List.map_cons, List.sum_cons, zero_add]
    rw [abs_le]
    constructor
    · rw [neg_le_sub_iff_le_add, div_le_iff₀ hrq]
      linarith
    · rw [sub_le_iff_le_add, ← sub_le_iff_le_add', le_div_iff₀ hrq]
      nlinarith

/-- C13 witness: the limiter of `TestNormal1` (rate 1000, burst 10), 10000 calls, the
first at UnixNano 1700000000000000000. -/
theorem C13_paced_calls_conform_witness :
    (0 < 1000 ∧ 1000 ≤ 1000000 ∧ 2 ≤ 10 ∧ 10 < 2 ^ 32 ∧
      timeHour < 1700000000000000000 ∧
      (1700000000000000000 : Int) + ((9999 : Nat) : Int) * 2000000000 < 2 ^ 63) ∧
    ∃ out r2,
      pacedCalls (9999 + 1) (freshLimiter 1000 10 false ResolutionEnum.Microsecond)
          1700000000000000000 = Except.ok (out, r2) ∧
        out.length = 9999 + 1 ∧ (∀ x ∈ out, x.2 = none) ∧
        |(((out.map Prod.fst).sum : Int) : ℚ) - ((9999 : Nat) : ℚ) * 1000000 /
          ((1000 : Nat) : ℚ)| ≤ 1 :=
  ⟨⟨by decide, by decide, by decide, by decide, by decide, by decide⟩,
    C13_paced_calls_conform 1000 10 9999 1700000000000000000 (by decide) (by decide)
      (by decide) (by decide) (by decide) (by decide)⟩


/-! ## C21: clock jumps -/

set_option maxRecDepth 100000 in
/-- C21 (as stated, refuted): `limiterAhead` is the state that
`NewRateLimiter(1).SetBurst(10)` reaches by a call at 1700000000005000000 ns; a call at
the earlier reading 1700000000000000000 ns (five ticks back) uses the elapsed value -5,
is admitted and raises the stored excess from 0 to 1005, more than the factor 1000. -/
theorem C21_backward_clock_counterexample :
    callsAt (freshLimiter 1 10 false ResolutionEnum.Millisecond) [1700000000005000000] =
        Except.ok limiterAhead ∧
      elapsedOf limiterAhead.resolution limiterAhead.last 1700000000000000000 = -5 ∧
      factorOf limiterAhead.resolution = 1000 ∧
      (∃ d : Int, rateLimiter.GetDelayInMicroseconds limiterAhead 1700000000000000000 =
        Except.ok ((d, none), { limiterAhead with excess := 1005, last := 1700000000000 })) ∧
      ¬ clockJumpRule limiterAhead 1700000000000000000 := by
  have he : elapsedOf limiterAhead.resolution limiterAhead.last 1700000000000000000 = -5 := by
    decide
  refine ⟨rfl, he, by decide, ⟨_, rfl⟩, ?_⟩
  intro h
  have h0 := h.1
  rw [he] at h0
  exact absurd h0 (by decide)

/-- C21 (amended): for every limiter with 0 < rate (rate and burst 32-bit), a resolution
between 1 ns and 1 s, a stored excess ≥ 0 and a clock reading for which the tick
difference and the tentative excess fit in 64 bits: the elapsed value used for the drain
is at most one hour of ticks, and an admitted call lowers the stored excess by at most
rate times one hour of ticks.  If the tick `now` is not before the stored `last`, the
elapsed value is ≥ 0 and an admitted call raises the stored excess by at most the
factor.  If `now` is before `last` (backward clock jump), the elapsed value is the
negative difference `now - last` and an admitted call raises the stored excess by
exactly `rate * (last - now) + factor`. -/
theorem C21_clock_jump_bound (r : rateLimiter) (t : Int) (hr : 0 < r.rate)
    (hr32 : r.rate < 2 ^ 32) (hb32 : r.burst < 2 ^ 32) (h1 : 1 ≤ r.resolution)
    (h2 : r.resolution ≤ 1000000000) (ht : isInt64 t)
    (hd : isInt64 (Int.tdiv t r.resolution - r.last))
    (he : isInt64 (r.excess - (r.rate : Int) *
      min (Int.tdiv t r.resolution - r.last) (Int.tdiv timeHour r.resolution) +
      Int.tdiv 1000000000 r.resolution))
    (hex : 0 ≤ r.excess) :
    elapsedOf r.resolution r.last t ≤ hourTicks r.resolution ∧
      (r.last ≤ tickOf t r.resolution → 0 ≤ elapsedOf r.resolution r.last t) ∧
      (tickOf t r.resolution < r.last →
        elapsedOf r.resolution r.last t = tickOf t r.resolution - r.last) ∧
      ∀ (d : Int) (r1 : rateLimiter),
        rateLimiter.GetDelayInMicroseconds r t = Except.ok ((d, none), r1) →
          r.excess - (r.rate : Int) * hourTicks r.resolution ≤ r1.excess ∧
          (r.last ≤ tickOf t r.resolution →
            r1.excess ≤ r.excess + factorOf r.resolution) ∧
          (tickOf t r.resolution < r.last →
            r1.excess = r.excess + (r.rate : Int) * (r.last - tickOf t r.resolution) +
              factorOf r.resolution) := by
  obtain ⟨hfe, hf1, hf2⟩ := factorOf_eq r.resolution h1 h2
  have hH := tdiv_bounds_of_nonneg timeHour r.resolution (by decide) h1
  have hr0 : (0 : Int) ≤ (r.rate : Int) := Int.ofNat_nonneg _
  have hG := GetDelay_eq_exact r t (by omega) hr32 hb32 h1 h2 ht hd he
  rw [elapsedOf_eq r.resolution r.last t h1 ht hd, hourTicks_eq r.resolution h1,
    tickOf_eq t r.resolution ht h1, hfe]
  have hmH : min (Int.tdiv t r.resolution - r.last) (Int.tdiv timeHour r.resolution) ≤
      Int.tdiv timeHour r.resolution := min_le_right _ _
  have hfw : r.last ≤ Int.tdiv t r.resolution →
      0 ≤ min (Int.tdiv t r.resolution - r.last) (Int.tdiv timeHour r.resolution) :=
    fun h => le_min (by omega) hH.1
  have hbw : Int.tdiv t r.resolution < r.last →
      min (Int.tdiv t r.resolution - r.last) (Int.tdiv timeHour r.resolution) =
        Int.tdiv t r.resolution - r.last :=
    fun h => min_eq_left (by omega)
  refine ⟨hmH, hfw, hbw, ?_⟩
  intro d r1 hcall
  rw [hG] at hcall
  have hmul := mul_le_mul_of_nonneg_left hmH hr0
  by_cases hlt : (r.burst : Int) * Int.tdiv 1000000000 r.resolution <
      max 0 (r.excess - (r.rate : Int) *
        min (Int.tdiv t r.resolution - r.last) (Int.tdiv timeHour r.resolution) +
        Int.tdiv 1000000000 r.resolution)
  · rw [if_pos hlt] at hcall
    simp at hcall
  · rw [if_neg hlt] at hcall
    simp only [Except.ok.injEq, Prod.mk.injEq, and_true] at hcall
    rw [← hcall.2]
    show r.excess - (r.rate : Int) * Int.tdiv timeHour r.resolution ≤
        max 0 (r.excess - (r.rate : Int) *
          min (Int.tdiv t r.resolution - r.last) (Int.tdiv timeHour r.resolution) +
          Int.tdiv 1000000000 r.resolution) ∧
      (r.last ≤ Int.tdiv t r.resolution →
        max 0 (r.excess - (r.rate : Int) *
          min (Int.tdiv t r.resolution - r.last) (Int.tdiv timeHour r.resolution) +
          Int.tdiv 1000000000 r.resolution) ≤ r.excess + Int.tdiv 1000000000 r.resolution) ∧
      (Int.tdiv t r.resolution < r.last →
        max 0 (r.excess - (r.rate : Int) *
          min (Int.tdiv t r.resolution - r.last) (Int.tdiv timeHour r.resolution) +
          Int.tdiv 1000000000 r.resolution) =
        r.excess + (r.rate : Int) * (r.last - Int.tdiv t r.resolution) +
          Int.tdiv 1000000000 r.resolution)
    refine ⟨?_, ?_, ?_⟩
    · exact le_trans (by omega) (le_max_right _ _)
    · intro h
      have hm0 := mul_nonneg hr0 (hfw h)
      exact max_le (by omega) (by omega)
    · intro h
      rw [hbw h]
      have hpos : 0 ≤ (r.rate : Int) * (r.last - Int.tdiv t r.resolution) :=
        mul_nonneg hr0 (by omega)
      have hring : r.excess - (r.rate : Int) * (Int.tdiv t r.resolution - r.last) +
          Int.tdiv 1000000000 r.resolution =
          r.excess + (r.rate : Int) * (r.last - Int.tdiv t r.resolution) +
            Int.tdiv 1000000000 r.resolution := by ring
      rw [hring]
      exact max_eq_right (by omega)

/-- Instance of the amended C21: `limiterAhead` called five ticks before its stored
`last`. -/
theorem C21_clock_jump_bound_witness :
    (0 < limiterAhead.rate ∧ limiterAhead.rate < 2 ^ 32 ∧ limiterAhead.burst < 2 ^ 32 ∧
      1 ≤ limiterAhead.resolution ∧ limiterAhead.resolution ≤ 1000000000 ∧
      isInt64 1700000000000000000 ∧
      isInt64 (Int.tdiv 1700000000000000000 limiterAhead.resolution - limiterAhead.last) ∧
      isInt64 (limiterAhead.excess - (limiterAhead.rate : Int) *
        min (Int.tdiv 1700000000000000000 limiterAhead.resolution - limiterAhead.last)
          (Int.tdiv timeHour limiterAhead.resolution) +
        Int.tdiv 1000000000 limiterAhead.resolution) ∧
      0 ≤ limiterAhead.excess) ∧
    (elapsedOf limiterAhead.resolution limiterAhead.last 1700000000000000000 ≤
        hourTicks limiterAhead.resolution ∧
      (limiterAhead.last ≤ tickOf 1700000000000000000 limiterAhead.resolution →
        0 ≤ elapsedOf limiterAhead.resolution limiterAhead.last 1700000000000000000) ∧
      (tickOf 1700000000000000000 limiterAhead.resolution < limiterAhead.last →
        elapsedOf limiterAhead.resolution limiterAhead.last 1700000000000000000 =
          tickOf 1700000000000000000 limiterAhead.resolution - limiterAhead.last) ∧
      ∀ (d : Int) (r1 : rateLimiter),
        rateLimiter.GetDelayInMicroseconds limiterAhead 1700000000000000000 =
            Except.ok ((d, none), r1) →
          limiterAhead.excess - (limiterAhead.rate : Int) * hourTicks limiterAhead.resolution ≤
            r1.excess ∧
          (limiterAhead.last ≤ tickOf 1700000000000000000 limiterAhead.resolution →
            r1.excess ≤ limiterAhead.excess + factorOf limiterAhead.resolution) ∧
          (tickOf 1700000000000000000 limiterAhead.resolution < limiterAhead.last →
            r1.excess = limiterAhead.excess + (limiterAhead.rate : Int) *
                (limiterAhead.last - tickOf 1700000000000000000 limiterAhead.resolution) +
              factorOf limiterAhead.resolution)) :=
  ⟨⟨by decide, by decide, by decide, by decide, by decide, by decide, by decide, by decide,
      by decide⟩,
    C21_clock_jump_bound limiterAhead 1700000000000000000 (by decide) (by decide)
      (by decide) (by decide) (by decide) (by decide) (by decide) (by decide) (by decide)⟩

/-! ## C22: the constructors -/

/-- C22: `NewRateLimiter(rate)` yields a cell with the given rate, burst 0, nodelay false,
resolution 1 millisecond (1000000 ns), excess 0 and last 0; `NewZoneRateLimiter(rate)`
yields a registry with the same default configuration and no entry, so that a call for
any key, nil or not, at any clock reading is admitted with delay 0 and leaves the
registry as it is. -/
theorem C22_constructors_defaults {K : Type} [DecidableEq K] (rate : Nat) :
    ((NewRateLimiter rate).rate = rate ∧ (NewRateLimiter rate).burst = 0 ∧
      (NewRateLimiter rate).nodelay = false ∧
      (NewRateLimiter rate).resolution = ResolutionEnum.Millisecond ∧
      ResolutionEnum.Millisecond = 1000000 ∧
      (NewRateLimiter rate).excess = 0 ∧ (NewRateLimiter rate).last = 0) ∧
    ((NewZoneRateLimiter K rate).tolimiterMeta = (NewRateLimiter rate).tolimiterMeta ∧
      (∀ k : K, (NewZoneRateLimiter K rate).zoneMap k = none) ∧
      ∀ (key : Option K) (t : Int),
        zoneRateLimiter.GetDelayInMicroseconds (NewZoneRateLimiter K rate) key t =
          Except.ok ((0, none), NewZoneRateLimiter K rate)) := by
  refine ⟨⟨rfl, rfl, rfl, rfl, rfl, rfl, rfl⟩, rfl, fun _ => rfl, ?_⟩
  intro key t
  cases key with
  | none => rfl
  | some k => rfl

/-! ## C23: monotonicity in time -/

/-- Without overflow the clamped excess of a call does not grow when the tick of the
clock reading grows. -/
theorem excessOf_antitone (r : rateLimiter) (t1 t2 : Int) (ho1 : overflowFree r t1)
    (ho2 : overflowFree r t2)
    (ht : Int.tdiv t1 r.resolution ≤ Int.tdiv t2 r.resolution) :
    excessOf r.rate r.resolution r.excess r.last t2 ≤
      excessOf r.rate r.resolution r.excess r.last t1 := by
  have hr0 : (0 : Int) ≤ (r.rate : Int) := Int.ofNat_nonneg _
  have hmin : min (Int.tdiv t1 r.resolution - r.last) (Int.tdiv timeHour r.resolution) ≤
      min (Int.tdiv t2 r.resolution - r.last) (Int.tdiv timeHour r.resolution) :=
    min_le_min (by omega) (le_refl _)
  have hmul := mul_le_mul_of_nonneg_left hmin hr0
  have hten : tentativeOf r.rate r.resolution r.excess r.last t2 ≤
      tentativeOf r.rate r.resolution r.excess r.last t1 := by
    rw [ho1.2.2, ho2.2.2]
    omega
  rw [excessOf_eq_clamp, excessOf_eq_clamp]
  split_ifs <;> omega

/-- C23: for a limiter with rate > 0 and a fixed stored state, and two clock readings
whose ticks satisfy tick(t1) ≤ tick(t2), both calls being free of 64-bit overflow: if
`GetDelayInMicroseconds` admits at t1 then it admits at t2, and the excess stored and the
delay reported at t2 are no greater than those at t1. -/
theorem C23_waiting_never_hurts (r r1 : rateLimiter) (t1 t2 d1 : Int) (hr : 0 < r.rate)
    (ho1 : overflowFree r t1) (ho2 : overflowFree r t2)
    (ht : Int.tdiv t1 r.resolution ≤ Int.tdiv t2 r.resolution)
    (h1 : rateLimiter.GetDelayInMicroseconds r t1 = Except.ok ((d1, none), r1)) :
    ∃ d2 r2, rateLimiter.GetDelayInMicroseconds r t2 = Except.ok ((d2, none), r2) ∧
      r2.excess ≤ r1.excess ∧ d2 ≤ d1 := by
  have hrne : r.rate ≠ 0 := by omega
  have h0 : r.resolution ≠ 0 := by
    intro hz
    rw [GetDelay_resolution_zero r t1 hrne hz] at h1
    exact absurd h1 (by simp)
  have hf : factorOf r.resolution ≠ 0 := by
    intro hz
    rw [GetDelay_factor_zero r t1 hrne h0 hz] at h1
    exact absurd h1 (by simp)
  have hle := excessOf_antitone r t1 t2 ho1 ho2 ht
  have hn1 := excessOf_nonneg r.rate r.resolution r.excess r.last t1
  have hn2 := excessOf_nonneg r.rate r.resolution r.excess r.last t2
  rw [GetDelay_eq r t1 hrne h0 hf] at h1
  by_cases hlt : mul64 (r.burst : Int) (factorOf r.resolution) <
      excessOf r.rate r.resolution r.excess r.last t1
  · rw [if_pos hlt] at h1
    simp at h1
  · rw [if_neg hlt] at h1
    simp only [Except.ok.injEq, Prod.mk.injEq, and_true] at h1
    obtain ⟨hd1, hr1⟩ := h1
    rw [GetDelay_eq r t2 hrne h0 hf, if_neg (by omega)]
    refine ⟨_, _, rfl, ?_, ?_⟩
    · rw [← hr1]
      exact hle
    · rw [← hd1]
      by_cases hnd : r.nodelay = true
      · rw [if_pos hnd, if_pos hnd]
      · rw [if_neg hnd, if_neg hnd]
        by_cases hrt : 0 < mul64 (r.rate : Int) (factorOf r.resolution)
        · exact delayOf_mono _ _ _ hn2 hle hrt
        · have hrq : (0 : Int) < (r.rate : Int) := by exact_mod_cast hr
          have hb0 : (0 : Int) ≤ (r.burst : Int) := Int.ofNat_nonneg _
          rw [ho1.1] at hrt
          have hF : Int.tdiv 1000000000 r.resolution ≤ 0 := by
            by_contra hpos
            exact hrt (mul_pos hrq (by omega))
          have hb : (r.burst : Int) * Int.tdiv 1000000000 r.resolution ≤ 0 :=
            mul_nonpos_of_nonneg_of_nonpos hb0 hF
          rw [ho1.2.1] at hlt
          have e1 : excessOf r.rate r.resolution r.excess r.last t1 = 0 := by omega
          have e2 : excessOf r.rate r.resolution r.excess r.last t2 = 0 := by omega
          rw [e1, e2]

set_option maxRecDepth 100000 in
/-- Instance of C23: `limiterSlow` (rate 1, burst 10, 1 microsecond resolution, excess
5000000) called 1857147 ticks after its last call, compared with a call 2000000 ticks
after it. -/
theorem C23_waiting_never_hurts_witness :
    (0 < limiterSlow.rate ∧ overflowFree limiterSlow 1700000001857147000 ∧
      overflowFree limiterSlow 1700000002000000000 ∧
      Int.tdiv 1700000001857147000 limiterSlow.resolution ≤
        Int.tdiv 1700000002000000000 limiterSlow.resolution ∧
      rateLimiter.GetDelayInMicroseconds limiterSlow 1700000001857147000 =
        Except.ok ((4142852, none),
          { limiterSlow with excess := 4142853, last := 1700000001857147 })) ∧
    ∃ d2 r2, rateLimiter.GetDelayInMicroseconds limiterSlow 1700000002000000000 =
        Except.ok ((d2, none), r2) ∧
      r2.excess ≤ ({ limiterSlow with excess := 4142853, last := 1700000001857147 } : rateLimiter).excess ∧
      d2 ≤ 4142852 :=
  ⟨⟨by decide, ⟨rfl, rfl, rfl⟩, ⟨rfl, rfl, rfl⟩, by decide, rfl⟩,
    C23_waiting_never_hurts limiterSlow _ 1700000001857147000 1700000002000000000 4142852
      (by decide) ⟨rfl, rfl, rfl⟩ ⟨rfl, rfl, rfl⟩ (by decide) rfl⟩

/-! ## C24: the nil key -/

/-- C24: for every registry (nil receiver included for the three updates),
`AddZoneItem(nil)` and `DeleteZoneItem(nil)` return no error, `SetZoneItem(nil, ...)`
returns normally, each of them leaves the registry as it is, and
`GetDelayInMicroseconds(nil)` is admitted with delay 0 at every clock reading, whatever
the default rate, and leaves the registry as it is. -/
theorem C24_nil_key_is_inert {K : Type} [DecidableEq K] (z : Option (zoneRateLimiter K))
    (z1 : zoneRateLimiter K) (rate burst : Nat) (nodelay : Bool) (t : Int) :
    zoneRateLimiter.AddZoneItem z none = (none, z) ∧
    zoneRateLimiter.DeleteZoneItem z none = (none, z) ∧
    zoneRateLimiter.SetZoneItem z none rate burst nodelay = Except.ok z ∧
    zoneRateLimiter.GetDelayInMicroseconds z1 none t = Except.ok ((0, none), z1) := by
  refine ⟨?_, ?_, ?_, rfl⟩
  · cases z <;> rfl
  · cases z <;> rfl
  · cases z <;> rfl


/-! ## The drain product beyond 64 bits (C2, C20) and negative resolutions (C17) -/

/-- On a limiter that has never been called (`last = 0`), every clock reading at least
one hour after the epoch gives the elapsed value of the quota, one hour of ticks. -/
theorem elapsedOf_first_call (res t : Int) (h1 : 1 ≤ res) (ht : isInt64 t)
    (hhour : timeHour ≤ t) : elapsedOf res 0 t = Int.tdiv timeHour res := by
  have hti := isInt64_tdiv t res ht h1
  have hmono := tdiv_mono_of_nonneg timeHour t res (by decide) hhour h1
  rw [elapsedOf_eq res 0 t h1 ht (by rw [sub_zero]; exact hti), sub_zero]
  exact min_eq_right hmono

set_option maxRecDepth 100000 in
/-- C2 (code bug): on `limiterFast`, the limiter
`NewRateLimiter(4000000000).SetResolution(ResolutionEnum.Microsecond)` before its first
call (a `uint32` rate, a recognized resolution), at every `int64` clock reading `t` at
least one hour after the epoch the rule of the claim admits, since
`e = max 0 (0 - 4000000000 * 3600000000 + 1000000) = 0 ≤ burst * factor`; the code
rejects and leaves the limiter as it is, because `rate * elapsed` wraps around in
`int64`.  The state being unchanged, every later call is rejected in the same way. -/
theorem C2_overflow_rejects_forever (t : Int) (ht : isInt64 t) (hhour : timeHour ≤ t) :
    (0 < limiterFast.rate ∧ limiterFast.rate < 2 ^ 32 ∧ recognized limiterFast.resolution) ∧
    max 0 (limiterFast.excess - (limiterFast.rate : Int) *
        min (Int.tdiv t limiterFast.resolution - limiterFast.last)
          (Int.tdiv timeHour limiterFast.resolution) +
        Int.tdiv 1000000000 limiterFast.resolution) ≤
      (limiterFast.burst : Int) * Int.tdiv 1000000000 limiterFast.resolution ∧
    rateLimiter.GetDelayInMicroseconds limiterFast t =
      Except.ok ((0, some errorReject), limiterFast) ∧
    ¬ admissionRule limiterFast t := by
  have h1 : (1 : Int) ≤ limiterFast.resolution := by decide
  have hE : elapsedOf limiterFast.resolution limiterFast.last t = 3600000000 :=
    elapsedOf_first_call limiterFast.resolution t h1 ht hhour
  have hE0 : elapsedOf limiterFast.resolution limiterFast.last 1700000000000000000 =
      3600000000 := by decide
  have hX : excessOf limiterFast.rate limiterFast.resolution limiterFast.excess
      limiterFast.last t =
      excessOf limiterFast.rate limiterFast.resolution limiterFast.excess
        limiterFast.last 1700000000000000000 := by
    unfold excessOf
    rw [hE, hE0]
  have hlt : mul64 (limiterFast.burst : Int) (factorOf limiterFast.resolution) <
      excessOf limiterFast.rate limiterFast.resolution limiterFast.excess
        limiterFast.last t := by
    rw [hX]
    decide
  have hmin : min (Int.tdiv t limiterFast.resolution - limiterFast.last)
      (Int.tdiv timeHour limiterFast.resolution) = 3600000000 := by
    have hmono := tdiv_mono_of_nonneg timeHour t limiterFast.resolution (by decide) hhour h1
    have hl : limiterFast.last = 0 := rfl
    rw [hl, sub_zero]
    exact min_eq_right hmono
  have hle : max 0 (limiterFast.excess - (limiterFast.rate : Int) *
        min (Int.tdiv t limiterFast.resolution - limiterFast.last)
          (Int.tdiv timeHour limiterFast.resolution) +
        Int.tdiv 1000000000 limiterFast.resolution) ≤
      (limiterFast.burst : Int) * Int.tdiv 1000000000 limiterFast.resolution := by
    rw [hmin]
    decide
  have hrej : rateLimiter.GetDelayInMicroseconds limiterFast t =
      Except.ok ((0, some errorReject), limiterFast) := by
    rw [GetDelay_eq limiterFast t (by decide) (by decide) (by decide), if_pos hlt]
  refine ⟨⟨by decide, by decide, Or.inl rfl⟩, hle, hrej, ?_⟩
  intro h
  obtain ⟨d, r1, hd⟩ := h.1.2 hle
  rw [hrej] at hd
  simp at hd

/-- Instance of C2 (code bug): the first call at the clock reading
1700000000000000000 ns. -/
theorem C2_overflow_rejects_forever_witness :
    (isInt64 1700000000000000000 ∧ timeHour ≤ 1700000000000000000) ∧
    ((0 < limiterFast.rate ∧ limiterFast.rate < 2 ^ 32 ∧ recognized limiterFast.resolution) ∧
      max 0 (limiterFast.excess - (limiterFast.rate : Int) *
          min (Int.tdiv 1700000000000000000 limiterFast.resolution - limiterFast.last)
            (Int.tdiv timeHour limiterFast.resolution) +
          Int.tdiv 1000000000 limiterFast.resolution) ≤
        (limiterFast.burst : Int) * Int.tdiv 1000000000 limiterFast.resolution ∧
      rateLimiter.GetDelayInMicroseconds limiterFast 1700000000000000000 =
        Except.ok ((0, some errorReject), limiterFast) ∧
      ¬ admissionRule limiterFast 1700000000000000000) :=
  ⟨⟨by decide, by decide⟩,
    C2_overflow_rejects_forever 1700000000000000000 (by decide) (by decide)⟩

set_option maxRecDepth 100000 in
/-- The rate of `limiterFast` is served at the three coarser resolutions: the same first
call is admitted at 10 microseconds, 100 microseconds and 1 millisecond. -/
theorem limiterFast_coarser_admitted :
    (∃ d r1, rateLimiter.GetDelayInMicroseconds
        { limiterFast with resolution := ResolutionEnum.MicrosecondX10 }
        1700000000000000000 = Except.ok ((d, none), r1)) ∧
    (∃ d r1, rateLimiter.GetDelayInMicroseconds
        { limiterFast with resolution := ResolutionEnum.MicrosecondX100 }
        1700000000000000000 = Except.ok ((d, none), r1)) ∧
    (∃ d r1, rateLimiter.GetDelayInMicroseconds
        { limiterFast with resolution := ResolutionEnum.Millisecond }
        1700000000000000000 = Except.ok ((d, none), r1)) :=
  ⟨⟨_, _, rfl⟩, ⟨_, _, rfl⟩, ⟨_, _, rfl⟩⟩

/-- C20 (code bug): for every rate from 2562047789 up (the `uint32` range ends at
4294967295), every burst and nodelay, at 1 microsecond resolution the fresh cell (excess
0, last 0) satisfies the premises of the claim at every `int64` clock reading `t` at
least one hour after the epoch, the quota clamps the elapsed value to 3600000000 ticks,
and `rate * elapsed` is beyond the `int64` range: the tentative excess that the code
computes is not `excess - rate * elapsed + factor`, and the call is not overflow-free. -/
theorem C20_quota_misses_overflow (rate burst : Nat) (nodelay : Bool) (t : Int)
    (hrate : 2562047789 ≤ rate) (ht : isInt64 t) (hhour : timeHour ≤ t) :
    (recognized (freshLimiter rate burst nodelay ResolutionEnum.Microsecond).resolution ∧
      0 ≤ (freshLimiter rate burst nodelay ResolutionEnum.Microsecond).excess ∧
      (freshLimiter rate burst nodelay ResolutionEnum.Microsecond).excess ≤
        (burst : Int) * Int.tdiv 1000000000 ResolutionEnum.Microsecond ∧
      (freshLimiter rate burst nodelay ResolutionEnum.Microsecond).last ≤
        Int.tdiv t ResolutionEnum.Microsecond) ∧
    elapsedOf ResolutionEnum.Microsecond 0 t = 3600000000 ∧
    tentativeOf rate ResolutionEnum.Microsecond 0 0 t ≠
      0 - (rate : Int) * 3600000000 + 1000000 ∧
    ¬ overflowFree (freshLimiter rate burst nodelay ResolutionEnum.Microsecond) t := by
  have h1 : (1 : Int) ≤ ResolutionEnum.Microsecond := by decide
  have hH : Int.tdiv timeHour ResolutionEnum.Microsecond = 3600000000 := by decide
  have hF : Int.tdiv 1000000000 ResolutionEnum.Microsecond = 1000000 := by decide
  have hrq : (2562047789 : Int) ≤ (rate : Int) := by exact_mod_cast hrate
  have hb0 : (0 : Int) ≤ (burst : Int) := Int.ofNat_nonneg _
  have hmono := tdiv_mono_of_nonneg timeHour t ResolutionEnum.Microsecond (by decide) hhour h1
  have hE : elapsedOf ResolutionEnum.Microsecond 0 t = 3600000000 := by
    rw [elapsedOf_first_call ResolutionEnum.Microsecond t h1 ht hhour, hH]
  have hT : isInt64 (tentativeOf rate ResolutionEnum.Microsecond 0 0 t) :=
    isInt64_wrap64 _
  have hne : tentativeOf rate ResolutionEnum.Microsecond 0 0 t ≠
      0 - (rate : Int) * 3600000000 + 1000000 := by
    intro heq
    rw [heq] at hT
    unfold isInt64 at hT
    omega
  refine ⟨⟨Or.inl rfl, le_refl _, ?_, ?_⟩, hE, hne, ?_⟩
  · show (0 : Int) ≤ (burst : Int) * Int.tdiv 1000000000 ResolutionEnum.Microsecond
    rw [hF]
    omega
  · show (0 : Int) ≤ Int.tdiv t ResolutionEnum.Microsecond
    rw [hH] at hmono
    omega
  · intro h
    have h3 : tentativeOf rate ResolutionEnum.Microsecond 0 0 t =
        0 - (rate : Int) * min (Int.tdiv t ResolutionEnum.Microsecond - 0)
          (Int.tdiv timeHour ResolutionEnum.Microsecond) +
          Int.tdiv 1000000000 ResolutionEnum.Microsecond := h.2.2
    rw [sub_zero, min_eq_right hmono, hH, hF] at h3
    exact hne h3

/-- Instance of C20 (code bug): the largest `uint32` rate, burst 10, first call at the
clock reading 1700000000000000000 ns. -/
theorem C20_quota_misses_overflow_witness :
    (2562047789 ≤ 4294967295 ∧ 4294967295 < 2 ^ 32 ∧ 10 < 2 ^ 32 ∧
      isInt64 1700000000000000000 ∧ timeHour ≤ 1700000000000000000) ∧
    ((recognized (freshLimiter 4294967295 10 false ResolutionEnum.Microsecond).resolution ∧
      0 ≤ (freshLimiter 4294967295 10 false ResolutionEnum.Microsecond).excess ∧
      (freshLimiter 4294967295 10 false ResolutionEnum.Microsecond).excess ≤
        ((10 : Nat) : Int) * Int.tdiv 1000000000 ResolutionEnum.Microsecond ∧
      (freshLimiter 4294967295 10 false ResolutionEnum.Microsecond).last ≤
        Int.tdiv 1700000000000000000 ResolutionEnum.Microsecond) ∧
    elapsedOf ResolutionEnum.Microsecond 0 1700000000000000000 = 3600000000 ∧
    tentativeOf 4294967295 ResolutionEnum.Microsecond 0 0 1700000000000000000 ≠
      0 - ((4294967295 : Nat) : Int) * 3600000000 + 1000000 ∧
    ¬ overflowFree (freshLimiter 4294967295 10 false ResolutionEnum.Microsecond)
      1700000000000000000) :=
  ⟨⟨by decide, by decide, by decide, by decide, by decide⟩,
    C20_quota_misses_overflow 4294967295 10 false 1700000000000000000 (by decide)
      (by decide) (by decide)⟩

set_option maxRecDepth 100000 in
/-- C17 (as stated, refuted): the cell
`NewRateLimiter(1000).SetBurst(10).SetResolution(-1000)` has factor
`1e9 / -1000 = -1000000` and `burst * factor = -10000000`; its first call, at the clock
reading 1700000000000000000 ns, is rejected and leaves the fresh state, whose excess 0
is above `burst * factor`. -/
theorem C17_negative_resolution_counterexample :
    Int.tdiv 1000000000 (-1000) = -1000000 ∧
      rateLimiter.GetDelayInMicroseconds (freshLimiter 1000 10 false (-1000))
          1700000000000000000 =
        Except.ok ((0, some errorReject), freshLimiter 1000 10 false (-1000)) ∧
      callsAt (freshLimiter 1000 10 false (-1000)) [1700000000000000000] =
        Except.ok (freshLimiter 1000 10 false (-1000)) ∧
      ¬ (∀ (ts : List Int) (r : rateLimiter),
          callsAt (freshLimiter 1000 10 false (-1000)) ts = Except.ok r →
            0 ≤ r.excess ∧ r.excess ≤ ((10 : Nat) : Int) * Int.tdiv 1000000000 (-1000)) := by
  have hc : callsAt (freshLimiter 1000 10 false (-1000)) [1700000000000000000] =
      Except.ok (freshLimiter 1000 10 false (-1000)) := by
    rfl
  refine ⟨by decide, rfl, hc, ?_⟩
  intro h
  have h2 := (h _ _ hc).2
  exact absurd h2 (by decide)

end ratelimit
